import Mathlib

/-!
# The `zfz` pipeline stage (`Processor<T>`): a shallow embedding

Source files embedded here:

* `include/zfz/zfz_sfinae.hpp`    : `SFINAE::compare_t`
* `include/zfz/zfz_processor.hpp` : `Processor<T>` (`push_task`, `pop_task`, `fan_out`,
  `handle_fan_out_error`, the worker loop of `thread_funciton`)

Conventions of the embedding.

* `int` is a 32 bit two's complement integer and `size_t` a 64 bit unsigned integer (LP64).
  Values are kept as `Int` / `Nat`; every conversion and every unsigned operation of the source
  is written out with an explicit reduction modulo `2^32` / `2^64`.
* A member function that runs under `queue_lock_` is one atomic step on the stage's state; a
  sequence of calls is a sequential interleaving of such steps.
* A call that does not return normally yields a `Fault`: it either waits forever on the counter
  or it has undefined behaviour (an iterator moved past the end of a list, a dangling pointer).
-/

namespace zfz

/-! ## Result codes (`zfz_processor.hpp`, lines 95-104) -/

def ZFZ_PROCESSOR_UNKNOWN_ERROR : Int := -2
def ZFZ_PROCESSOR_FAIL : Int := -1
def ZFZ_PROCESSOR_SUCCESS : Int := 0
def ZFZ_PROCESSOR_TIME_OUT : Int := 1
def ZFZ_PROCESSOR_QUEUE_FULL : Int := 2
def ZFZ_PROCESSOR_QUEUE_EMPTY : Int := 3
def ZFZ_PROCESSOR_NO_WORKING_THREAD : Int := 4

/-! ## Machine integers -/

/-- Largest value of an `int`. -/
def INT_MAX : Int := 2 ^ 31 - 1

/-- Smallest value of an `int`. -/
def INT_MIN : Int := -(2 ^ 31)

/-- Range of the type `int`. -/
def is_int (i : Int) : Prop := INT_MIN ≤ i ∧ i ≤ INT_MAX

instance (i : Int) : Decidable (is_int i) := by
  unfold is_int; infer_instance

/-- Conversion of an `int` to `size_t`: the value modulo `2^64`. -/
def to_size_t (i : Int) : Nat := (i % 2 ^ 64).toNat

/-- Addition of two `size_t` values. -/
def size_t_add (a b : Nat) : Nat := (a + b) % 2 ^ 64

/-- Conversion of a `size_t` to `int`: the low 32 bits, read in two's complement. -/
def to_int (n : Nat) : Int :=
  if n % 2 ^ 32 < 2 ^ 31 then ((n % 2 ^ 32 : Nat) : Int) else ((n % 2 ^ 32 : Nat) : Int) - 2 ^ 32

/-- Upper bound on `std::list::size()`: the number of nodes of a list is at most
`max_size()`, which is below `PTRDIFF_MAX = 2^63 - 1` for every node type. -/
def LIST_MAX_SIZE : Nat := 2 ^ 63 - 1

/-! ## Calls that do not return -/

deriving instance DecidableEq for Except

/-- Why a call does not return normally. -/
inductive Fault where
  /-- The call waits on the counter with a negative time-out and no permit ever arrives. -/
  | blocks
  /-- The call has undefined behaviour in C++. -/
  | undefined
  deriving DecidableEq, Repr

/-! ## `SFINAE::compare_t` (`zfz_sfinae.hpp`, lines 27-61) -/

/-- What the payload type `T` offers to the compile-time detection of `zfz_sfinae.hpp`:
`less_than<T>::value` is true exactly when `operator<` exists (`less_than = some lt`), and
`greater_than<T>::value` exactly when `operator>` exists. -/
structure Comparison (T : Type) where
  less_than : Option (T → T → Bool)
  greater_than : Option (T → T → Bool)

namespace SFINAE

/-- The four overloads of `compare_t`, selected by `less_than<T>` and `greater_than<T>`. -/
def compare_t {T : Type} (c : Comparison T) (t1 t2 : T) : Bool :=
  match c.less_than, c.greater_than with
  | some lt, none => lt t1 t2
  | none, some gt => gt t1 t2
  | some lt, some _ => lt t1 t2
  | none, none => false

end SFINAE

/-! ## Tasks -/

/-- A non-null `std::shared_ptr<T>`: the address of the managed object and the object. -/
structure shared_ptr (T : Type) where
  ptr : Nat
  obj : T
  deriving DecidableEq, Repr

/-- The type `TASK`: `typedef std::shared_ptr<T> TASK`. -/
abbrev TASK (T : Type) := shared_ptr T

/-- The type `TASK_LIST`: `typedef std::list<std::shared_ptr<T>> TASK_LIST`. -/
abbrev TASK_LIST (T : Type) := List (shared_ptr T)

/-! ## `std::list::sort(comp)`

The standard requires `comp` to be a strict weak ordering and the sort to be stable.  The model
is the stable insertion sort; `IsStableSort` below states the standard's postcondition, and
for a strict weak ordering exactly one list satisfies it. -/

/-- Insert `x` behind the leading elements that are strictly smaller than `x`. -/
def list_insert {α : Type} (comp : α → α → Bool) (x : α) : List α → List α
  | [] => [x]
  | y :: ys => if comp y x then y :: list_insert comp x ys else x :: y :: ys

/-- Model of `std::list::sort(comp)`. -/
def list_sort {α : Type} (comp : α → α → Bool) : List α → List α
  | [] => []
  | x :: xs => list_insert comp x (list_sort comp xs)

/-- The precondition of `std::list::sort`: `comp` is a strict weak ordering. -/
structure StrictWeakOrder {α : Type} (comp : α → α → Bool) : Prop where
  irrefl : ∀ a, comp a a = false
  trans : ∀ a b c, comp a b = true → comp b c = true → comp a c = true
  incomp_trans : ∀ a b c, comp a b = false → comp b a = false → comp b c = false →
    comp c b = false → (comp a c = false ∧ comp c a = false)

/-- Equivalence of `x` and `y` under `comp`: neither is smaller than the other. -/
def equivalent {α : Type} (comp : α → α → Bool) (x y : α) : Bool := !comp x y && !comp y x

/-- The postcondition of a stable sort of `l` by `comp`: `r` is a rearrangement of `l`, no
element of `r` is smaller than an element before it, and elements that are equivalent
(neither is smaller than the other) keep the order they have in `l`. -/
def IsStableSort {α : Type} (comp : α → α → Bool) (l r : List α) : Prop :=
  r.Perm l ∧ r.Pairwise (fun a b => comp b a = false) ∧
    ∀ x, r.filter (equivalent comp x) = l.filter (equivalent comp x)

/-! ## The counter `zfz::Semphore` -/

/-- Modelled from the spec: the missing `zfz_semphore.hpp` defines the result codes of `wait`
(Success and TimedOut in the spec); `pop_task` names `ZFZ_SEMPHORE_SUCCESS`. -/
def ZFZ_SEMPHORE_SUCCESS : Int := 0

/-- Modelled from the spec: the result of a `wait` that timed out (see
`ZFZ_SEMPHORE_SUCCESS`). -/
def ZFZ_SEMPHORE_TIME_OUT : Int := 1

/-- Modelled from the spec: `zfz_semphore.hpp` (class `zfz::Semphore`, the counting wait
primitive used by `Processor` as `task_semphore_`) is not among the sources.  The counter is
an integer count starting at zero. -/
structure Semphore where
  count : Int := 0
  deriving DecidableEq, Repr

namespace Semphore

/-- Modelled from the spec: `signal(n)` of the missing `zfz_semphore.hpp` adds `n` to the
count. -/
def signal (s : Semphore) (n : Int) : Semphore := { s with count := s.count + n }

/-- Modelled from the spec: `release(n)` of the missing `zfz_semphore.hpp` is equivalent to
`signal(n)`. -/
def release (s : Semphore) (n : Int) : Semphore := s.signal n

/-- Modelled from the spec: `wait(timeout)` of the missing `zfz_semphore.hpp` blocks while the
count is not positive and takes one permit on success; a negative time-out blocks forever, a
time-out of zero polls.  Sequentially, no permit arrives while the call waits. -/
def wait (s : Semphore) (time_out_ms : Int) : Except Fault (Int × Semphore) :=
  if s.count > 0 then .ok (ZFZ_SEMPHORE_SUCCESS, { s with count := s.count - 1 })
  else if time_out_ms < 0 then .error Fault.blocks
  else .ok (ZFZ_SEMPHORE_TIME_OUT, s)

end Semphore

/-! ## `ThreadWrapper` (`zfz_processor.hpp`, lines 54-93) -/

/-- The flags of a `ThreadWrapper` and whether its `thread_` is joinable. -/
structure ThreadWrapper where
  joinable : Bool := true
  inited_flag_ : Int := 0
  quit_flag_ : Int := 0
  deriving DecidableEq, Repr

namespace ThreadWrapper

def set_quit_flag (t : ThreadWrapper) : ThreadWrapper := { t with quit_flag_ := 1 }

def reset_quit_flag (t : ThreadWrapper) : ThreadWrapper := { t with quit_flag_ := 0 }

def is_thread_quit (t : ThreadWrapper) : Bool := decide (t.quit_flag_ ≠ 0)

end ThreadWrapper

/-! ## `Processor<T>` (`zfz_processor.hpp`, lines 106-567) -/

/-- The data members of `Processor<T>` (lines 132-155).  A `Processor<T>*` is an address. -/
structure Processor (T : Type) where
  task_queue_ : TASK_LIST T := []
  current_queue_size_ : Int := 0
  queue_full_flag_ : Int := 0
  task_semphore_ : Semphore := {}
  max_queue_size_ : Int := 1024
  queue_ordered_flag_ : Int := 0
  batch_size_ : Int := 1
  thread_wait_time_ms_ : Int := 200
  thread_list_ : List ThreadWrapper := []
  max_thread_size_ : Int := 1024
  next_processors_ : List Nat := []
  processor_id_ : Int := 0
  processor_name_ : String := ""
  deriving DecidableEq, Repr

namespace Processor

variable {T : Type}

/-- Member `compare_shared_ptr_t` (lines 122-125). -/
def compare_shared_ptr_t (c : Comparison T) (t1 t2 : shared_ptr T) : Bool :=
  SFINAE.compare_t c t1.obj t2.obj

/-- Member `set_max_queue_size` (lines 232-235). -/
def set_max_queue_size (p : Processor T) (max_size : Int) : Processor T :=
  { p with max_queue_size_ := max_size }

/-- Member `set_batch_size` (lines 245-248). -/
def set_batch_size (p : Processor T) (batch_size : Int) : Processor T :=
  { p with batch_size_ := batch_size }

/-- Member `push_task(TASK_LIST &tasks)` (lines 489-516).  Returns the result code, the stage
and the caller's list after the call: `splice` moves the nodes of `task_copy`, not of `tasks`.
In `current_queue_size_ + task_size > max_queue_size_` the operand `task_size` is a `size_t`,
so both `int`s are converted to `size_t`; `current_queue_size_ += task_size` converts the
`size_t` sum back to `int`.  `task_size` is the length of the list, and the counter is
signalled with that number. -/
def push_task (p : Processor T) (tasks : TASK_LIST T) : Int × Processor T × TASK_LIST T :=
  let task_size : Nat := tasks.length
  if task_size = 0 then
    (ZFZ_PROCESSOR_SUCCESS, p, tasks)
  else if size_t_add (to_size_t p.current_queue_size_) task_size > to_size_t p.max_queue_size_ then
    (ZFZ_PROCESSOR_QUEUE_FULL,
      if p.queue_full_flag_ = 0 then { p with queue_full_flag_ := 1 } else p, tasks)
  else
    let task_copy := tasks
    (ZFZ_PROCESSOR_SUCCESS,
      { p with
        task_queue_ := p.task_queue_ ++ task_copy
        current_queue_size_ := to_int (size_t_add (to_size_t p.current_queue_size_) task_size)
        task_semphore_ := p.task_semphore_.signal task_size
        queue_ordered_flag_ := 0 },
      tasks)

/-- Member `push_task(std::shared_ptr<T> &task)` (lines 483-488): the task is put into a local
list, which is destroyed on return. -/
def push_task_one (p : Processor T) (task : TASK T) : Int × Processor T :=
  let tasks : TASK_LIST T := [] ++ [task]
  let r := push_task p tasks
  (r.1, r.2.1)

/-- The part of `pop_task` that runs under `queue_lock_` once the counter wait has succeeded
(lines 526-565).  `std::advance(end, batch_size)` past the end of the list is undefined. -/
def pop_task_locked (c : Comparison T) (p : Processor T) (tasks : TASK_LIST T)
    (batch_size : Int) : Except Fault (Int × Processor T × TASK_LIST T) :=
  let p := if p.queue_full_flag_ ≠ 0 then { p with queue_full_flag_ := 0 } else p
  if p.current_queue_size_ ≤ 0 then
    .ok (ZFZ_PROCESSOR_QUEUE_EMPTY, p, tasks)
  else
    let p :=
      if p.queue_ordered_flag_ = 0 then
        { p with
          task_queue_ := list_sort (compare_shared_ptr_t c) p.task_queue_
          queue_ordered_flag_ := 1 }
      else p
    if batch_size > 0 ∧ p.current_queue_size_ ≥ batch_size then
      if batch_size.toNat > p.task_queue_.length then
        .error Fault.undefined
      else
        let tasks := tasks ++ p.task_queue_.take batch_size.toNat
        let p := { p with
          task_queue_ := p.task_queue_.drop batch_size.toNat
          current_queue_size_ := p.current_queue_size_ - batch_size }
        let poped_count := batch_size
        let p := if poped_count > 1 then
          { p with task_semphore_ := p.task_semphore_.release (poped_count - 1) } else p
        .ok (ZFZ_PROCESSOR_SUCCESS, p, tasks)
    else
      let tasks := tasks ++ p.task_queue_
      let p := { p with task_queue_ := [] }
      let p := { p with current_queue_size_ := 0 }
      let poped_count := p.current_queue_size_
      let p := if poped_count > 1 then
        { p with task_semphore_ := p.task_semphore_.release (poped_count - 1) } else p
      .ok (ZFZ_PROCESSOR_SUCCESS, p, tasks)

/-- Member `pop_task(tasks, batch_size, wait_time_ms)` (lines 519-566): the batch is appended to
`tasks`. -/
def pop_task (c : Comparison T) (p : Processor T) (tasks : TASK_LIST T)
    (batch_size : Int) (wait_time_ms : Int) : Except Fault (Int × Processor T × TASK_LIST T) :=
  match p.task_semphore_.wait wait_time_ms with
  | .error f => .error f
  | .ok (r, sem) =>
    if r ≠ ZFZ_SEMPHORE_SUCCESS then
      .ok (ZFZ_PROCESSOR_TIME_OUT, { p with task_semphore_ := sem }, tasks)
    else
      pop_task_locked c { p with task_semphore_ := sem } tasks batch_size

end Processor

/-! ## Sequences of calls on one stage -/

/-- A call made on a stage: by a producer (`push_task`) or by a worker (`pop_task`, with the
worker's batch size and wait time). -/
inductive Call (T : Type) where
  | push_task (tasks : TASK_LIST T)
  | pop_task (batch_size : Int) (wait_time_ms : Int)

/-- A stage together with what the calls made so far have done: the lists accepted by
`push_task` calls that returned `ZFZ_PROCESSOR_SUCCESS`, and the batches handed out by
`pop_task` calls that returned `ZFZ_PROCESSOR_SUCCESS`, both in the order of the calls. -/
structure History (T : Type) where
  stage : Processor T
  accepted : List (TASK_LIST T) := []
  batches : List (TASK_LIST T) := []
  deriving DecidableEq

namespace History

variable {T : Type}

/-- One call, run from its start to its return with no other thread in between (for
`pop_task`: the counter wait and the locked part together); the steps of several threads
interleaved at the counter are `Interleaving.step`.  A worker calls `pop_task` with an empty
local list, so the list it gets back is the batch. -/
def step (c : Comparison T) (h : History T) : Call T → Except Fault (History T)
  | Call.push_task tasks =>
    let r := h.stage.push_task tasks
    if r.1 = ZFZ_PROCESSOR_SUCCESS then
      .ok { h with stage := r.2.1, accepted := h.accepted ++ [tasks] }
    else
      .ok { h with stage := r.2.1 }
  | Call.pop_task batch_size wait_time_ms =>
    match h.stage.pop_task c [] batch_size wait_time_ms with
    | .error f => .error f
    | .ok (r, p, batch) =>
      if r = ZFZ_PROCESSOR_SUCCESS then
        .ok { h with stage := p, batches := h.batches ++ [batch] }
      else
        .ok { h with stage := p }

/-- A finite sequence of calls, one after the other; it stops at the first call that does not
return. -/
def run (c : Comparison T) (h : History T) : List (Call T) → Except Fault (History T)
  | [] => .ok h
  | call :: calls =>
    match step c h call with
    | .error f => .error f
    | .ok h1 => run c h1 calls

/-- A call that cannot wait forever: a `push_task`, or a `pop_task` with a time-out. -/
def timed : Call T → Prop
  | Call.push_task _ => True
  | Call.pop_task _ wait_time_ms => 0 ≤ wait_time_ms

/-- The tracked size is an `int` and does not exceed the number of tasks in the queue. -/
def SizeBounded (h : History T) : Prop :=
  INT_MIN ≤ h.stage.current_queue_size_ ∧
    h.stage.current_queue_size_ ≤ h.stage.task_queue_.length

/-- The accepted tasks, in the order of submission, are the tasks handed out, in the order of
the batches, followed by the tasks still queued. -/
def Fifo (h : History T) : Prop :=
  h.accepted.flatten = h.batches.flatten ++ h.stage.task_queue_

/-- The accepted tasks are, as a multiset, the tasks handed out together with the tasks still
queued. -/
def Conserved (h : History T) : Prop :=
  h.accepted.flatten.Perm (h.batches.flatten ++ h.stage.task_queue_)

end History

namespace Processor

variable {T : Type}

/-- While `queue_ordered_flag_` is set, the queue is in the order of `compare_shared_ptr_t`. -/
def FlagOrdered (c : Comparison T) (p : Processor T) : Prop :=
  p.queue_ordered_flag_ ≠ 0 →
    p.task_queue_.Pairwise (fun a b => compare_shared_ptr_t c b a = false)

/-- Submit the lists one after the other with `push_task`; `none` when one of them is
rejected. -/
def submit_all (p : Processor T) : List (TASK_LIST T) → Option (Processor T)
  | [] => some p
  | tasks :: rest =>
    if (p.push_task tasks).1 = ZFZ_PROCESSOR_SUCCESS then
      submit_all (p.push_task tasks).2.1 rest
    else none

/-- Dequeue until the queue is empty, with at most `fuel` calls of `pop_task` (each with an
empty local list): the batches of the calls that returned `ZFZ_PROCESSOR_SUCCESS`, in order,
and the stage at the end. -/
def drain (c : Comparison T) (batch_size wait_time_ms : Int) :
    Nat → Processor T → Except Fault (List (TASK_LIST T) × Processor T)
  | 0, p => .ok ([], p)
  | fuel + 1, p =>
    if p.task_queue_.isEmpty then .ok ([], p)
    else
      match p.pop_task c [] batch_size wait_time_ms with
      | .error f => .error f
      | .ok (r, p1, batch) =>
        match drain c batch_size wait_time_ms fuel p1 with
        | .error f => .error f
        | .ok (batches, p2) =>
          .ok (if r = ZFZ_PROCESSOR_SUCCESS then batch :: batches else batches, p2)

end Processor

/-! ## Stages wired into a graph: `fan_out` and the worker loop -/

/-- The stages of the program by address (`Processor<T>*`); `none` where no stage lives.
Address 0 is the null pointer. -/
abbrev Heap (T : Type) := Nat → Option (Processor T)

/-- One invocation of the virtual `handle_fan_out_error(push_result, p, tasks)`. -/
structure FanOutError (T : Type) where
  push_result : Int
  p : Nat
  tasks : TASK_LIST T
  deriving DecidableEq

/-- What a call of `fan_out` has done: its return value, the stages and the batch after the
call, the downstream stages on which `push_task` was called and the invocations of
`handle_fan_out_error`, both in the order in which they happened. -/
structure FanOut (T : Type) where
  result : Int
  heap : Heap T
  tasks : TASK_LIST T
  attempted : List Nat
  errors : List (FanOutError T)

/-- What a worker does that is visible outside the queue, in the order in which it happens. -/
inductive WorkerEvent (T : Type) where
  | handle_task (tasks : TASK_LIST T)
  | fan_out (tasks : TASK_LIST T)
  | handle_timeout
  deriving DecidableEq

/-- The state of the loop of `thread_funciton`: the stages, the local list `tasks`, what the
worker has done so far, and whether the loop is still running (it has not executed
`break`). -/
structure Worker (T : Type) where
  heap : Heap T
  tasks : TASK_LIST T := []
  events : List (WorkerEvent T) := []
  running : Bool := true

namespace Processor

variable {T : Type}

/-- The default `handle_fan_out_error` (lines 219-222). -/
def handle_fan_out_error (_push_result : Int) (_p : Nat) (_tasks : TASK_LIST T) : Int :=
  ZFZ_PROCESSOR_SUCCESS

/-- The loop of `fan_out` (lines 203-214) over the remaining downstream stages.  The virtual
`handle_fan_out_error` is the parameter `hook`, taken by its return value.  Calling
`push_task` through a pointer to no stage is undefined. -/
def fan_out_loop (hook : Int → Nat → TASK_LIST T → Int) :
    List Nat → Heap T → TASK_LIST T → Except Fault (FanOut T)
  | [], heap, tasks =>
    .ok { result := ZFZ_PROCESSOR_SUCCESS, heap := heap, tasks := tasks,
          attempted := [], errors := [] }
  | processor :: rest, heap, tasks =>
    match heap processor with
    | none => .error Fault.undefined
    | some d =>
      let r := d.push_task tasks
      let result := r.1
      let heap := Function.update heap processor (some r.2.1)
      let tasks := r.2.2
      if result ≠ ZFZ_PROCESSOR_SUCCESS then
        let handle_result := hook result processor tasks
        if handle_result ≠ ZFZ_PROCESSOR_SUCCESS then
          .ok { result := handle_result, heap := heap, tasks := tasks,
                attempted := [processor], errors := [⟨result, processor, tasks⟩] }
        else
          match fan_out_loop hook rest heap tasks with
          | .error f => .error f
          | .ok o =>
            .ok { o with attempted := processor :: o.attempted,
                         errors := ⟨result, processor, tasks⟩ :: o.errors }
      else
        match fan_out_loop hook rest heap tasks with
        | .error f => .error f
        | .ok o => .ok { o with attempted := processor :: o.attempted }

/-- Member `fan_out(tasks)` (lines 200-217) of the stage at address `self`. -/
def fan_out (hook : Int → Nat → TASK_LIST T → Int) (heap : Heap T) (self : Nat)
    (tasks : TASK_LIST T) : Except Fault (FanOut T) :=
  match heap self with
  | none => .error Fault.undefined
  | some p => fan_out_loop hook p.next_processors_ heap tasks

/-- One iteration of the loop of `thread_funciton` (lines 343-365) run by a worker of the
stage at address `self`.  `quit` is the value of `ThreadWrapper->is_thread_quit()` read when
`pop_task` has returned; the pure virtual `handle_task` is the parameter `handle_task`, taken
by what it leaves in the batch. -/
def thread_iteration (c : Comparison T) (handle_task : TASK_LIST T → TASK_LIST T)
    (hook : Int → Nat → TASK_LIST T → Int) (self : Nat) (batch_size wait_time_ms : Int)
    (quit : Bool) (s : Worker T) : Except Fault (Worker T) :=
  match s.heap self with
  | none => .error Fault.undefined
  | some p =>
    match p.pop_task c s.tasks batch_size wait_time_ms with
    | .error f => .error f
    | .ok (result, p1, tasks) =>
      let heap := Function.update s.heap self (some p1)
      if quit then
        .ok { s with heap := heap, tasks := tasks, running := false }
      else if result = ZFZ_PROCESSOR_SUCCESS then
        let handled := handle_task tasks
        match fan_out hook heap self handled with
        | .error f => .error f
        | .ok o =>
          .ok { s with
            heap := o.heap
            tasks := []
            events := s.events ++ [WorkerEvent.handle_task tasks, WorkerEvent.fan_out handled] }
      else if result = ZFZ_PROCESSOR_TIME_OUT then
        .ok { s with heap := heap, tasks := tasks,
                     events := s.events ++ [WorkerEvent.handle_timeout] }
      else
        .ok { s with heap := heap, tasks := tasks }

/-- The loop `while (true)` of `thread_funciton` (lines 343-365): `quits` lists the values of
the quit flag read in the successive iterations; the loop runs until it breaks or until
`quits` is used up. -/
def thread_loop (c : Comparison T) (handle_task : TASK_LIST T → TASK_LIST T)
    (hook : Int → Nat → TASK_LIST T → Int) (self : Nat) (batch_size wait_time_ms : Int) :
    List Bool → Worker T → Except Fault (Worker T)
  | [], s => .ok s
  | quit :: quits, s =>
    match thread_iteration c handle_task hook self batch_size wait_time_ms quit s with
    | .error f => .error f
    | .ok s1 =>
      if s1.running then
        thread_loop c handle_task hook self batch_size wait_time_ms quits s1
      else .ok s1

/-- Whether the downstream stage at address `d` rejects the batch `tasks`. -/
def rejects (heap : Heap T) (tasks : TASK_LIST T) (d : Nat) : Bool :=
  match heap d with
  | none => false
  | some pd => decide ((pd.push_task tasks).1 ≠ ZFZ_PROCESSOR_SUCCESS)

/-- The loop of `thread_funciton` (lines 316-383) as run by a worker of the stage at address
`self`: the wait time and the batch size are read once, before the loop (lines 329-330).  The
start-up handshake, the thread-local resource and the clean-up after the loop are left out. -/
def thread_funciton (c : Comparison T) (handle_task : TASK_LIST T → TASK_LIST T)
    (hook : Int → Nat → TASK_LIST T → Int) (heap : Heap T) (self : Nat)
    (quits : List Bool) : Except Fault (Worker T) :=
  match heap self with
  | none => .error Fault.undefined
  | some p =>
    let wait_time_ms := p.thread_wait_time_ms_
    let batch_size := p.batch_size_
    thread_loop c handle_task hook self batch_size wait_time_ms quits { heap := heap }

end Processor

namespace Processor

variable {T : Type}

/-- Whether `fan_out` with the error hook `hook` stops at the downstream stage at address
`d`: the stage rejects the batch and the hook, called with the rejection code, the stage and
the batch, returns a code other than `ZFZ_PROCESSOR_SUCCESS`. -/
def stops (hook : Int → Nat → TASK_LIST T → Int) (heap : Heap T) (tasks : TASK_LIST T)
    (d : Nat) : Bool :=
  rejects heap tasks d && decide (hook ZFZ_PROCESSOR_QUEUE_FULL d tasks ≠ ZFZ_PROCESSOR_SUCCESS)

end Processor

/-! ## Calls whose counter wait is decided from outside -/

/-- A call on a stage in which the outcome of the counter wait of `pop_task` is given from
outside (`waited`: the wait succeeded), as it is decided by the interleaving with other
threads and not by the model of the counter. -/
inductive FreeCall (T : Type) where
  | push_task (tasks : TASK_LIST T)
  | pop_task (batch_size : Int) (waited : Bool)

namespace History

variable {T : Type}

/-- One call with a given outcome of the counter wait.  When the wait fails `pop_task`
returns `ZFZ_PROCESSOR_TIME_OUT` before it takes `queue_lock_`; when it succeeds the locked
part runs (the content of the counter plays no part in it). -/
def free_step (c : Comparison T) (h : History T) : FreeCall T → Except Fault (History T)
  | FreeCall.push_task tasks => step c h (Call.push_task tasks)
  | FreeCall.pop_task _ false => .ok h
  | FreeCall.pop_task batch_size true =>
    match h.stage.pop_task_locked c [] batch_size with
    | .error f => .error f
    | .ok (r, p, batch) =>
      if r = ZFZ_PROCESSOR_SUCCESS then
        .ok { h with stage := p, batches := h.batches ++ [batch] }
      else
        .ok { h with stage := p }

/-- A finite sequence of calls with given outcomes of the counter waits. -/
def free_run (c : Comparison T) (h : History T) : List (FreeCall T) → Except Fault (History T)
  | [] => .ok h
  | call :: calls =>
    match free_step c h call with
    | .error f => .error f
    | .ok h1 => free_run c h1 calls

/-- The capacity is a non-negative `int`, and the tracked size is within the capacity, is
non-negative, is the number of queued tasks, and is the number of tasks accepted minus the
number handed out. -/
def SizeExact (h : History T) : Prop :=
  0 ≤ h.stage.max_queue_size_ ∧
    (h.stage.max_queue_size_ ≤ INT_MAX ∧ h.stage.current_queue_size_ ≤ h.stage.max_queue_size_) ∧
    0 ≤ h.stage.current_queue_size_ ∧
    h.stage.current_queue_size_ = h.stage.task_queue_.length ∧
    h.stage.current_queue_size_ =
      (h.accepted.flatten.length : Int) - (h.batches.flatten.length : Int)

end History

/-! ## Worker threads: `begin_thread`, `end_thread`, `end_all_threads` -/

/-- A call that starts or stops workers of a stage.  `failure_at` is the number, counted from
0, of the creation in this call that throws (`none`: no creation fails). -/
inductive ThreadCall where
  | begin_thread (count : Int) (failure_at : Option Nat)
  | end_thread (count : Int) (sync : Bool)
  | end_all_threads (sync : Bool)

namespace Processor

variable {T : Type}

/-- The handle that `begin_thread` appends for a thread it has started (lines 409-415): the
thread is joinable, `inited_flag_` is 1 and the quit flag is not set.  The start-up handshake
(`thread_create_event_`, the spin on `inited_flag_`) has completed when the handle is
appended; it is not modelled further. -/
def new_thread_wrapper : ThreadWrapper := { joinable := true, inited_flag_ := 1, quit_flag_ := 0 }

/-- The loop of `begin_thread` (lines 398-424); the first argument is how often the test
`create_count < count` can still succeed. -/
def begin_thread_loop (max_thread_size : Int) (failure_at : Option Nat) :
    Nat → Int → Int → List ThreadWrapper → Int × List ThreadWrapper
  | 0, _, create_count, thread_list => (create_count, thread_list)
  | remaining + 1, cur_count, create_count, thread_list =>
    if cur_count ≥ max_thread_size then (create_count, thread_list)
    else if failure_at = some create_count.toNat then (create_count, thread_list)
    else
      begin_thread_loop max_thread_size failure_at remaining (cur_count + 1) (create_count + 1)
        (thread_list ++ [new_thread_wrapper])

/-- Member `begin_thread(count)` (lines 386-427): the number of threads created and the
stage. -/
def begin_thread (p : Processor T) (count : Int) (failure_at : Option Nat) :
    Int × Processor T :=
  if count ≤ 0 then (0, p)
  else
    let cur_count := to_int p.thread_list_.length
    let r := begin_thread_loop p.max_thread_size_ failure_at count.toNat cur_count 0
      p.thread_list_
    (r.1, { p with thread_list_ := r.2 })

/-- Member `end_one_thread(thread, sync)` (lines 171-189): a handle whose thread is joinable
gets its quit flag set and its thread joined or detached and released; `join` is taken to
return. -/
def end_one_thread (t : ThreadWrapper) (_sync : Bool) : ThreadWrapper :=
  if t.joinable then { t.set_quit_flag with joinable := false } else t

/-- The loop of `end_thread` (lines 439-457); the first argument is how often the test
`tar_end_count-- > 0` can still succeed.  Returns `real_ended_count`, the remaining list and
the handles taken out, as `end_one_thread` leaves them. -/
def end_thread_loop (sync : Bool) :
    Nat → List ThreadWrapper → Int → List ThreadWrapper →
      Int × List ThreadWrapper × List ThreadWrapper
  | 0, thread_list, real_ended_count, ended => (real_ended_count, thread_list, ended)
  | _ + 1, [], real_ended_count, ended => (real_ended_count, [], ended)
  | n + 1, thread :: thread_list, real_ended_count, ended =>
    end_thread_loop sync n thread_list (real_ended_count + 1)
      (ended ++ [end_one_thread thread sync])

/-- Member `end_thread(count, sync)` (lines 429-460): the number of threads ended, the stage,
and the handles taken out of `thread_list_`. -/
def end_thread (p : Processor T) (count : Int) (sync : Bool) :
    Int × Processor T × List ThreadWrapper :=
  if count ≤ 0 then (0, p, [])
  else
    let r := end_thread_loop sync count.toNat p.thread_list_ 0 []
    (r.1, { p with thread_list_ := r.2.1 }, r.2.2)

/-- Member `end_all_threads(sync)` (lines 462-480): the stage and the handles taken out of
`thread_list_`. -/
def end_all_threads (p : Processor T) (sync : Bool) : Processor T × List ThreadWrapper :=
  if p.thread_list_.isEmpty then (p, [])
  else
    let temp_thread_list := p.thread_list_
    ({ p with thread_list_ := [] }, temp_thread_list.map (fun t => end_one_thread t sync))

/-- One call that starts or stops workers. -/
def thread_step (p : Processor T) : ThreadCall → Processor T
  | ThreadCall.begin_thread count failure_at => (p.begin_thread count failure_at).2
  | ThreadCall.end_thread count sync => (p.end_thread count sync).2.1
  | ThreadCall.end_all_threads sync => (p.end_all_threads sync).1

/-- A sequence of calls that start or stop workers. -/
def thread_run (p : Processor T) : List ThreadCall → Processor T
  | [] => p
  | call :: calls => thread_run (p.thread_step call) calls

end Processor

/-! ## `zfz::Event` (`zfz_event.hpp`) -/

def ZFZ_EVENT_FAIL : Int := -1
def ZFZ_EVENT_SUCCESS : Int := 0
def ZFZ_EVENT_TIME_OUT : Int := 1

/-- The data members of `Event` (lines 134-136); the constructor `Event(init_signal = false,
manual_reset = true)` (lines 35-40) gives the default values. -/
structure Event where
  signal_ : Bool := false
  manual_reset_ : Bool := true
  blocked_ : Int := 0
  deriving DecidableEq, Repr

namespace Event

/-- Member `wait(time_out_ms)` (lines 51-104).  Sequentially no other thread sets the gate
while the call waits: `cv_.wait_for` ends with its predicate false, and `cv_.wait` never
ends.  Incrementing `blocked_` past the largest `int` is undefined. -/
def wait (e : Event) (time_out_ms : Int) : Except Fault (Int × Event) :=
  if e.signal_ then
    if !e.manual_reset_ then
      .ok (ZFZ_EVENT_SUCCESS, { e with signal_ := false })
    else
      .ok (ZFZ_EVENT_SUCCESS, e)
  else if time_out_ms = 0 then
    .ok (ZFZ_EVENT_TIME_OUT, e)
  else if e.blocked_ = INT_MAX then
    .error Fault.undefined
  else
    let e := { e with blocked_ := e.blocked_ + 1 }
    if time_out_ms ≥ 0 then
      let result := e.signal_
      let e := { e with blocked_ := e.blocked_ - 1 }
      if result then
        if !e.manual_reset_ then
          .ok (ZFZ_EVENT_SUCCESS, { e with signal_ := false })
        else
          .ok (ZFZ_EVENT_SUCCESS, e)
      else
        .ok (ZFZ_EVENT_TIME_OUT, e)
    else
      .error Fault.blocks

/-- Member `set()` (lines 106-122): waking the waiters changes no member. -/
def set (e : Event) : Event := { e with signal_ := true }

/-- Member `reset()` (lines 124-129). -/
def reset (e : Event) : Event := { e with signal_ := false }

/-- Consecutive calls of `wait` with the given time-outs: the results and the gate. -/
def waits (e : Event) : List Int → Except Fault (List Int × Event)
  | [] => .ok ([], e)
  | t :: ts =>
    match e.wait t with
    | .error f => .error f
    | .ok (r, e1) =>
      match waits e1 ts with
      | .error f => .error f
      | .ok (rs, e2) => .ok (r :: rs, e2)

/-- Several calls of `set()` in a row. -/
def sets (e : Event) : Nat → Event
  | 0 => e
  | n + 1 => sets e.set n

end Event

/-! ## `ObjectPool<T>` (`zfz_object_pool.hpp`) and `SFINAE::clear_object` -/

/-- What the pool does to objects, in the order in which it happens: `new T()`, the call of
`clear()` made by `SFINAE::clear_object`, and `delete`.  An object is named by its address
(`T*`); address 0 is the null pointer. -/
inductive ObjectEvent where
  | constructed (obj : Nat)
  | cleared (obj : Nat)
  | deleted (obj : Nat)
  deriving DecidableEq, Repr

namespace SFINAE

/-- The function `clear_object(p_t)` (`zfz_sfinae.hpp`, lines 66-91): `has_clear` is
`clear_function_sensor<T>::value`, true exactly when `T` has a member `void clear()`. -/
def clear_object (has_clear : Bool) (p_t : Nat) : List ObjectEvent :=
  if has_clear then [ObjectEvent.cleared p_t] else []

end SFINAE

/-- The data members of `ObjectPool<T>` (lines 106-111). -/
structure ObjectPool where
  object_list_ : List Nat := []
  max_available_count_ : Int := -1
  available_count_ : Int := -1
  max_holding_count_ : Int := 8
  available_event_ : Event := {}
  deriving DecidableEq, Repr

namespace ObjectPool

/-- The constructor `ObjectPool()` (lines 90-93). -/
def create : ObjectPool := { available_event_ := ({} : Event).set }

/-- Member `pop()` (lines 114-160): the object returned, the pool, and what was done to
objects.  `fresh` is the address that `new T()` returns if it is called.  With an admission
limit the call goes round the loop of lines 118-130 until it finds `available_count_ > 0`
after a wait on the gate; sequentially nothing changes while it does, so it either passes at
once or never returns. -/
def pop (p : ObjectPool) (fresh : Nat) : Except Fault (Nat × ObjectPool × List ObjectEvent) :=
  let admitted : Except Fault ObjectPool :=
    if p.available_count_ ≥ 0 then
      match p.available_event_.wait (-1) with
      | .error f => .error f
      | .ok (_, e) =>
        if p.available_count_ > 0 then .ok { p with available_event_ := e }
        else .error Fault.blocks
    else .ok p
  match admitted with
  | .error f => .error f
  | .ok p =>
    let taken : Nat × ObjectPool × List ObjectEvent :=
      match p.object_list_ with
      | [] => (fresh, p, [ObjectEvent.constructed fresh])
      | front :: rest => (front, { p with object_list_ := rest }, [])
    let obj := taken.1
    let p := taken.2.1
    let p :=
      if p.available_count_ ≥ 0 then
        let p := { p with available_count_ := p.available_count_ - 1 }
        if p.available_count_ ≤ 0 then
          { p with available_event_ := p.available_event_.reset }
        else p
      else p
    .ok (obj, p, taken.2.2)

/-- Member `push(obj)` (lines 162-189): the pool and what was done to objects.
`static_cast<int>(object_list_.size())` is the conversion `to_int`; incrementing
`available_count_` past the largest `int` is undefined. -/
def push (has_clear : Bool) (p : ObjectPool) (obj : Nat) :
    Except Fault (ObjectPool × List ObjectEvent) :=
  if obj = 0 then .ok (p, [])
  else
    let kept : ObjectPool × List ObjectEvent :=
      if to_int p.object_list_.length < p.max_holding_count_ then
        ({ p with object_list_ := p.object_list_ ++ [obj] }, SFINAE.clear_object has_clear obj)
      else
        (p, [ObjectEvent.deleted obj])
    let p := kept.1
    if p.available_count_ ≥ 0 then
      if p.available_count_ = INT_MAX then .error Fault.undefined
      else
        let p := { p with available_count_ := p.available_count_ + 1 }
        let p :=
          if p.available_count_ = 1 then { p with available_event_ := p.available_event_.set }
          else p
        .ok (p, kept.2)
    else .ok (p, kept.2)

/-- The bookkeeping shared by `reset` (lines 205-212) and `set_max_holding_count` (lines
237-244) after `deleted_count` idle objects have been deleted; an `int` sum past the largest
`int` is undefined. -/
def add_deleted (p : ObjectPool) (deleted_count : Int) : Except Fault ObjectPool :=
  if p.available_count_ ≥ 0 then
    if p.available_count_ + deleted_count > INT_MAX then .error Fault.undefined
    else
      let p := { p with available_count_ := p.available_count_ + deleted_count }
      if p.available_count_ = deleted_count ∧ deleted_count > 0 then
        .ok { p with available_event_ := p.available_event_.set }
      else .ok p
  else .ok p

/-- Member `reset()` (lines 191-215): the pool and what was done to objects.  Counting more
deleted objects than the largest `int` is undefined. -/
def reset (p : ObjectPool) : Except Fault (ObjectPool × List ObjectEvent) :=
  if (p.object_list_.length : Int) > INT_MAX then .error Fault.undefined
  else
    let deleted_count : Int := p.object_list_.length
    let events := p.object_list_.map ObjectEvent.deleted
    let p := { p with object_list_ := [] }
    match add_deleted p deleted_count with
    | .error f => .error f
    | .ok p => .ok (p, events)

/-- The loop of `set_max_holding_count` (lines 230-235): the remaining list, `deleted_count`
and the deletions.  `front()` on an empty list is undefined. -/
def trim_loop (max_holding_count : Int) :
    Int → List Nat → Int → Except Fault (List Nat × Int × List ObjectEvent)
  | current_size, [], deleted_count =>
    if current_size > max_holding_count then .error Fault.undefined
    else .ok ([], deleted_count, [])
  | current_size, front :: rest, deleted_count =>
    if current_size > max_holding_count then
      match trim_loop max_holding_count (current_size - 1) rest (deleted_count + 1) with
      | .error f => .error f
      | .ok (l, d, events) => .ok (l, d, ObjectEvent.deleted front :: events)
    else .ok (front :: rest, deleted_count, [])

/-- Member `set_max_holding_count(count)` (lines 217-247): the value returned, the pool and
what was done to objects. -/
def set_max_holding_count (p : ObjectPool) (count : Int) :
    Except Fault (Bool × ObjectPool × List ObjectEvent) :=
  if count < 0 then .ok (false, p, [])
  else
    let p := { p with max_holding_count_ := count }
    let current_size := to_int p.object_list_.length
    match trim_loop p.max_holding_count_ current_size p.object_list_ 0 with
    | .error f => .error f
    | .ok (l, deleted_count, events) =>
      let p := { p with object_list_ := l }
      match add_deleted p deleted_count with
      | .error f => .error f
      | .ok p => .ok (true, p, events)

/-- Member `get_max_holding_count()` (lines 248-251). -/
def get_max_holding_count (p : ObjectPool) : Int := p.max_holding_count_

/-- Member `get_current_holding_count()` (lines 252-255). -/
def get_current_holding_count (p : ObjectPool) : Int := to_int p.object_list_.length

/-- Member `set_available_count(count)` (lines 257-261). -/
def set_available_count (p : ObjectPool) (count : Int) : ObjectPool :=
  { p with max_available_count_ := count, available_count_ := count }

/-- Member `get_used_count()` (lines 262-266). -/
def get_used_count (p : ObjectPool) : Int := p.max_available_count_ - p.available_count_

/-- Member `get_available_count()` (lines 268-271). -/
def get_available_count (p : ObjectPool) : Int := p.available_count_

end ObjectPool

/-- A call made on a pool. -/
inductive PoolCall where
  | pop (fresh : Nat)
  | push (obj : Nat)
  | reset
  | set_max_holding_count (count : Int)
  | set_available_count (count : Int)
  deriving DecidableEq

namespace ObjectPool

/-- One call on a pool. -/
def step (has_clear : Bool) (p : ObjectPool) : PoolCall → Except Fault ObjectPool
  | PoolCall.pop fresh => (p.pop fresh).map (fun r => r.2.1)
  | PoolCall.push obj => (push has_clear p obj).map (fun r => r.1)
  | PoolCall.reset => p.reset.map (fun r => r.1)
  | PoolCall.set_max_holding_count count => (p.set_max_holding_count count).map (fun r => r.2.1)
  | PoolCall.set_available_count count => .ok (p.set_available_count count)

/-- A finite sequence of calls on a pool; it stops at the first call that does not return. -/
def run (has_clear : Bool) (p : ObjectPool) : List PoolCall → Except Fault ObjectPool
  | [] => .ok p
  | call :: calls =>
    match step has_clear p call with
    | .error f => .error f
    | .ok p1 => run has_clear p1 calls

/-- Repeat `k` times: `pop()`, then `push()` of the object returned.  `fresh i` is the
address that `new T()` returns if the pop of round `i` calls it.  Returns the objects handed
out, the pool and what was done to objects. -/
def pop_push_cycles (has_clear : Bool) (fresh : Nat → Nat) :
    Nat → Nat → ObjectPool → Except Fault (List Nat × ObjectPool × List ObjectEvent)
  | 0, _, p => .ok ([], p, [])
  | k + 1, i, p =>
    match p.pop (fresh i) with
    | .error f => .error f
    | .ok (obj, p1, ev1) =>
      match push has_clear p1 obj with
      | .error f => .error f
      | .ok (p2, ev2) =>
        match pop_push_cycles has_clear fresh k (i + 1) p2 with
        | .error f => .error f
        | .ok (objs, p3, ev3) => .ok (obj :: objs, p3, ev1 ++ ev2 ++ ev3)

/-- The admission gate of a pool with an admission limit agrees with `available_count_`:
the gate is a manual-reset gate on which nobody waits, the count is not negative, and the
gate is signalled exactly when the count is positive. -/
def GateTracks (p : ObjectPool) : Prop :=
  p.available_event_.manual_reset_ = true ∧ p.available_event_.blocked_ = 0 ∧
    0 ≤ p.available_count_ ∧ (p.available_event_.signal_ = true ↔ 0 < p.available_count_)

/-- The idle list respects the retention ceiling, which is a non-negative `int`. -/
def Retained (p : ObjectPool) : Prop :=
  0 ≤ p.max_holding_count_ ∧ p.max_holding_count_ ≤ INT_MAX ∧
    (p.object_list_.length : Int) ≤ p.max_holding_count_

end ObjectPool

namespace PoolCall

/-- The call is a `pop()` or a `push(obj)`. -/
def IsPopOrPush : PoolCall → Prop
  | PoolCall.pop _ => True
  | PoolCall.push _ => True
  | _ => False

/-- The argument of the call is an `int`. -/
def IntArgument : PoolCall → Prop
  | PoolCall.set_max_holding_count count => INT_MIN ≤ count ∧ count ≤ INT_MAX
  | PoolCall.set_available_count count => INT_MIN ≤ count ∧ count ≤ INT_MAX
  | _ => True

end PoolCall

/-! ## Lazy sorting -/

namespace Processor

variable {T : Type}

/-- The part of `pop_task` that runs under `queue_lock_` (lines 526-565) together with a
record of whether `task_queue_.sort` (line 540) was called: the first component is set where
the call of `sort` stands; the second component is the outcome of the locked part. -/
def pop_task_locked_traced (c : Comparison T) (p : Processor T) (tasks : TASK_LIST T)
    (batch_size : Int) : Bool × Except Fault (Int × Processor T × TASK_LIST T) :=
  let p := if p.queue_full_flag_ ≠ 0 then { p with queue_full_flag_ := 0 } else p
  if p.current_queue_size_ ≤ 0 then
    (false, .ok (ZFZ_PROCESSOR_QUEUE_EMPTY, p, tasks))
  else
    let sorted : Bool × Processor T :=
      if p.queue_ordered_flag_ = 0 then
        (true,
          { p with
            task_queue_ := list_sort (compare_shared_ptr_t c) p.task_queue_
            queue_ordered_flag_ := 1 })
      else (false, p)
    let p := sorted.2
    (sorted.1,
      if batch_size > 0 ∧ p.current_queue_size_ ≥ batch_size then
        if batch_size.toNat > p.task_queue_.length then
          .error Fault.undefined
        else
          let tasks := tasks ++ p.task_queue_.take batch_size.toNat
          let p := { p with
            task_queue_ := p.task_queue_.drop batch_size.toNat
            current_queue_size_ := p.current_queue_size_ - batch_size }
          let poped_count := batch_size
          let p := if poped_count > 1 then
            { p with task_semphore_ := p.task_semphore_.release (poped_count - 1) } else p
          .ok (ZFZ_PROCESSOR_SUCCESS, p, tasks)
      else
        let tasks := tasks ++ p.task_queue_
        let p := { p with task_queue_ := [] }
        let p := { p with current_queue_size_ := 0 }
        let poped_count := p.current_queue_size_
        let p := if poped_count > 1 then
          { p with task_semphore_ := p.task_semphore_.release (poped_count - 1) } else p
        .ok (ZFZ_PROCESSOR_SUCCESS, p, tasks))

/-- Member `pop_task` (lines 519-566) together with a record of whether `task_queue_.sort`
was called: a call that returns at line 523 has not reached it. -/
def pop_task_traced (c : Comparison T) (p : Processor T) (tasks : TASK_LIST T)
    (batch_size : Int) (wait_time_ms : Int) :
    Bool × Except Fault (Int × Processor T × TASK_LIST T) :=
  match p.task_semphore_.wait wait_time_ms with
  | .error f => (false, .error f)
  | .ok (r, sem) =>
    if r ≠ ZFZ_SEMPHORE_SUCCESS then
      (false, .ok (ZFZ_PROCESSOR_TIME_OUT, { p with task_semphore_ := sem }, tasks))
    else
      pop_task_locked_traced c { p with task_semphore_ := sem } tasks batch_size

end Processor

namespace History

variable {T : Type}

/-- Whether the call is a `push_task` of a non-empty list that the stage accepts. -/
def submits (h : History T) : FreeCall T → Bool
  | FreeCall.push_task tasks =>
    !tasks.isEmpty && decide ((h.stage.push_task tasks).1 = ZFZ_PROCESSOR_SUCCESS)
  | FreeCall.pop_task _ _ => false

/-- Whether the call is a `pop_task` in which `task_queue_.sort` is called: the worker's
`pop_task` runs its locked part, on an empty local list, when its wait has succeeded. -/
def sorts (c : Comparison T) (h : History T) : FreeCall T → Bool
  | FreeCall.push_task _ => false
  | FreeCall.pop_task _ false => false
  | FreeCall.pop_task batch_size true => (h.stage.pop_task_locked_traced c [] batch_size).1

/-- The number of calls of a sequence for which `test` holds in the state in which the call
is made; the sequence stops at the first call that does not return. -/
def count_calls (c : Comparison T) (test : History T → FreeCall T → Bool) :
    History T → List (FreeCall T) → Nat
  | _, [] => 0
  | h, call :: calls =>
    (if test h call then 1 else 0) +
      match free_step c h call with
      | .error _ => 0
      | .ok h1 => count_calls c test h1 calls

end History

/-! ## Calls interleaved at the counter

The counter has its own lock: `task_semphore_.wait` in `pop_task` (line 521) runs before
`queue_lock_` is taken (line 526), and other threads can wait on the counter while a
`push_task` or a `pop_task` holds `queue_lock_`.  Each call is therefore cut at its counter
operation into the parts below, which are the atomic steps of an interleaving. -/

namespace Processor

variable {T : Type}

/-- Lines 491-511 of `push_task`: the part before `task_semphore_.signal`.  Returns the
result code when the call returns in this part, and `none` when it goes on to line 512 with
`queue_lock_` held. -/
def push_task_enqueue (p : Processor T) (tasks : TASK_LIST T) : Option Int × Processor T :=
  let task_size : Nat := tasks.length
  if task_size = 0 then
    (some ZFZ_PROCESSOR_SUCCESS, p)
  else if size_t_add (to_size_t p.current_queue_size_) task_size > to_size_t p.max_queue_size_ then
    (some ZFZ_PROCESSOR_QUEUE_FULL,
      if p.queue_full_flag_ = 0 then { p with queue_full_flag_ := 1 } else p)
  else
    let task_copy := tasks
    (none,
      { p with
        task_queue_ := p.task_queue_ ++ task_copy
        current_queue_size_ := to_int (size_t_add (to_size_t p.current_queue_size_) task_size) })

/-- Lines 512-514 of `push_task`: `task_semphore_.signal(task_size)`, the reset of
`queue_ordered_flag_` and the return. -/
def push_task_signal (p : Processor T) (task_size : Nat) : Int × Processor T :=
  (ZFZ_PROCESSOR_SUCCESS,
    { p with
      task_semphore_ := p.task_semphore_.signal task_size
      queue_ordered_flag_ := 0 })

/-- Lines 526-558 of `pop_task`: the locked part before `task_semphore_.release`.  Returns
the result code, the stage, the output list and `poped_count` (0 when the call returns at
line 535). -/
def pop_task_dequeue (c : Comparison T) (p : Processor T) (tasks : TASK_LIST T)
    (batch_size : Int) : Except Fault (Int × Processor T × TASK_LIST T × Int) :=
  let p := if p.queue_full_flag_ ≠ 0 then { p with queue_full_flag_ := 0 } else p
  if p.current_queue_size_ ≤ 0 then
    .ok (ZFZ_PROCESSOR_QUEUE_EMPTY, p, tasks, 0)
  else
    let p :=
      if p.queue_ordered_flag_ = 0 then
        { p with
          task_queue_ := list_sort (compare_shared_ptr_t c) p.task_queue_
          queue_ordered_flag_ := 1 }
      else p
    if batch_size > 0 ∧ p.current_queue_size_ ≥ batch_size then
      if batch_size.toNat > p.task_queue_.length then
        .error Fault.undefined
      else
        let tasks := tasks ++ p.task_queue_.take batch_size.toNat
        let p := { p with
          task_queue_ := p.task_queue_.drop batch_size.toNat
          current_queue_size_ := p.current_queue_size_ - batch_size }
        let poped_count := batch_size
        .ok (ZFZ_PROCESSOR_SUCCESS, p, tasks, poped_count)
    else
      let tasks := tasks ++ p.task_queue_
      let p := { p with task_queue_ := [] }
      let p := { p with current_queue_size_ := 0 }
      let poped_count := p.current_queue_size_
      .ok (ZFZ_PROCESSOR_SUCCESS, p, tasks, poped_count)

/-- Lines 560-565 of `pop_task`: the release of permits and the return. -/
def pop_task_release (p : Processor T) (poped_count : Int) : Processor T :=
  if poped_count > 1 then
    { p with task_semphore_ := p.task_semphore_.release (poped_count - 1) }
  else p

end Processor

/-- The call that holds `queue_lock_` and has its counter operation still to do: a
`push_task` before `signal(task_size)`, or a `pop_task` before `release`. -/
inductive Held where
  | push_task (task_size : Nat)
  | pop_task (poped_count : Int)
  deriving DecidableEq

/-- A stage on which several threads are inside `push_task` and `pop_task`: `waited` counts
the `pop_task` calls that have passed the counter wait (line 521) and have not yet taken
`queue_lock_` (line 526); `held` is the call that holds `queue_lock_` in the middle of its
locked part, if there is one. -/
structure Interleaving (T : Type) where
  stage : Processor T
  waited : Nat := 0
  held : Option Held := none
  deriving DecidableEq

/-- An atomic step of a thread on the stage. -/
inductive Action (T : Type) where
  | push_task_enqueue (tasks : TASK_LIST T)
  | push_task_signal
  | pop_task_wait (wait_time_ms : Int)
  | pop_task_dequeue (batch_size : Int)
  | pop_task_release

namespace Interleaving

variable {T : Type}

/-- The number of tasks that the `push_task` holding `queue_lock_` has queued and not yet
signalled. -/
def unsignalled (s : Interleaving T) : Nat :=
  match s.held with
  | some (Held.push_task task_size) => task_size
  | _ => 0

/-- One atomic step; `Fault.blocks` when the step cannot be taken in this state (the
thread waits for `queue_lock_` or for the counter, or no thread is at this point of its
call).  A `push_task` of an empty list returns before it takes `queue_lock_`; a `pop_task`
whose wait does not succeed returns `ZFZ_PROCESSOR_TIME_OUT` at once (line 523); a worker
calls `pop_task` with an empty local list. -/
def step (c : Comparison T) (s : Interleaving T) : Action T → Except Fault (Interleaving T)
  | Action.push_task_enqueue tasks =>
    if tasks.length = 0 then .ok s
    else
      match s.held with
      | some _ => .error Fault.blocks
      | none =>
        let r := s.stage.push_task_enqueue tasks
        match r.1 with
        | some _ => .ok { s with stage := r.2 }
        | none => .ok { s with stage := r.2, held := some (Held.push_task tasks.length) }
  | Action.push_task_signal =>
    match s.held with
    | some (Held.push_task task_size) =>
      .ok { s with stage := (s.stage.push_task_signal task_size).2, held := none }
    | _ => .error Fault.blocks
  | Action.pop_task_wait wait_time_ms =>
    match s.stage.task_semphore_.wait wait_time_ms with
    | .error f => .error f
    | .ok (r, sem) =>
      if r ≠ ZFZ_SEMPHORE_SUCCESS then
        .ok { s with stage := { s.stage with task_semphore_ := sem } }
      else
        .ok { s with stage := { s.stage with task_semphore_ := sem }, waited := s.waited + 1 }
  | Action.pop_task_dequeue batch_size =>
    if s.waited = 0 then .error Fault.blocks
    else
      match s.held with
      | some _ => .error Fault.blocks
      | none =>
        match s.stage.pop_task_dequeue c [] batch_size with
        | .error f => .error f
        | .ok (r, p, _, poped_count) =>
          if r = ZFZ_PROCESSOR_QUEUE_EMPTY then
            .ok { s with stage := p, waited := s.waited - 1 }
          else
            .ok { s with stage := p, waited := s.waited - 1,
                         held := some (Held.pop_task poped_count) }
  | Action.pop_task_release =>
    match s.held with
    | some (Held.pop_task poped_count) =>
      .ok { s with stage := s.stage.pop_task_release poped_count, held := none }
    | _ => .error Fault.blocks

/-- A finite sequence of atomic steps. -/
def run (c : Comparison T) (s : Interleaving T) : List (Action T) → Except Fault (Interleaving T)
  | [] => .ok s
  | action :: actions =>
    match step c s action with
    | .error f => .error f
    | .ok s1 => run c s1 actions

/-- The capacity is a non-negative `int`, the tracked size is the number of queued tasks and
within the capacity, the count of the counter is not negative, and every queued task has a
permit in the counter, or a `pop_task` that has passed the wait, or the `signal` to come of
the `push_task` that queued it. -/
def Covered (s : Interleaving T) : Prop :=
  (0 ≤ s.stage.max_queue_size_ ∧ s.stage.max_queue_size_ ≤ INT_MAX) ∧
    (0 ≤ s.stage.current_queue_size_ ∧ s.stage.current_queue_size_ ≤ s.stage.max_queue_size_) ∧
    s.stage.current_queue_size_ = s.stage.task_queue_.length ∧
    0 ≤ s.stage.task_semphore_.count ∧
    s.stage.current_queue_size_ ≤
      s.stage.task_semphore_.count + (s.waited : Int) + (s.unsignalled : Int)

end Interleaving

/-! ## The list of downstream stages -/

/-- A call that changes the list of downstream stages; a `Processor<T>*` is an address. -/
inductive LinkCall where
  | add_next_processor (p : Nat)
  | remove_next_processor (p : Nat)
  deriving DecidableEq

namespace Processor

variable {T : Type}

/-- The loop of `add_next_processor` (lines 258-264): whether an entry equal to `p` is
found. -/
def add_next_processor_loop (p : Nat) : List Nat → Bool
  | [] => false
  | cur_processor :: rest =>
    if cur_processor = p then true else add_next_processor_loop p rest

/-- Member `add_next_processor(p)` (lines 250-269). -/
def add_next_processor (self : Processor T) (p : Nat) : Int × Processor T :=
  if p = 0 then (ZFZ_PROCESSOR_FAIL, self)
  else if add_next_processor_loop p self.next_processors_ then (ZFZ_PROCESSOR_FAIL, self)
  else (ZFZ_PROCESSOR_SUCCESS, { self with next_processors_ := self.next_processors_ ++ [p] })

/-- The loop of `remove_next_processor` (lines 273-280): the list once the first entry equal
to `p` is erased, `none` when no entry is equal to `p`. -/
def remove_next_processor_loop (p : Nat) : List Nat → Option (List Nat)
  | [] => none
  | itr :: rest =>
    if itr = p then some rest
    else (remove_next_processor_loop p rest).map (fun l => itr :: l)

/-- Member `remove_next_processor(p)` (lines 271-283). -/
def remove_next_processor (self : Processor T) (p : Nat) : Int × Processor T :=
  match remove_next_processor_loop p self.next_processors_ with
  | some l => (ZFZ_PROCESSOR_SUCCESS, { self with next_processors_ := l })
  | none => (ZFZ_PROCESSOR_FAIL, self)

/-- One call that changes the list of downstream stages. -/
def link_step (self : Processor T) : LinkCall → Processor T
  | LinkCall.add_next_processor p => (self.add_next_processor p).2
  | LinkCall.remove_next_processor p => (self.remove_next_processor p).2

/-- A sequence of calls that change the list of downstream stages. -/
def link_run (self : Processor T) : List LinkCall → Processor T
  | [] => self
  | call :: calls => link_run (self.link_step call) calls

end Processor

/-! ## Concrete stages -/

/-- A stage of capacity 2 that holds one task, with one permit in the counter. -/
def stage_1_of_2 : Processor Nat :=
  { task_queue_ := [⟨0, 7⟩], current_queue_size_ := 1, max_queue_size_ := 2,
    task_semphore_ := { count := 1 } }

/-- The payload type `unsigned`: it has both `operator<` and `operator>`. -/
def nat_comparison : Comparison Nat :=
  { less_than := some (fun a b => decide (a < b)),
    greater_than := some (fun a b => decide (a > b)) }

/-- A payload type with neither `operator<` nor `operator>`. -/
def no_comparison : Comparison Nat := { less_than := none, greater_than := none }

/-- A freshly constructed stage of capacity 4. -/
def stage_cap_4 : Processor Nat := ({} : Processor Nat).set_max_queue_size 4

/-- Four tasks with the payloads 3, 1, 4, 1, at the addresses 0, 1, 2, 3. -/
def tasks_3141 : TASK_LIST Nat := [⟨0, 3⟩, ⟨1, 1⟩, ⟨2, 4⟩, ⟨3, 1⟩]

/-- The stage of capacity 4 after `tasks_3141` has been submitted to it. -/
def stage_3141 : Processor Nat :=
  { task_queue_ := tasks_3141, current_queue_size_ := 4, max_queue_size_ := 4,
    task_semphore_ := { count := 4 } }

/-- The stage `stage_3141` after a batch of two has been dequeued. -/
def stage_3141_popped : Processor Nat :=
  { task_queue_ := [⟨0, 3⟩, ⟨2, 4⟩], current_queue_size_ := 2, max_queue_size_ := 4,
    queue_ordered_flag_ := 1, task_semphore_ := { count := 4 } }

/-- The stage `stage_1_of_2` after its task has been dequeued. -/
def stage_1_of_2_popped : Processor Nat :=
  { task_queue_ := [], current_queue_size_ := 0, max_queue_size_ := 2,
    queue_ordered_flag_ := 1, task_semphore_ := { count := 0 } }

/-- A program with one stage, `stage_1_of_2` at address 1. -/
def heap_one : Heap Nat := fun a => if a = 1 then some stage_1_of_2 else none

/-- The downstream stage D1: capacity 1, already holding one task. -/
def stage_D1 : Processor Nat :=
  { task_queue_ := [⟨0, 7⟩], current_queue_size_ := 1, max_queue_size_ := 1,
    task_semphore_ := { count := 1 } }

/-- The downstream stage D2: capacity 10, empty. -/
def stage_D2 : Processor Nat := { max_queue_size_ := 10 }

/-- The upstream stage, with D1 (address 1) and D2 (address 2) registered in this order. -/
def stage_up : Processor Nat := { next_processors_ := [1, 2] }

/-- A program with D1 at address 1, D2 at address 2 and the upstream stage at address 3. -/
def heap_fan : Heap Nat := fun a =>
  if a = 1 then some stage_D1 else if a = 2 then some stage_D2
  else if a = 3 then some stage_up else none

/-- Submit `tasks_3141`, dequeue at most two, submit three more, dequeue at most two. -/
def calls_3141 : List (Call Nat) :=
  [Call.push_task tasks_3141, Call.pop_task 2 200,
    Call.push_task [⟨4, 9⟩, ⟨5, 9⟩, ⟨6, 9⟩], Call.pop_task 2 200]

/-- What `calls_3141` does on a fresh stage of capacity 4, with `unsigned` payloads. -/
def history_3141 : History Nat :=
  { stage := { task_queue_ := [], current_queue_size_ := 0, max_queue_size_ := 4,
               queue_ordered_flag_ := 1, task_semphore_ := { count := 4 } },
    accepted := [tasks_3141],
    batches := [[⟨1, 1⟩, ⟨3, 1⟩], [⟨0, 3⟩, ⟨2, 4⟩]] }

/-- Submit `tasks_3141`, dequeue at most two, dequeue at most one. -/
def calls_fifo : List (Call Nat) :=
  [Call.push_task tasks_3141, Call.pop_task 2 200, Call.pop_task 1 200]

/-- What `calls_fifo` does on a fresh stage of capacity 4 whose payloads have no comparison. -/
def history_fifo : History Nat :=
  { stage := { task_queue_ := [⟨3, 1⟩], current_queue_size_ := 1, max_queue_size_ := 4,
               queue_ordered_flag_ := 1, task_semphore_ := { count := 3 } },
    accepted := [tasks_3141],
    batches := [[⟨0, 3⟩, ⟨1, 1⟩], [⟨2, 4⟩]] }

/-- An overriding `handle_fan_out_error` that gives up on the stage at address 1 and lets
every other rejection pass. -/
def hook_fail_at_1 (_push_result : Int) (p : Nat) (_tasks : TASK_LIST Nat) : Int :=
  if p = 1 then ZFZ_PROCESSOR_FAIL else ZFZ_PROCESSOR_SUCCESS

/-- Submit `tasks_3141`, dequeue with batch size 0 (all four tasks) after a successful wait,
a failed wait, and a successful wait on the empty queue. -/
def free_calls_3141 : List (FreeCall Nat) :=
  [FreeCall.push_task tasks_3141, FreeCall.pop_task 0 true, FreeCall.pop_task 1 false,
    FreeCall.pop_task 1 true]

/-- What `free_calls_3141` does on a freshly constructed stage. -/
def free_history_3141 : History Nat :=
  { stage := { task_queue_ := [], current_queue_size_ := 0, queue_ordered_flag_ := 1,
               task_semphore_ := { count := 4 } },
    accepted := [tasks_3141],
    batches := [[⟨1, 1⟩, ⟨3, 1⟩, ⟨0, 3⟩, ⟨2, 4⟩]] }

/-- A stage that admits at most three workers and has two. -/
def stage_2_workers : Processor Nat :=
  { max_thread_size_ := 3,
    thread_list_ := [Processor.new_thread_wrapper, Processor.new_thread_wrapper] }

/-- A handle that `end_one_thread` has been through. -/
def ended_thread_wrapper : ThreadWrapper := { joinable := false, inited_flag_ := 1, quit_flag_ := 1 }

/-- The addresses returned by `new T()` in the examples: round `i` gets address `i + 5`. -/
def fresh_from_5 (i : Nat) : Nat := i + 5

/-- A fresh pool with the admission limit 1: check out, check in, `reset()`. -/
def pool_calls_reset : List PoolCall :=
  [PoolCall.set_available_count 1, PoolCall.pop 7, PoolCall.push 7, PoolCall.reset]

/-- A fresh pool with the admission limit 1: check out twice. -/
def pool_calls_two_pops : List PoolCall :=
  [PoolCall.set_available_count 1, PoolCall.pop 7, PoolCall.pop 8]

/-- A fresh pool with the admission limit 1: check out, check in, check out. -/
def pool_calls_pop_push_pop : List PoolCall :=
  [PoolCall.set_available_count 1, PoolCall.pop 7, PoolCall.push 7, PoolCall.pop 8]

/-- A pool that holds the idle objects 5, 6, 7, the oldest first. -/
def pool_567 : ObjectPool := { ObjectPool.create with object_list_ := [5, 6, 7] }

/-- A pool with the admission limit 1 whose only permit is checked out. -/
def pool_limit_1_out : ObjectPool := { max_available_count_ := 1, available_count_ := 0 }

/-- Calls on a fresh pool: three check-ins, a resize to 1, a rejected resize, a check-out. -/
def pool_calls_retention : List PoolCall :=
  [PoolCall.push 5, PoolCall.push 6, PoolCall.push 7, PoolCall.set_max_holding_count 1,
    PoolCall.set_max_holding_count (-1), PoolCall.pop 9, PoolCall.push 8]

/-- The pool after `pool_calls_retention`. -/
def pool_after_retention : ObjectPool :=
  { ObjectPool.create with object_list_ := [8], max_holding_count_ := 1 }

/-- A freshly constructed stage after `set_max_queue_size(-1)`. -/
def stage_cap_neg : Processor Nat := ({} : Processor Nat).set_max_queue_size (-1)

/-- The stage `stage_cap_neg` after one task has been submitted to it. -/
def stage_cap_neg_pushed : Processor Nat :=
  { task_queue_ := [⟨0, 7⟩], current_queue_size_ := 1, max_queue_size_ := -1,
    task_semphore_ := { count := 1 } }

/-- A freshly constructed stage after three tasks have been submitted in one call. -/
def stage_314 : Processor Nat :=
  { task_queue_ := [⟨0, 3⟩, ⟨1, 1⟩, ⟨2, 4⟩], current_queue_size_ := 3,
    task_semphore_ := { count := 3 } }

/-- The stage `stage_314` after a `pop_task` that took all three tasks, with the permit
count `count`. -/
def stage_314_popped (count : Int) : Processor Nat :=
  { task_queue_ := [], current_queue_size_ := 0, queue_ordered_flag_ := 1,
    task_semphore_ := { count := count } }

/-- A freshly constructed stage whose counter holds one permit. -/
def stage_stale_permit : Processor Nat := { task_semphore_ := { count := 1 } }

/-- Calls on the list of downstream stages: register 1, 2, the null pointer and 1 again,
remove 1 and a stage that is not registered. -/
def link_calls : List LinkCall :=
  [LinkCall.add_next_processor 1, LinkCall.add_next_processor 2,
    LinkCall.add_next_processor 0, LinkCall.add_next_processor 1,
    LinkCall.remove_next_processor 1, LinkCall.remove_next_processor 5]

/-- Submit `tasks_3141`; dequeue at most one task three times, each after a successful wait,
with a failed wait in between. -/
def free_calls_sorts : List (FreeCall Nat) :=
  [FreeCall.push_task tasks_3141, FreeCall.pop_task 1 true, FreeCall.pop_task 1 false,
    FreeCall.pop_task 1 true, FreeCall.pop_task 1 true]

/-- A new stage after one task was submitted and one worker has passed the wait, taking the
only permit: the task is still queued. -/
def interleaving_waited : Interleaving Nat :=
  { stage := { task_queue_ := [⟨0, 7⟩], current_queue_size_ := 1,
               task_semphore_ := { count := 0 } },
    waited := 1 }

/-- A new stage on which a `push_task` of one task has queued the task and not yet signalled
the counter. -/
def interleaving_unsignalled : Interleaving Nat :=
  { stage := { task_queue_ := [⟨0, 7⟩], current_queue_size_ := 1 },
    held := some (Held.push_task 1) }

/-- A new stage after a whole `push_task` of one task: the task is queued with its permit
and no call is in progress. -/
def interleaving_signalled : Interleaving Nat :=
  { stage := { task_queue_ := [⟨0, 7⟩], current_queue_size_ := 1,
               task_semphore_ := { count := 1 } } }

/-- A `push_task` of one task and a whole `pop_task` of it, step by step. -/
def actions_push_pop : List (Action Nat) :=
  [Action.push_task_enqueue [⟨0, 7⟩], Action.push_task_signal, Action.pop_task_wait 200,
    Action.pop_task_dequeue 1, Action.pop_task_release]

/-- The stage after `actions_push_pop` on a new stage. -/
def interleaving_push_pop : Interleaving Nat :=
  { stage := { queue_ordered_flag_ := 1 } }

/-! # Theorems -/

/-! ## Machine arithmetic -/

theorem to_size_t_of_nonneg {i : Int} (h0 : 0 ≤ i) (h1 : i ≤ INT_MAX) :
    to_size_t i = i.toNat := by
  unfold to_size_t
  unfold INT_MAX at h1
  omega

theorem to_size_t_of_neg {i : Int} (h0 : i < 0) (h1 : INT_MIN ≤ i) :
    ((to_size_t i : Nat) : Int) = 2 ^ 64 + i := by
  unfold to_size_t
  unfold INT_MIN at h1
  omega

theorem to_size_t_lt (i : Int) : to_size_t i < 2 ^ 64 := by
  unfold to_size_t
  omega

/-- Converting the `size_t` sum back to `int` gives the exact sum whenever that sum is an
`int`. -/
theorem to_int_size_t_add {s : Int} {n : Nat} (hs : is_int s) (hsn : is_int (s + n)) :
    to_int (size_t_add (to_size_t s) n) = s + n := by
  unfold is_int INT_MIN INT_MAX at hs hsn
  unfold to_int size_t_add to_size_t
  split <;> omega

/-- The conversion to `int` yields a value of `int`. -/
theorem to_int_ge (n : Nat) : INT_MIN ≤ to_int n := by
  unfold to_int INT_MIN
  split <;> omega

/-- Converting the `size_t` sum back to `int` never gives more than the exact sum. -/
theorem to_int_size_t_add_le {s : Int} (n : Nat) (hs : INT_MIN ≤ s) :
    to_int (size_t_add (to_size_t s) n) ≤ s + n := by
  unfold INT_MIN at hs
  unfold to_int size_t_add to_size_t
  split <;> omega

/-! ## The model of `std::list::sort` -/

section ListSort

variable {α : Type} {comp : α → α → Bool}

theorem StrictWeakOrder.asymm (h : StrictWeakOrder comp) {a b : α} (hab : comp a b = true) :
    comp b a = false := by
  cases hba : comp b a
  · rfl
  · have := h.trans a b a hab hba
    rw [h.irrefl a] at this
    exact absurd this (by decide)

/-- If `z` is not below `y` and `y` is not below `x`, then `z` is not below `x`. -/
theorem StrictWeakOrder.not_lt_trans (h : StrictWeakOrder comp) {x y z : α}
    (hzy : comp z y = false) (hyx : comp y x = false) : comp z x = false := by
  cases hzx : comp z x
  · rfl
  · exfalso
    cases hyz : comp y z
    · cases hxy : comp x y
      · have := (h.incomp_trans z y x hzy hyz hyx hxy).1
        rw [hzx] at this
        exact absurd this (by decide)
      · have := h.trans z x y hzx hxy
        rw [hzy] at this
        exact absurd this (by decide)
    · have := h.trans y z x hyz hzx
      rw [hyx] at this
      exact absurd this (by decide)

/-- The order `<` of `unsigned` is a strict weak ordering. -/
theorem nat_lt_swo : StrictWeakOrder (fun a b : Nat => decide (a < b)) := by
  refine ⟨?_, ?_, ?_⟩
  · intro a
    simp
  · intro a b d
    simp only [decide_eq_true_eq]
    omega
  · intro a b d
    simp only [decide_eq_false_iff_not]
    omega

theorem list_insert_perm (comp : α → α → Bool) (x : α) (l : List α) :
    (list_insert comp x l).Perm (x :: l) := by
  induction l with
  | nil => exact List.Perm.refl _
  | cons y ys ih =>
    unfold list_insert
    split
    · exact (List.Perm.cons y ih).trans (List.Perm.swap x y ys)
    · exact List.Perm.refl _

theorem list_sort_perm (comp : α → α → Bool) (l : List α) : (list_sort comp l).Perm l := by
  induction l with
  | nil => exact List.Perm.refl _
  | cons x xs ih =>
    unfold list_sort
    exact (list_insert_perm comp x _).trans (List.Perm.cons x ih)

theorem list_sort_length (comp : α → α → Bool) (l : List α) :
    (list_sort comp l).length = l.length :=
  (list_sort_perm comp l).length_eq

theorem list_insert_sorted (h : StrictWeakOrder comp) (x : α) {l : List α}
    (hl : l.Pairwise (fun a b => comp b a = false)) :
    (list_insert comp x l).Pairwise (fun a b => comp b a = false) := by
  induction l with
  | nil => simp [list_insert]
  | cons y ys ih =>
    rw [List.pairwise_cons] at hl
    unfold list_insert
    split
    · rename_i hyx
      rw [List.pairwise_cons]
      refine ⟨?_, ih hl.2⟩
      intro z hz
      rcases (List.mem_cons.mp ((list_insert_perm comp x ys).mem_iff.mp hz)) with hzx | hzys
      · subst hzx
        exact h.asymm hyx
      · exact hl.1 z hzys
    · rename_i hyx
      have hyx' : comp y x = false := by simpa using hyx
      rw [List.pairwise_cons]
      refine ⟨?_, List.pairwise_cons.mpr hl⟩
      intro z hz
      rcases List.mem_cons.mp hz with hzy | hzys
      · subst hzy
        exact hyx'
      · exact h.not_lt_trans (hl.1 z hzys) hyx'

theorem list_sort_sorted (h : StrictWeakOrder comp) (l : List α) :
    (list_sort comp l).Pairwise (fun a b => comp b a = false) := by
  induction l with
  | nil => simp [list_sort]
  | cons x xs ih =>
    unfold list_sort
    exact list_insert_sorted h x ih

/-- A list that is already in order is left as it is. -/
theorem list_sort_of_sorted {l : List α} (hl : l.Pairwise (fun a b => comp b a = false)) :
    list_sort comp l = l := by
  induction l with
  | nil => rfl
  | cons x xs ih =>
    rw [List.pairwise_cons] at hl
    unfold list_sort
    rw [ih hl.2]
    cases xs with
    | nil => rfl
    | cons y ys =>
      unfold list_insert
      rw [hl.1 y (List.mem_cons_self y ys)]
      simp

theorem equivalent_iff {x y : α} :
    equivalent comp x y = true ↔ comp x y = false ∧ comp y x = false := by
  simp [equivalent]

theorem list_insert_filter (h : StrictWeakOrder comp) (x a : α) (l : List α) :
    (list_insert comp a l).filter (equivalent comp x) = (a :: l).filter (equivalent comp x) := by
  induction l with
  | nil => rfl
  | cons y ys ih =>
    unfold list_insert
    split
    · rename_i hya
      by_cases hy : equivalent comp x y = true
      · by_cases ha : equivalent comp x a = true
        · exfalso
          rw [equivalent_iff] at hy ha
          have := (h.incomp_trans y x a hy.2 hy.1 ha.1 ha.2).1
          rw [hya] at this
          exact absurd this (by decide)
        · rw [List.filter_cons_of_pos hy, ih, List.filter_cons_of_neg ha,
            List.filter_cons_of_neg ha, List.filter_cons_of_pos hy]
      · rw [List.filter_cons_of_neg hy, ih]
        by_cases ha : equivalent comp x a = true
        · rw [List.filter_cons_of_pos ha, List.filter_cons_of_pos ha, List.filter_cons_of_neg hy]
        · rw [List.filter_cons_of_neg ha, List.filter_cons_of_neg ha, List.filter_cons_of_neg hy]
    · rfl

/-- The model satisfies the postcondition of a stable sort. -/
theorem list_sort_isStableSort (h : StrictWeakOrder comp) (l : List α) :
    IsStableSort comp l (list_sort comp l) := by
  refine ⟨list_sort_perm comp l, list_sort_sorted h l, ?_⟩
  intro x
  induction l with
  | nil => rfl
  | cons a as ih =>
    unfold list_sort
    rw [list_insert_filter h x a, List.filter_cons, List.filter_cons, ih]

/-- Two lists in order, with the same elements and the same order inside every class of
equivalent elements, are equal. -/
theorem sorted_stable_unique (hirr : ∀ a, comp a a = false) :
    ∀ (r1 r2 : List α), r1.Perm r2 →
      r1.Pairwise (fun a b => comp b a = false) → r2.Pairwise (fun a b => comp b a = false) →
      (∀ x, r1.filter (equivalent comp x) = r2.filter (equivalent comp x)) → r1 = r2 := by
  intro r1
  induction r1 with
  | nil =>
    intro r2 hp _ _ _
    exact (List.Perm.nil_eq hp)
  | cons a r1 ih =>
    intro r2 hp h1 h2 hf
    cases r2 with
    | nil => exact absurd hp.length_eq (by simp)
    | cons b r2 =>
      rw [List.pairwise_cons] at h1 h2
      have hab : comp a b = false := by
        rcases List.mem_cons.mp (hp.mem_iff.mp (List.mem_cons_self a r1)) with e | hm
        · rw [e]; exact hirr b
        · exact h2.1 a hm
      have hba : comp b a = false := by
        rcases List.mem_cons.mp (hp.mem_iff.mpr (List.mem_cons_self b r2)) with e | hm
        · rw [e]; exact hirr a
        · exact h1.1 b hm
      have hfa := hf a
      rw [List.filter_cons_of_pos (equivalent_iff.mpr ⟨hirr a, hirr a⟩),
        List.filter_cons_of_pos (equivalent_iff.mpr ⟨hab, hba⟩)] at hfa
      have e : a = b := (List.cons.inj hfa).1
      subst e
      have htl : r1 = r2 := by
        apply ih r2 (List.Perm.cons_inv hp) h1.2 h2.2
        intro x
        have hfx := hf x
        by_cases hx : equivalent comp x a = true
        · rw [List.filter_cons_of_pos hx, List.filter_cons_of_pos hx] at hfx
          exact (List.cons.inj hfx).2
        · rw [List.filter_cons_of_neg hx, List.filter_cons_of_neg hx] at hfx
          exact hfx
      rw [htl]

/-- For a strict weak ordering the stable sort of a list is unique: whatever list satisfies
the postcondition is the list computed by the model. -/
theorem IsStableSort.eq_list_sort (h : StrictWeakOrder comp) {l r : List α}
    (hr : IsStableSort comp l r) : r = list_sort comp l := by
  have hm := list_sort_isStableSort h l
  apply sorted_stable_unique h.irrefl r (list_sort comp l) (hr.1.trans hm.1.symm) hr.2.1 hm.2.1
  intro x
  rw [hr.2.2 x, hm.2.2 x]

end ListSort

/-! ## `push_task` -/

namespace Processor

variable {T : Type}

/-- The capacity test of `push_task`, for a non-negative size and capacity and a list that a
`std::list` can hold, is the comparison of the integers `s + n` and `max_queue_size_`. -/
theorem push_task_full_test {s m : Int} {n : Nat} (hs0 : 0 ≤ s) (hs : s ≤ INT_MAX)
    (hm0 : 0 ≤ m) (hm : m ≤ INT_MAX) (hn : n ≤ LIST_MAX_SIZE) :
    size_t_add (to_size_t s) n > to_size_t m ↔ s + n > m := by
  rw [to_size_t_of_nonneg hs0 hs, to_size_t_of_nonneg hm0 hm]
  unfold size_t_add
  unfold INT_MAX at hs hm
  unfold LIST_MAX_SIZE at hn
  omega

/-- C1. For a stage with capacity `max_queue_size_ >= 0` and tracked size `s >= 0` (both of
type `int`) and a non-empty task list of length `n` (at most what a `std::list` holds),
`push_task` returns `ZFZ_PROCESSOR_QUEUE_FULL` if and only if `s + n` exceeds the capacity,
and `ZFZ_PROCESSOR_SUCCESS` if and only if it does not.  For an empty list, whatever the
stage, it returns `ZFZ_PROCESSOR_SUCCESS` and the stage is unchanged. -/
theorem push_task_result (p : Processor T) (tasks : TASK_LIST T) :
    (0 ≤ p.current_queue_size_ → p.current_queue_size_ ≤ INT_MAX →
      0 ≤ p.max_queue_size_ → p.max_queue_size_ ≤ INT_MAX →
      tasks.length ≤ LIST_MAX_SIZE → tasks ≠ [] →
      ((p.push_task tasks).1 = ZFZ_PROCESSOR_QUEUE_FULL ↔
        p.current_queue_size_ + tasks.length > p.max_queue_size_) ∧
      ((p.push_task tasks).1 = ZFZ_PROCESSOR_SUCCESS ↔
        ¬ (p.current_queue_size_ + tasks.length > p.max_queue_size_))) ∧
    (tasks = [] → p.push_task tasks = (ZFZ_PROCESSOR_SUCCESS, p, [])) := by
  constructor
  · intro hs0 hs hm0 hm hn hne
    have hlen : tasks.length ≠ 0 := by
      intro h0
      exact hne (List.length_eq_zero.mp h0)
    have htest := push_task_full_test (n := tasks.length) hs0 hs hm0 hm hn
    by_cases hfull : size_t_add (to_size_t p.current_queue_size_) tasks.length
        > to_size_t p.max_queue_size_
    · have hgt := htest.mp hfull
      simp [push_task, hlen, hfull, hgt, ZFZ_PROCESSOR_QUEUE_FULL, ZFZ_PROCESSOR_SUCCESS]
    · have hgt : ¬ (p.current_queue_size_ + tasks.length > p.max_queue_size_) :=
        fun h => hfull (htest.mpr h)
      simp only [push_task, hlen, hfull, if_false]
      simp [hgt, ZFZ_PROCESSOR_QUEUE_FULL, ZFZ_PROCESSOR_SUCCESS]
  · intro h
    subst h
    simp [push_task]

/-- Witness for C1: a stage of capacity 2 that holds one task rejects a list of two tasks
and accepts a list of one. -/
theorem push_task_result_witness :
    ((stage_1_of_2.push_task [⟨1, 3⟩, ⟨2, 4⟩]).1 = ZFZ_PROCESSOR_QUEUE_FULL ↔
        stage_1_of_2.current_queue_size_ + ([⟨1, 3⟩, ⟨2, 4⟩] : TASK_LIST Nat).length
          > stage_1_of_2.max_queue_size_) ∧
    ((stage_1_of_2.push_task [⟨1, 3⟩]).1 = ZFZ_PROCESSOR_SUCCESS ↔
        ¬ (stage_1_of_2.current_queue_size_ + ([⟨1, 3⟩] : TASK_LIST Nat).length
          > stage_1_of_2.max_queue_size_)) :=
  ⟨((push_task_result stage_1_of_2 [⟨1, 3⟩, ⟨2, 4⟩]).1 (by decide) (by decide)
      (by decide) (by decide) (by decide) (by decide)).1,
   ((push_task_result stage_1_of_2 [⟨1, 3⟩]).1 (by decide) (by decide)
      (by decide) (by decide) (by decide) (by decide)).2⟩

theorem success_ne_queue_full : ZFZ_PROCESSOR_SUCCESS ≠ ZFZ_PROCESSOR_QUEUE_FULL := by decide

/-- The three outcomes of `push_task`, as equations. -/
theorem push_task_cases (p : Processor T) (tasks : TASK_LIST T) :
    (tasks = [] ∧ p.push_task tasks = (ZFZ_PROCESSOR_SUCCESS, p, tasks)) ∨
    (tasks ≠ [] ∧
      size_t_add (to_size_t p.current_queue_size_) tasks.length > to_size_t p.max_queue_size_ ∧
      p.push_task tasks = (ZFZ_PROCESSOR_QUEUE_FULL,
        { p with queue_full_flag_ := if p.queue_full_flag_ = 0 then 1 else p.queue_full_flag_ },
        tasks)) ∨
    (tasks ≠ [] ∧
      ¬ size_t_add (to_size_t p.current_queue_size_) tasks.length > to_size_t p.max_queue_size_ ∧
      p.push_task tasks = (ZFZ_PROCESSOR_SUCCESS,
        { p with
          task_queue_ := p.task_queue_ ++ tasks
          current_queue_size_ := to_int (size_t_add (to_size_t p.current_queue_size_) tasks.length)
          task_semphore_ := { count := p.task_semphore_.count + tasks.length }
          queue_ordered_flag_ := 0 },
        tasks)) := by
  by_cases hnil : tasks = []
  · left
    subst hnil
    simp [push_task]
  · right
    have hlen : tasks.length ≠ 0 := fun h0 => hnil (List.length_eq_zero.mp h0)
    by_cases hfull : size_t_add (to_size_t p.current_queue_size_) tasks.length
        > to_size_t p.max_queue_size_
    · left
      refine ⟨hnil, hfull, ?_⟩
      simp only [push_task, hlen, hfull, if_false, if_true]
      split <;> simp_all
    · right
      refine ⟨hnil, hfull, ?_⟩
      simp only [push_task, hlen, hfull, if_false, Semphore.signal]

/-- C2. A rejected submit is atomic: if `push_task` returns `ZFZ_PROCESSOR_QUEUE_FULL`, the
stage after the call is the stage before it except possibly for `queue_full_flag_` (which is
then non-zero); in particular the queue and its order, `current_queue_size_`, the permit count
of the counter and `queue_ordered_flag_` are what they were, and the caller's list is
untouched. -/
theorem push_task_rejected_atomic (p : Processor T) (tasks : TASK_LIST T)
    (h : (p.push_task tasks).1 = ZFZ_PROCESSOR_QUEUE_FULL) :
    (p.push_task tasks).2.1 =
        { p with queue_full_flag_ := (p.push_task tasks).2.1.queue_full_flag_ } ∧
      (p.push_task tasks).2.1.queue_full_flag_ ≠ 0 ∧
      (p.push_task tasks).2.1.task_queue_ = p.task_queue_ ∧
      (p.push_task tasks).2.1.current_queue_size_ = p.current_queue_size_ ∧
      (p.push_task tasks).2.1.task_semphore_.count = p.task_semphore_.count ∧
      (p.push_task tasks).2.1.queue_ordered_flag_ = p.queue_ordered_flag_ ∧
      (p.push_task tasks).2.2 = tasks := by
  rcases push_task_cases p tasks with ⟨_, heq⟩ | ⟨_, _, heq⟩ | ⟨_, _, heq⟩
  · rw [heq] at h
    exact absurd h success_ne_queue_full
  · rw [heq]
    refine ⟨rfl, ?_, rfl, rfl, rfl, rfl, rfl⟩
    show (if p.queue_full_flag_ = 0 then 1 else p.queue_full_flag_) ≠ 0
    split <;> simp_all
  · rw [heq] at h
    exact absurd h success_ne_queue_full

/-- Witness for C2: the stage of capacity 2 holding one task rejects two more. -/
theorem push_task_rejected_atomic_witness :
    (stage_1_of_2.push_task [⟨1, 3⟩, ⟨2, 4⟩]).1 = ZFZ_PROCESSOR_QUEUE_FULL ∧
    (stage_1_of_2.push_task [⟨1, 3⟩, ⟨2, 4⟩]).2.1.task_queue_ = stage_1_of_2.task_queue_ :=
  ⟨by decide, (push_task_rejected_atomic stage_1_of_2 [⟨1, 3⟩, ⟨2, 4⟩] (by decide)).2.2.1⟩

/-- C3. An accepted non-empty submit of `n` tasks, when the old tracked size `s` and `s + n`
are values of type `int`: the new queue is the old queue followed by the tasks in their
order, `current_queue_size_` is `s + n`, the counter has been signalled with `n` (it holds
`n` more permits), `queue_ordered_flag_` is 0, no other member changes, and the caller's list
is unchanged.  The single-task overload returns what `push_task` returns for the one-element
list. -/
theorem push_task_accepted (p : Processor T) (tasks : TASK_LIST T)
    (hne : tasks ≠ [])
    (hs : is_int p.current_queue_size_) (hsn : is_int (p.current_queue_size_ + tasks.length))
    (h : (p.push_task tasks).1 = ZFZ_PROCESSOR_SUCCESS) :
    (p.push_task tasks).2.1 =
        { p with
          task_queue_ := p.task_queue_ ++ tasks
          current_queue_size_ := p.current_queue_size_ + tasks.length
          task_semphore_ := p.task_semphore_.signal tasks.length
          queue_ordered_flag_ := 0 } ∧
      (p.push_task tasks).2.1.task_semphore_.count = p.task_semphore_.count + tasks.length ∧
      (p.push_task tasks).2.2 = tasks ∧
      ∀ task : TASK T, p.push_task_one task = ((p.push_task [task]).1, (p.push_task [task]).2.1) := by
  have hstage : (p.push_task tasks).2.1 =
      { p with
        task_queue_ := p.task_queue_ ++ tasks
        current_queue_size_ := p.current_queue_size_ + tasks.length
        task_semphore_ := p.task_semphore_.signal tasks.length
        queue_ordered_flag_ := 0 } := by
    rcases push_task_cases p tasks with ⟨hnil, _⟩ | ⟨_, _, heq⟩ | ⟨_, _, heq⟩
    · exact absurd hnil hne
    · rw [heq] at h
      exact absurd h success_ne_queue_full.symm
    · rw [heq, to_int_size_t_add hs hsn]
      rfl
  refine ⟨hstage, ?_, ?_, fun task => rfl⟩
  · rw [hstage]
    rfl
  · rcases push_task_cases p tasks with ⟨_, heq⟩ | ⟨_, _, heq⟩ | ⟨_, _, heq⟩ <;> rw [heq]

/-- Witness for C3: the stage of capacity 2 holding one task accepts one more. -/
theorem push_task_accepted_witness :
    (stage_1_of_2.push_task [⟨1, 3⟩]).1 = ZFZ_PROCESSOR_SUCCESS ∧
    (stage_1_of_2.push_task [⟨1, 3⟩]).2.1 =
      { stage_1_of_2 with
        task_queue_ := [⟨0, 7⟩, ⟨1, 3⟩]
        current_queue_size_ := 2
        task_semphore_ := { count := 2 }
        queue_ordered_flag_ := 0 } :=
  ⟨by decide, (push_task_accepted stage_1_of_2 [⟨1, 3⟩] (by decide) (by decide) (by decide)
    (by decide)).1⟩

/-! ## `pop_task` -/

/-- The outcomes of the locked part of `pop_task`, as equations: the queue is empty; the
batch is a full batch (`q` is the queue once it has been put in order); the iterator would
leave the list; the whole queue is taken. -/
theorem pop_task_locked_cases (c : Comparison T) (p : Processor T) (tasks : TASK_LIST T)
    (b : Int) :
    ∃ q f,
      q = (if p.queue_ordered_flag_ = 0 then list_sort (compare_shared_ptr_t c) p.task_queue_
            else p.task_queue_) ∧
      f = (if p.queue_ordered_flag_ = 0 then 1 else p.queue_ordered_flag_) ∧
      ((p.current_queue_size_ ≤ 0 ∧
          pop_task_locked c p tasks b =
            .ok (ZFZ_PROCESSOR_QUEUE_EMPTY, { p with queue_full_flag_ := 0 }, tasks)) ∨
        (0 < p.current_queue_size_ ∧ 0 < b ∧ b ≤ p.current_queue_size_ ∧
          q.length < b.toNat ∧ pop_task_locked c p tasks b = .error Fault.undefined) ∨
        (0 < p.current_queue_size_ ∧ 0 < b ∧ b ≤ p.current_queue_size_ ∧
          b.toNat ≤ q.length ∧
          pop_task_locked c p tasks b =
            .ok (ZFZ_PROCESSOR_SUCCESS,
              { p with
                queue_full_flag_ := 0
                task_queue_ := q.drop b.toNat
                queue_ordered_flag_ := f
                current_queue_size_ := p.current_queue_size_ - b
                task_semphore_ :=
                  { count := if b > 1 then p.task_semphore_.count + (b - 1)
                             else p.task_semphore_.count } },
              tasks ++ q.take b.toNat)) ∨
        (0 < p.current_queue_size_ ∧ ¬ (0 < b ∧ b ≤ p.current_queue_size_) ∧
          pop_task_locked c p tasks b =
            .ok (ZFZ_PROCESSOR_SUCCESS,
              { p with
                queue_full_flag_ := 0
                task_queue_ := []
                queue_ordered_flag_ := f
                current_queue_size_ := 0 },
              tasks ++ q))) := by
  refine ⟨_, _, rfl, rfl, ?_⟩
  rcases p with ⟨queue, size, full, ⟨count⟩, maxq, ordered, bs, wt, tl, mt, np, pid, pname⟩
  by_cases hsize : size ≤ 0
  · left
    refine ⟨hsize, ?_⟩
    by_cases hfull : full = 0 <;> simp [pop_task_locked, hsize, hfull]
  · right
    have hpos : 0 < size := by omega
    by_cases hb : 0 < b ∧ b ≤ size
    · by_cases hlen : b.toNat ≤
          (if ordered = 0 then list_sort (compare_shared_ptr_t c) queue else queue).length
      · right; left
        refine ⟨hpos, hb.1, hb.2, hlen, ?_⟩
        by_cases hfull : full = 0 <;> by_cases hord : ordered = 0 <;> by_cases hb1 : b > 1 <;>
          simp only [hord, if_true, if_false] at hlen <;>
          simp [pop_task_locked, Semphore.release, Semphore.signal, hsize, hb.1, hb.2, hfull,
            hord, hb1, Nat.not_lt.mpr hlen]
      · left
        refine ⟨hpos, hb.1, hb.2, Nat.not_le.mp hlen, ?_⟩
        by_cases hfull : full = 0 <;> by_cases hord : ordered = 0 <;>
          simp only [hord, if_true, if_false] at hlen <;>
          simp [pop_task_locked, hsize, hb.1, hb.2, hfull, hord, Nat.not_le.mp hlen]
    · right; right
      refine ⟨hpos, hb, ?_⟩
      by_cases hfull : full = 0 <;> by_cases hord : ordered = 0 <;>
        simp [pop_task_locked, hsize, hb, hfull, hord]

/-- The outcomes of the counter wait of `pop_task`, as equations. -/
theorem pop_task_cases (c : Comparison T) (p : Processor T) (tasks : TASK_LIST T)
    (b w : Int) :
    (p.task_semphore_.count ≤ 0 ∧ w < 0 ∧ pop_task c p tasks b w = .error Fault.blocks) ∨
    (p.task_semphore_.count ≤ 0 ∧ 0 ≤ w ∧
      pop_task c p tasks b w = .ok (ZFZ_PROCESSOR_TIME_OUT, p, tasks)) ∨
    (0 < p.task_semphore_.count ∧
      pop_task c p tasks b w =
        pop_task_locked c { p with task_semphore_ := { count := p.task_semphore_.count - 1 } }
          tasks b) := by
  by_cases hc : 0 < p.task_semphore_.count
  · right; right
    refine ⟨hc, ?_⟩
    simp [pop_task, Semphore.wait, hc, ZFZ_SEMPHORE_SUCCESS]
  · by_cases hw : w < 0
    · left
      refine ⟨by omega, hw, ?_⟩
      simp [pop_task, Semphore.wait, hc, hw]
    · right; left
      refine ⟨by omega, by omega, ?_⟩
      simp [pop_task, Semphore.wait, hc, hw, ZFZ_SEMPHORE_SUCCESS, ZFZ_SEMPHORE_TIME_OUT]

/-- A strict weak ordering of the payloads is one of the tasks. -/
theorem compare_shared_ptr_t_swo {c : Comparison T}
    (h : StrictWeakOrder (SFINAE.compare_t c)) : StrictWeakOrder (compare_shared_ptr_t c) :=
  { irrefl := fun a => h.irrefl a.obj
    trans := fun a b d => h.trans a.obj b.obj d.obj
    incomp_trans := fun a b d => h.incomp_trans a.obj b.obj d.obj }

/-- The queue at the moment the batch is taken is the stable sort of the queue before the
call, provided the queue was in order whenever the flag was set. -/
theorem ordered_queue_isStableSort {c : Comparison T}
    (hswo : StrictWeakOrder (SFINAE.compare_t c)) (p : Processor T) (hP : FlagOrdered c p) :
    IsStableSort (compare_shared_ptr_t c) p.task_queue_
      (if p.queue_ordered_flag_ = 0 then list_sort (compare_shared_ptr_t c) p.task_queue_
        else p.task_queue_) := by
  split
  · exact list_sort_isStableSort (compare_shared_ptr_t_swo hswo) _
  · rename_i hflag
    exact ⟨List.Perm.refl _, hP hflag, fun _ => rfl⟩

/-- What a successful `pop_task` has done: it took a permit, and either moved the first
`batch_size` tasks of the ordered queue `q` or moved all of `q`. -/
theorem pop_task_success_cases {c : Comparison T} {p p1 : Processor T}
    {tasks out : TASK_LIST T} {b w : Int}
    (hpop : pop_task c p tasks b w = .ok (ZFZ_PROCESSOR_SUCCESS, p1, out)) :
    ∃ q f,
      q = (if p.queue_ordered_flag_ = 0 then list_sort (compare_shared_ptr_t c) p.task_queue_
            else p.task_queue_) ∧
      f = (if p.queue_ordered_flag_ = 0 then 1 else p.queue_ordered_flag_) ∧
      0 < p.task_semphore_.count ∧ 0 < p.current_queue_size_ ∧
      ((0 < b ∧ b ≤ p.current_queue_size_ ∧ b.toNat ≤ q.length ∧
          p1 = { p with
            queue_full_flag_ := 0
            task_queue_ := q.drop b.toNat
            queue_ordered_flag_ := f
            current_queue_size_ := p.current_queue_size_ - b
            task_semphore_ :=
              { count := if b > 1 then p.task_semphore_.count - 1 + (b - 1)
                         else p.task_semphore_.count - 1 } } ∧
          out = tasks ++ q.take b.toNat) ∨
        (¬ (0 < b ∧ b ≤ p.current_queue_size_) ∧
          p1 = { p with
            queue_full_flag_ := 0
            task_queue_ := []
            queue_ordered_flag_ := f
            current_queue_size_ := 0
            task_semphore_ := { count := p.task_semphore_.count - 1 } } ∧
          out = tasks ++ q)) := by
  rcases pop_task_cases c p tasks b w with ⟨_, _, heq⟩ | ⟨_, _, heq⟩ | ⟨hc, heq⟩
  · rw [heq] at hpop
    exact absurd hpop (by simp)
  · rw [heq] at hpop
    simp [ZFZ_PROCESSOR_TIME_OUT, ZFZ_PROCESSOR_SUCCESS] at hpop
  · obtain ⟨q, f, hq, hf, hcases⟩ := pop_task_locked_cases c
      { p with task_semphore_ := { count := p.task_semphore_.count - 1 } } tasks b
    simp only at hq hf
    refine ⟨q, f, hq, hf, hc, ?_⟩
    rw [heq] at hpop
    rcases hcases with ⟨hs, heq2⟩ | ⟨hs, hb0, hb1, hlen, heq2⟩ | ⟨hs, hb0, hb1, hlen, heq2⟩ |
      ⟨hs, hb, heq2⟩ <;> rw [heq2] at hpop
    · simp [ZFZ_PROCESSOR_QUEUE_EMPTY, ZFZ_PROCESSOR_SUCCESS] at hpop
    · exact absurd hpop (by simp)
    · simp only [Except.ok.injEq, Prod.mk.injEq, true_and] at hpop
      exact ⟨hs, Or.inl ⟨hb0, hb1, hlen, hpop.1.symm, hpop.2.symm⟩⟩
    · simp only [Except.ok.injEq, Prod.mk.injEq, true_and] at hpop
      exact ⟨hs, Or.inr ⟨hb, hpop.1.symm, hpop.2.symm⟩⟩

/-- C8. Batch size bound: for a batch size `b >= 1` and a stage whose `current_queue_size_`
equals the length `n >= 1` of `task_queue_`, a `pop_task` call that returns
`ZFZ_PROCESSOR_SUCCESS` appends exactly `k = min(b, n)` tasks to the output list (so
`1 <= k <= b`); they are the first `k` tasks of the queue `q` (the queue put in order when
`queue_ordered_flag_` was 0), the queue is left with the rest of `q`, and
`current_queue_size_` becomes `n - k`.  With a permit in the counter the call does return
`ZFZ_PROCESSOR_SUCCESS`. -/
theorem pop_task_batch_size (c : Comparison T) (p : Processor T) (tasks : TASK_LIST T)
    (b w : Int) (hb : 1 ≤ b) (hn : 1 ≤ p.task_queue_.length)
    (hsize : p.current_queue_size_ = p.task_queue_.length) :
    (0 < p.task_semphore_.count →
      ∃ p1 out, pop_task c p tasks b w = .ok (ZFZ_PROCESSOR_SUCCESS, p1, out)) ∧
    ∀ p1 out, pop_task c p tasks b w = .ok (ZFZ_PROCESSOR_SUCCESS, p1, out) →
      ∃ (q : TASK_LIST T) (k : Nat),
        q = (if p.queue_ordered_flag_ = 0 then
              list_sort (compare_shared_ptr_t c) p.task_queue_ else p.task_queue_) ∧
        (k : Int) = min b p.task_queue_.length ∧
        1 ≤ k ∧ (k : Int) ≤ b ∧
        out = tasks ++ q.take k ∧ (q.take k).length = k ∧
        p1.task_queue_ = q.drop k ∧
        p1.current_queue_size_ = p.task_queue_.length - k := by
  have hqlen : (if p.queue_ordered_flag_ = 0 then
      list_sort (compare_shared_ptr_t c) p.task_queue_ else p.task_queue_).length
        = p.task_queue_.length := by
    split
    · exact list_sort_length _ _
    · rfl
  constructor
  · intro hc
    rcases pop_task_cases c p tasks b w with ⟨hc1, _, _⟩ | ⟨hc1, _, _⟩ | ⟨_, heq⟩
    · omega
    · omega
    · obtain ⟨q, f, hq, _, hcases⟩ := pop_task_locked_cases c
        { p with task_semphore_ := { count := p.task_semphore_.count - 1 } } tasks b
      simp only at hq
      rw [heq]
      rcases hcases with ⟨hs, _⟩ | ⟨_, _, hb1, hlen, _⟩ | ⟨_, _, _, _, heq2⟩ | ⟨_, _, heq2⟩
      · simp only at hs
        omega
      · simp only at hb1
        rw [hq, hqlen] at hlen
        omega
      · exact ⟨_, _, heq2⟩
      · exact ⟨_, _, heq2⟩
  · intro p1 out hpop
    obtain ⟨q, f, hq, _, _, _, hcases⟩ := pop_task_success_cases hpop
    have hql : q.length = p.task_queue_.length := by rw [hq]; exact hqlen
    rcases hcases with ⟨_, hb1, hlen, hp1, hout⟩ | ⟨hnb, hp1, hout⟩
    · refine ⟨q, b.toNat, hq, ?_, by omega, by omega, hout, ?_, ?_, ?_⟩
      · omega
      · rw [List.length_take]; omega
      · rw [hp1]
      · rw [hp1]
        simp only
        omega
    · refine ⟨q, p.task_queue_.length, hq, ?_, hn, by omega, ?_, ?_, ?_, ?_⟩
      · omega
      · rw [hout, ← hql, List.take_length]
      · rw [List.length_take]; omega
      · rw [hp1, ← hql, List.drop_length]
      · rw [hp1]
        simp

/-- Witness for C8: four queued tasks and a batch size of 2 give a batch of two tasks. -/
theorem pop_task_batch_size_witness :
    pop_task nat_comparison stage_3141 [] 2 200 =
      .ok (ZFZ_PROCESSOR_SUCCESS, stage_3141_popped, [⟨1, 1⟩, ⟨3, 1⟩]) ∧
    ∃ (q : TASK_LIST Nat) (k : Nat),
        q = (if stage_3141.queue_ordered_flag_ = 0 then
              list_sort (compare_shared_ptr_t nat_comparison) stage_3141.task_queue_
            else stage_3141.task_queue_) ∧
        (k : Int) = min (2 : Int) (stage_3141.task_queue_.length : Int) ∧
        1 ≤ k ∧ (k : Int) ≤ 2 ∧
        ([⟨1, 1⟩, ⟨3, 1⟩] : TASK_LIST Nat) = [] ++ q.take k ∧ (q.take k).length = k ∧
        stage_3141_popped.task_queue_ = q.drop k ∧
        stage_3141_popped.current_queue_size_ = (stage_3141.task_queue_.length : Int) - k :=
  ⟨by decide,
    (pop_task_batch_size nat_comparison stage_3141 [] 2 200
      (by decide) (by decide) (by decide)).2 stage_3141_popped [⟨1, 1⟩, ⟨3, 1⟩] (by decide)⟩

/-! ## Submit, then drain -/

/-- With `operator<` available, `compare_t` is `operator<` (whether or not `operator>`
exists). -/
theorem compare_t_less_than {c : Comparison T} {lt : T → T → Bool}
    (hlt : c.less_than = some lt) : SFINAE.compare_t c = lt := by
  funext t1 t2
  cases hgt : c.greater_than <;> simp [SFINAE.compare_t, hlt, hgt]

/-- What a run of accepted submits has done to a stage whose tracked size is exact, when
the final number of queued tasks is an `int`. -/
theorem submit_all_spec (lists : List (TASK_LIST T)) :
    ∀ (p p1 : Processor T), submit_all p lists = some p1 →
      p.current_queue_size_ = p.task_queue_.length →
      ((p.task_queue_.length : Int) + lists.flatten.length ≤ INT_MAX) →
      p1.task_queue_ = p.task_queue_ ++ lists.flatten ∧
      p1.current_queue_size_ = p1.task_queue_.length ∧
      p1.task_semphore_.count = p.task_semphore_.count + lists.flatten.length ∧
      (p1.queue_ordered_flag_ = 0 ∨ p1 = p) := by
  induction lists with
  | nil =>
    intro p p1 hsub hsize _
    simp only [submit_all, Option.some.injEq] at hsub
    subst hsub
    simp [hsize]
  | cons tasks rest ih =>
    intro p p1 hsub hsize htotal
    simp only [submit_all] at hsub
    simp only [List.flatten_cons, List.length_append] at htotal ⊢
    push_cast at htotal
    rcases push_task_cases p tasks with ⟨hnil, heq⟩ | ⟨_, _, heq⟩ | ⟨_, _, heq⟩
    · rw [heq] at hsub
      simp only [if_true] at hsub
      subst hnil
      have := ih p p1 hsub hsize (by simp only [List.length_nil] at htotal; omega)
      simpa using this
    · rw [heq] at hsub
      simp [ZFZ_PROCESSOR_QUEUE_FULL, ZFZ_PROCESSOR_SUCCESS] at hsub
    · rw [heq] at hsub
      simp only [if_true] at hsub
      have hint : to_int (size_t_add (to_size_t p.current_queue_size_) tasks.length)
          = p.current_queue_size_ + tasks.length := by
        apply to_int_size_t_add
        · unfold is_int INT_MIN INT_MAX; unfold INT_MAX at htotal; omega
        · unfold is_int INT_MIN INT_MAX; unfold INT_MAX at htotal; omega
      rw [hint] at hsub
      obtain ⟨h1, h2, h3, h4⟩ := ih _ p1 hsub
        (by simp only [List.length_append]; push_cast; omega)
        (by simp only [List.length_append]; push_cast; omega)
      refine ⟨?_, h2, ?_, ?_⟩
      · rw [h1]; simp
      · rw [h3]; simp only; omega
      · rcases h4 with h4 | h4
        · exact Or.inl h4
        · left; rw [h4]

/-- A stage with an empty queue is drained without a call. -/
theorem drain_nil (c : Comparison T) (b w : Int) (fuel : Nat) (p : Processor T)
    (hq : p.task_queue_ = []) : drain c b w fuel p = .ok ([], p) := by
  cases fuel with
  | zero => rfl
  | succ n => simp [drain, hq]

/-- Draining a stage whose tracked size is exact and covered by permits: with one call of
fuel per queued task, the calls all succeed, every batch has between 1 and `b` tasks, the
queue ends empty, and the batches together are the ordered queue. -/
theorem drain_spec (c : Comparison T) (hswo : StrictWeakOrder (SFINAE.compare_t c))
    (b w : Int) (hb : 1 ≤ b) :
    ∀ (fuel : Nat) (p : Processor T),
      p.current_queue_size_ = p.task_queue_.length →
      p.current_queue_size_ ≤ p.task_semphore_.count →
      FlagOrdered c p → p.task_queue_.length ≤ fuel →
      ∃ bs p2, drain c b w fuel p = .ok (bs, p2) ∧ p2.task_queue_ = [] ∧
        (∀ batch ∈ bs, batch ≠ [] ∧ (batch.length : Int) ≤ b) ∧
        bs.flatten = (if p.queue_ordered_flag_ = 0 then
            list_sort (compare_shared_ptr_t c) p.task_queue_ else p.task_queue_) := by
  intro fuel
  induction fuel with
  | zero =>
    intro p _ _ _ hfuel
    have hq : p.task_queue_ = [] := List.length_eq_zero.mp (by omega)
    refine ⟨[], p, rfl, hq, by simp, ?_⟩
    rw [hq]
    simp [list_sort]
  | succ n ih =>
    intro p hsize hcount hord hfuel
    by_cases hq : p.task_queue_ = []
    · refine ⟨[], p, drain_nil c b w _ p hq, hq, by simp, ?_⟩
      rw [hq]
      simp [list_sort]
    · have hlen : 1 ≤ p.task_queue_.length := by
        cases hp : p.task_queue_ with
        | nil => exact absurd hp hq
        | cons _ _ => simp
      have hst := ordered_queue_isStableSort hswo p hord
      cases hpop : pop_task c p [] b w with
      | error f =>
        exfalso
        rcases pop_task_cases c p [] b w with ⟨hc, _, _⟩ | ⟨hc, _, _⟩ | ⟨_, heq⟩
        · omega
        · omega
        · obtain ⟨q, f1, hq1, _, hcases⟩ := pop_task_locked_cases c
            { p with task_semphore_ := { count := p.task_semphore_.count - 1 } } [] b
          simp only at hq1
          have hql : q.length = p.task_queue_.length := by rw [hq1]; exact hst.1.length_eq
          rw [heq] at hpop
          rcases hcases with ⟨hs, _⟩ | ⟨_, _, hb1, hl, _⟩ | ⟨_, _, _, _, heq2⟩ | ⟨_, _, heq2⟩
          · simp only at hs; omega
          · simp only at hb1; omega
          · rw [heq2] at hpop; exact absurd hpop (by simp)
          · rw [heq2] at hpop; exact absurd hpop (by simp)
      | ok res =>
        obtain ⟨r, p1, out⟩ := res
        have hr : r = ZFZ_PROCESSOR_SUCCESS := by
          rcases pop_task_cases c p [] b w with ⟨hc, _, _⟩ | ⟨hc, _, _⟩ | ⟨_, heq⟩
          · omega
          · omega
          · obtain ⟨q, f1, _, _, hcases⟩ := pop_task_locked_cases c
              { p with task_semphore_ := { count := p.task_semphore_.count - 1 } } [] b
            rw [heq] at hpop
            rcases hcases with ⟨hs, _⟩ | ⟨_, _, _, _, heq2⟩ | ⟨_, _, _, _, heq2⟩ | ⟨_, _, heq2⟩
            · simp only at hs; omega
            · rw [heq2] at hpop; exact absurd hpop (by simp)
            · rw [heq2] at hpop
              simp only [Except.ok.injEq, Prod.mk.injEq] at hpop
              exact hpop.1.symm
            · rw [heq2] at hpop
              simp only [Except.ok.injEq, Prod.mk.injEq] at hpop
              exact hpop.1.symm
        subst hr
        obtain ⟨q, f, hq1, hf, _, _, hcases⟩ := pop_task_success_cases hpop
        have hql : q.length = p.task_queue_.length := by rw [hq1]; exact hst.1.length_eq
        have hf0 : f ≠ 0 := by
          rw [hf]; split <;> simp_all
        rw [← hq1] at hst ⊢
        have hdrain : ∀ bs p2, drain c b w n p1 = .ok (bs, p2) →
            drain c b w (n + 1) p = .ok (out :: bs, p2) := by
          intro bs p2 hd
          have hne : p.task_queue_.isEmpty = false := by
            cases hp : p.task_queue_ with
            | nil => exact absurd hp hq
            | cons _ _ => rfl
          simp [drain, hne, hpop, hd]
        rcases hcases with ⟨_, hb1, hbl, hp1, hout⟩ | ⟨hnb, hp1, hout⟩
        · have hq2 : p1.task_queue_ = q.drop b.toNat := by rw [hp1]
          have hflag : p1.queue_ordered_flag_ = f := by rw [hp1]
          obtain ⟨bs, p2, hd, hq3, hbs, hfl⟩ := ih p1
            (by rw [hp1]; simp only [List.length_drop]; omega)
            (by rw [hp1]; simp only; split <;> omega)
            (by
              intro _
              rw [hq2]
              exact hst.2.1.sublist (List.drop_sublist _ _))
            (by rw [hq2, List.length_drop]; omega)
          refine ⟨out :: bs, p2, hdrain bs p2 hd, hq3, ?_, ?_⟩
          · intro batch hm
            rcases List.mem_cons.mp hm with e | hm1
            · subst e
              rw [hout]
              simp only [List.nil_append]
              constructor
              · intro h0
                have := congrArg List.length h0
                rw [List.length_take] at this
                simp only [List.length_nil] at this
                omega
              · rw [List.length_take]
                omega
            · exact hbs batch hm1
          · rw [List.flatten_cons, hfl, hflag, if_neg hf0, hq2, hout]
            simp
        · have hq2 : p1.task_queue_ = [] := by rw [hp1]
          refine ⟨[out], p1, hdrain [] p1 (drain_nil c b w n p1 hq2), hq2, ?_, ?_⟩
          · intro batch hm
            simp only [List.mem_singleton] at hm
            subst hm
            rw [hout]
            simp only [List.nil_append]
            constructor
            · intro h0
              rw [h0] at hql
              simp only [List.length_nil] at hql
              omega
            · omega
          · rw [hout]
            simp

/-- With a non-negative capacity the accepted submits never exceed it, so the number of queued
tasks is an `int`. -/
theorem submit_all_within_capacity (lists : List (TASK_LIST T)) :
    ∀ (p p1 : Processor T), submit_all p lists = some p1 →
      p.current_queue_size_ = p.task_queue_.length →
      0 ≤ p.max_queue_size_ → p.max_queue_size_ ≤ INT_MAX →
      (∀ tasks ∈ lists, tasks.length ≤ LIST_MAX_SIZE) →
      (p.task_queue_.length : Int) ≤ p.max_queue_size_ →
      (p.task_queue_.length : Int) + lists.flatten.length ≤ p.max_queue_size_ := by
  induction lists with
  | nil =>
    intro p p1 _ _ _ _ _ hle
    simpa using hle
  | cons tasks rest ih =>
    intro p p1 hsub hsize hm0 hm hlist hle
    simp only [submit_all] at hsub
    simp only [List.flatten_cons, List.length_append]
    push_cast
    rcases push_task_cases p tasks with ⟨hnil, heq⟩ | ⟨_, _, heq⟩ | ⟨_, hfull, heq⟩
    · rw [heq] at hsub
      simp only [if_true] at hsub
      subst hnil
      have := ih p p1 hsub hsize hm0 hm
        (fun t ht => hlist t (List.mem_cons_of_mem _ ht)) hle
      simpa using this
    · rw [heq] at hsub
      simp [ZFZ_PROCESSOR_QUEUE_FULL, ZFZ_PROCESSOR_SUCCESS] at hsub
    · rw [heq] at hsub
      simp only [if_true] at hsub
      have hs0 : 0 ≤ p.current_queue_size_ := by omega
      have hfit : ¬ (p.current_queue_size_ + tasks.length > p.max_queue_size_) := fun hgt =>
        hfull ((push_task_full_test hs0 (by omega) hm0 hm
          (hlist tasks (List.mem_cons_self _ _))).mpr hgt)
      have hint : to_int (size_t_add (to_size_t p.current_queue_size_) tasks.length)
          = p.current_queue_size_ + tasks.length := by
        apply to_int_size_t_add
        · unfold is_int INT_MIN INT_MAX; unfold INT_MAX at hm; omega
        · unfold is_int INT_MIN INT_MAX; unfold INT_MAX at hm; omega
      rw [hint] at hsub
      have := ih _ p1 hsub
        (by simp only [List.length_append]; push_cast; omega) hm0 hm
        (fun t ht => hlist t (List.mem_cons_of_mem _ ht))
        (by simp only [List.length_append]; push_cast; omega)
      simp only [List.length_append] at this
      push_cast at this
      omega

/-- C5. Submit-then-drain delivers the stable sort: for a payload type with an `operator<`
that is a strict weak ordering, a batch size `b >= 1`, and lists that are all accepted by
`push_task` on an empty stage before any dequeue (their total number of tasks being an
`int`, as it is whenever the capacity is non-negative): draining the stage by successive
`pop_task` calls returns, as soon as the fuel allows one call per task, batches of between 1
and `b` tasks whose concatenation is the stable ascending sort of the concatenation of the
submitted lists, and leaves the queue empty. -/
theorem submit_then_drain_sorted (c : Comparison T) (lt : T → T → Bool)
    (hlt : c.less_than = some lt) (hswo : StrictWeakOrder lt)
    (p0 : Processor T) (hq : p0.task_queue_ = []) (hs : p0.current_queue_size_ = 0)
    (hc : 0 ≤ p0.task_semphore_.count)
    (lists : List (TASK_LIST T)) (p1 : Processor T) (hsub : p0.submit_all lists = some p1)
    (htotal : (lists.flatten.length : Int) ≤ INT_MAX)
    (b w : Int) (hb : 1 ≤ b) (fuel : Nat) (hfuel : lists.flatten.length ≤ fuel) :
    ∃ bs p2, drain c b w fuel p1 = .ok (bs, p2) ∧ p2.task_queue_ = [] ∧
      (∀ batch ∈ bs, batch ≠ [] ∧ (batch.length : Int) ≤ b) ∧
      IsStableSort (fun t1 t2 : shared_ptr T => lt t1.obj t2.obj) lists.flatten bs.flatten ∧
      bs.flatten = list_sort (fun t1 t2 : shared_ptr T => lt t1.obj t2.obj) lists.flatten := by
  have hcmp : compare_shared_ptr_t c = (fun t1 t2 : shared_ptr T => lt t1.obj t2.obj) := by
    funext t1 t2
    simp only [compare_shared_ptr_t, compare_t_less_than hlt]
  have hswo1 : StrictWeakOrder (SFINAE.compare_t c) := by
    rw [compare_t_less_than hlt]; exact hswo
  obtain ⟨h1, h2, h3, h4⟩ := submit_all_spec lists p0 p1 hsub (by simp [hq, hs])
    (by simpa [hq] using htotal)
  rw [hq, List.nil_append] at h1
  have hord : FlagOrdered c p1 := by
    intro hflag
    rcases h4 with h4 | h4
    · exact absurd h4 hflag
    · rw [h4, hq]; exact List.Pairwise.nil
  obtain ⟨bs, p2, hd, hq2, hbs, hfl⟩ := drain_spec c hswo1 b w hb fuel p1 h2
    (by rw [h2, h3, h1]; omega) hord (by rw [h1]; exact hfuel)
  have hsorted : bs.flatten = list_sort (compare_shared_ptr_t c) lists.flatten := by
    rw [hfl, h1]
    split
    · rfl
    · rename_i hflag
      rcases h4 with h4 | h4
      · exact absurd h4 hflag
      · rw [h4, hq] at h1
        rw [← h1]; rfl
  refine ⟨bs, p2, hd, hq2, hbs, ?_, ?_⟩
  · rw [hsorted, ← hcmp]
    exact list_sort_isStableSort (compare_shared_ptr_t_swo hswo1) _
  · rw [hsorted, hcmp]

/-- Witness for C5: capacity 4, batch size 2, payloads 3, 1, 4, 1 submitted in one call: the
batches are 1, 1 (the task at address 1 before the task at address 3) and 3, 4. -/
theorem submit_then_drain_sorted_witness :
    stage_cap_4.submit_all [tasks_3141] = some stage_3141 ∧
    drain nat_comparison 2 200 4 stage_3141 =
      .ok ([[⟨1, 1⟩, ⟨3, 1⟩], [⟨0, 3⟩, ⟨2, 4⟩]],
        { task_queue_ := [], current_queue_size_ := 0, max_queue_size_ := 4,
          queue_ordered_flag_ := 1, task_semphore_ := { count := 4 } }) ∧
    ∃ bs p2, drain nat_comparison 2 200 4 stage_3141 = .ok (bs, p2) ∧ p2.task_queue_ = [] ∧
      (∀ batch ∈ bs, batch ≠ [] ∧ (batch.length : Int) ≤ 2) ∧
      IsStableSort (fun t1 t2 : shared_ptr Nat => decide (t1.obj < t2.obj))
        [tasks_3141].flatten bs.flatten ∧
      bs.flatten = list_sort (fun t1 t2 : shared_ptr Nat => decide (t1.obj < t2.obj))
        [tasks_3141].flatten :=
  ⟨by decide, by decide,
    submit_then_drain_sorted nat_comparison (fun a b => decide (a < b)) rfl nat_lt_swo
      stage_cap_4 rfl rfl (by decide) [tasks_3141] stage_3141 (by decide) (by decide)
      2 200 (by decide) 4 (by decide)⟩

end Processor

/-! ## Sequences of calls -/

namespace History

variable {T : Type}

/-- The outcomes of a `push_task` call in a sequence of calls. -/
theorem step_push_cases (c : Comparison T) (h : History T) (tasks : TASK_LIST T) :
    (tasks = [] ∧ step c h (Call.push_task tasks) =
      .ok { h with accepted := h.accepted ++ [tasks] }) ∨
    (tasks ≠ [] ∧
      step c h (Call.push_task tasks) =
        .ok { h with stage := { h.stage with
          queue_full_flag_ :=
            if h.stage.queue_full_flag_ = 0 then 1 else h.stage.queue_full_flag_ } }) ∨
    (tasks ≠ [] ∧
      step c h (Call.push_task tasks) =
        .ok { h with
          stage := { h.stage with
            task_queue_ := h.stage.task_queue_ ++ tasks
            current_queue_size_ :=
              to_int (size_t_add (to_size_t h.stage.current_queue_size_) tasks.length)
            task_semphore_ := { count := h.stage.task_semphore_.count + tasks.length }
            queue_ordered_flag_ := 0 }
          accepted := h.accepted ++ [tasks] }) := by
  rcases Processor.push_task_cases h.stage tasks with ⟨hnil, heq⟩ | ⟨hne, _, heq⟩ | ⟨hne, _, heq⟩
  · left
    refine ⟨hnil, ?_⟩
    simp only [step, heq, if_true]
  · right; left
    refine ⟨hne, ?_⟩
    simp only [step, heq]
    rw [if_neg (fun e => Processor.success_ne_queue_full e.symm)]
  · right; right
    refine ⟨hne, ?_⟩
    simp only [step, heq, if_true]

/-- The outcomes of a `pop_task` call in a sequence of calls; `q` is the queue once it has
been put in order. -/
theorem step_pop_cases (c : Comparison T) (h : History T) (b w : Int) :
    ∃ q f,
      q = (if h.stage.queue_ordered_flag_ = 0 then
            list_sort (Processor.compare_shared_ptr_t c) h.stage.task_queue_
          else h.stage.task_queue_) ∧
      f = (if h.stage.queue_ordered_flag_ = 0 then 1 else h.stage.queue_ordered_flag_) ∧
      ((h.stage.task_semphore_.count ≤ 0 ∧ w < 0 ∧
          step c h (Call.pop_task b w) = .error Fault.blocks) ∨
        (h.stage.task_semphore_.count ≤ 0 ∧ 0 ≤ w ∧ step c h (Call.pop_task b w) = .ok h) ∨
        (0 < h.stage.task_semphore_.count ∧ h.stage.current_queue_size_ ≤ 0 ∧
          step c h (Call.pop_task b w) =
            .ok { h with stage := { h.stage with
              task_semphore_ := { count := h.stage.task_semphore_.count - 1 }
              queue_full_flag_ := 0 } }) ∨
        (0 < h.stage.task_semphore_.count ∧ 0 < h.stage.current_queue_size_ ∧ 0 < b ∧
          b ≤ h.stage.current_queue_size_ ∧ q.length < b.toNat ∧
          step c h (Call.pop_task b w) = .error Fault.undefined) ∨
        (0 < h.stage.task_semphore_.count ∧ 0 < h.stage.current_queue_size_ ∧ 0 < b ∧
          b ≤ h.stage.current_queue_size_ ∧ b.toNat ≤ q.length ∧
          step c h (Call.pop_task b w) =
            .ok { h with
              stage := { h.stage with
                queue_full_flag_ := 0
                task_queue_ := q.drop b.toNat
                queue_ordered_flag_ := f
                current_queue_size_ := h.stage.current_queue_size_ - b
                task_semphore_ :=
                  { count := if b > 1 then h.stage.task_semphore_.count - 1 + (b - 1)
                             else h.stage.task_semphore_.count - 1 } }
              batches := h.batches ++ [q.take b.toNat] }) ∨
        (0 < h.stage.task_semphore_.count ∧ 0 < h.stage.current_queue_size_ ∧
          ¬ (0 < b ∧ b ≤ h.stage.current_queue_size_) ∧
          step c h (Call.pop_task b w) =
            .ok { h with
              stage := { h.stage with
                queue_full_flag_ := 0
                task_queue_ := []
                queue_ordered_flag_ := f
                current_queue_size_ := 0
                task_semphore_ := { count := h.stage.task_semphore_.count - 1 } }
              batches := h.batches ++ [q] })) := by
  refine ⟨_, _, rfl, rfl, ?_⟩
  rcases Processor.pop_task_cases c h.stage [] b w with
    ⟨hc, hw, heq⟩ | ⟨hc, hw, heq⟩ | ⟨hc, heq⟩
  · left
    exact ⟨hc, hw, by simp only [step, heq]⟩
  · right; left
    refine ⟨hc, hw, ?_⟩
    simp [step, heq, ZFZ_PROCESSOR_TIME_OUT, ZFZ_PROCESSOR_SUCCESS]
  · right; right
    obtain ⟨q, f, hq, hf, hcases⟩ := Processor.pop_task_locked_cases c
      { h.stage with task_semphore_ := { count := h.stage.task_semphore_.count - 1 } } [] b
    simp only at hq hf
    subst hq hf
    rcases hcases with ⟨hs, heq2⟩ | ⟨hs, hb0, hb1, hlen, heq2⟩ | ⟨hs, hb0, hb1, hlen, heq2⟩ |
      ⟨hs, hb, heq2⟩
    · left
      refine ⟨hc, hs, ?_⟩
      simp [step, heq, heq2, ZFZ_PROCESSOR_QUEUE_EMPTY, ZFZ_PROCESSOR_SUCCESS]
    · right; left
      exact ⟨hc, hs, hb0, hb1, hlen, by simp only [step, heq, heq2]⟩
    · right; right; left
      refine ⟨hc, hs, hb0, hb1, hlen, ?_⟩
      simp only [step, heq, heq2, if_true, List.nil_append]
    · right; right; right
      refine ⟨hc, hs, hb, ?_⟩
      simp only [step, heq, heq2, if_true, List.nil_append]

/-- A property kept by every returning call holds after every sequence of calls. -/
theorem run_invariant (c : Comparison T) (P : History T → Prop)
    (hstep : ∀ h call h1, P h → step c h call = .ok h1 → P h1) :
    ∀ calls h h1, P h → run c h calls = .ok h1 → P h1 := by
  intro calls
  induction calls with
  | nil =>
    intro h h1 hP hrun
    simp only [run, Except.ok.injEq] at hrun
    exact hrun ▸ hP
  | cons call calls ih =>
    intro h h1 hP hrun
    simp only [run] at hrun
    cases hs : step c h call with
    | error f => rw [hs] at hrun; exact absurd hrun (by simp)
    | ok h2 =>
      rw [hs] at hrun
      exact ih h2 h1 (hstep h call h2 hP hs) hrun

/-- If no call is undefined in a state with the invariant, no sequence of calls is. -/
theorem run_defined (c : Comparison T) (P : History T → Prop)
    (hstep : ∀ h call h1, P h → step c h call = .ok h1 → P h1)
    (hsafe : ∀ h call, P h → step c h call ≠ .error Fault.undefined) :
    ∀ calls h, P h → run c h calls ≠ .error Fault.undefined := by
  intro calls
  induction calls with
  | nil =>
    intro h _ hrun
    simp [run] at hrun
  | cons call calls ih =>
    intro h hP hrun
    simp only [run] at hrun
    cases hs : step c h call with
    | error f =>
      rw [hs] at hrun
      simp only [Except.error.injEq] at hrun
      exact hsafe h call hP (hrun ▸ hs)
    | ok h2 =>
      rw [hs] at hrun
      exact ih h2 (hstep h call h2 hP hs) hrun

/-- A sequence of calls none of which can wait forever returns. -/
theorem run_returns (c : Comparison T) (P : History T → Prop)
    (hstep : ∀ h call h1, P h → step c h call = .ok h1 → P h1)
    (hret : ∀ h call, P h → timed call → ∃ h1, step c h call = .ok h1) :
    ∀ calls h, P h → (∀ call ∈ calls, timed call) → ∃ h1, run c h calls = .ok h1 := by
  intro calls
  induction calls with
  | nil =>
    intro h _ _
    exact ⟨h, rfl⟩
  | cons call calls ih =>
    intro h hP ht
    obtain ⟨h2, hs⟩ := hret h call hP (ht call (List.mem_cons_self _ _))
    obtain ⟨h3, hr⟩ := ih h2 (hstep h call h2 hP hs)
      (fun call1 hm => ht call1 (List.mem_cons_of_mem _ hm))
    exact ⟨h3, by simp only [run, hs, hr]⟩

theorem ordered_queue_perm (c : Comparison T) (p : Processor T) :
    (if p.queue_ordered_flag_ = 0 then
        list_sort (Processor.compare_shared_ptr_t c) p.task_queue_
      else p.task_queue_).Perm p.task_queue_ := by
  split
  · exact list_sort_perm _ _
  · exact List.Perm.refl _

/-- Every returning call keeps the tracked size within the queue. -/
theorem step_sizeBounded (c : Comparison T) (h : History T) (call : Call T) (h1 : History T)
    (hP : SizeBounded h) (hs : step c h call = .ok h1) : SizeBounded h1 := by
  unfold SizeBounded at hP ⊢
  cases call with
  | push_task tasks =>
    rcases step_push_cases c h tasks with ⟨_, heq⟩ | ⟨_, heq⟩ | ⟨_, heq⟩ <;>
      rw [heq] at hs <;> simp only [Except.ok.injEq] at hs <;> subst hs
    · exact hP
    · exact hP
    · refine ⟨to_int_ge _, ?_⟩
      have := to_int_size_t_add_le tasks.length hP.1
      simp only [List.length_append]
      push_cast
      omega
  | pop_task b w =>
    obtain ⟨q, f, hq, _, hcases⟩ := step_pop_cases c h b w
    have hlen : q.length = h.stage.task_queue_.length := by
      rw [hq]; exact (ordered_queue_perm c h.stage).length_eq
    rcases hcases with ⟨_, _, heq⟩ | ⟨_, _, heq⟩ | ⟨_, _, heq⟩ | ⟨_, _, _, _, _, heq⟩ |
      ⟨_, _, hb0, hb1, hbl, heq⟩ | ⟨_, _, _, heq⟩ <;> rw [heq] at hs
    · exact absurd hs (by simp)
    · simp only [Except.ok.injEq] at hs; subst hs; exact hP
    · simp only [Except.ok.injEq] at hs; subst hs; exact hP
    · exact absurd hs (by simp)
    · simp only [Except.ok.injEq] at hs; subst hs
      simp only [List.length_drop]
      unfold INT_MIN
      omega
    · simp only [Except.ok.injEq] at hs; subst hs
      simp [INT_MIN]

/-- In a state where the tracked size is within the queue, `std::advance` stays inside the
list. -/
theorem step_defined (c : Comparison T) (h : History T) (call : Call T)
    (hP : SizeBounded h) : step c h call ≠ .error Fault.undefined := by
  unfold SizeBounded at hP
  intro hs
  cases call with
  | push_task tasks =>
    rcases step_push_cases c h tasks with ⟨_, heq⟩ | ⟨_, heq⟩ | ⟨_, heq⟩ <;>
      rw [heq] at hs <;> exact absurd hs (by simp)
  | pop_task b w =>
    obtain ⟨q, f, hq, _, hcases⟩ := step_pop_cases c h b w
    have hlen : q.length = h.stage.task_queue_.length := by
      rw [hq]; exact (ordered_queue_perm c h.stage).length_eq
    rcases hcases with ⟨_, _, heq⟩ | ⟨_, _, heq⟩ | ⟨_, _, heq⟩ | ⟨_, _, hb0, hb1, hbl, heq⟩ |
      ⟨_, _, _, _, _, heq⟩ | ⟨_, _, _, heq⟩
    · rw [heq] at hs; exact absurd hs (by simp)
    · rw [heq] at hs; exact absurd hs (by simp)
    · rw [heq] at hs; exact absurd hs (by simp)
    · omega
    · rw [heq] at hs; exact absurd hs (by simp)
    · rw [heq] at hs; exact absurd hs (by simp)

/-- A call that cannot wait forever returns. -/
theorem step_returns (c : Comparison T) (h : History T) (call : Call T)
    (hP : SizeBounded h) (ht : timed call) : ∃ h1, step c h call = .ok h1 := by
  cases hs : step c h call with
  | ok h1 => exact ⟨h1, rfl⟩
  | error f =>
    exfalso
    cases f with
    | undefined => exact step_defined c h call hP hs
    | blocks =>
      cases call with
      | push_task tasks =>
        rcases step_push_cases c h tasks with ⟨_, heq⟩ | ⟨_, heq⟩ | ⟨_, heq⟩ <;>
          rw [heq] at hs <;> exact absurd hs (by simp)
      | pop_task b w =>
        obtain ⟨q, f, _, _, hcases⟩ := step_pop_cases c h b w
        simp only [timed] at ht
        rcases hcases with ⟨_, hw, _⟩ | ⟨_, _, heq⟩ | ⟨_, _, heq⟩ | ⟨_, _, _, _, _, heq⟩ |
          ⟨_, _, _, _, _, heq⟩ | ⟨_, _, _, heq⟩
        · omega
        all_goals rw [heq] at hs; exact absurd hs (by simp)

/-- Every returning call keeps the accepted tasks equal, as a multiset, to the tasks handed
out and the tasks queued. -/
theorem step_conserved (c : Comparison T) (h : History T) (call : Call T) (h1 : History T)
    (hP : Conserved h) (hs : step c h call = .ok h1) : Conserved h1 := by
  unfold Conserved at hP ⊢
  cases call with
  | push_task tasks =>
    rcases step_push_cases c h tasks with ⟨hnil, heq⟩ | ⟨_, heq⟩ | ⟨_, heq⟩ <;>
      rw [heq] at hs <;> simp only [Except.ok.injEq] at hs <;> subst hs
    · subst hnil
      simpa using hP
    · exact hP
    · simp only [List.flatten_append, List.flatten_cons, List.flatten_nil, List.append_nil]
      rw [← List.append_assoc]
      exact List.Perm.append_right tasks hP
  | pop_task b w =>
    obtain ⟨q, f, hq, _, hcases⟩ := step_pop_cases c h b w
    have hperm : q.Perm h.stage.task_queue_ := by
      rw [hq]; exact ordered_queue_perm c h.stage
    rcases hcases with ⟨_, _, heq⟩ | ⟨_, _, heq⟩ | ⟨_, _, heq⟩ | ⟨_, _, _, _, _, heq⟩ |
      ⟨_, _, hb0, hb1, hbl, heq⟩ | ⟨_, _, _, heq⟩ <;> rw [heq] at hs
    · exact absurd hs (by simp)
    · simp only [Except.ok.injEq] at hs; subst hs; exact hP
    · simp only [Except.ok.injEq] at hs; subst hs; exact hP
    · exact absurd hs (by simp)
    · simp only [Except.ok.injEq] at hs; subst hs
      simp only [List.flatten_append, List.flatten_cons, List.flatten_nil, List.append_nil,
        List.append_assoc, List.take_append_drop]
      exact hP.trans (List.Perm.append_left _ hperm.symm)
    · simp only [Except.ok.injEq] at hs; subst hs
      simp only [List.flatten_append, List.flatten_cons, List.flatten_nil, List.append_nil]
      exact hP.trans (List.Perm.append_left _ hperm.symm)

/-- Every returning call keeps the queue in order while `queue_ordered_flag_` is set. -/
theorem step_flagOrdered (c : Comparison T) (hswo : StrictWeakOrder (SFINAE.compare_t c))
    (h : History T) (call : Call T) (h1 : History T)
    (hP : Processor.FlagOrdered c h.stage) (hs : step c h call = .ok h1) :
    Processor.FlagOrdered c h1.stage := by
  cases call with
  | push_task tasks =>
    rcases step_push_cases c h tasks with ⟨_, heq⟩ | ⟨_, heq⟩ | ⟨_, heq⟩ <;>
      rw [heq] at hs <;> simp only [Except.ok.injEq] at hs <;> subst hs
    · exact hP
    · exact hP
    · intro hflag
      exact absurd rfl hflag
  | pop_task b w =>
    obtain ⟨q, f, hq, _, hcases⟩ := step_pop_cases c h b w
    have hsorted : q.Pairwise (fun a b => Processor.compare_shared_ptr_t c b a = false) := by
      rw [hq]
      exact (Processor.ordered_queue_isStableSort hswo h.stage hP).2.1
    rcases hcases with ⟨_, _, heq⟩ | ⟨_, _, heq⟩ | ⟨_, _, heq⟩ | ⟨_, _, _, _, _, heq⟩ |
      ⟨_, _, hb0, hb1, hbl, heq⟩ | ⟨_, _, _, heq⟩ <;> rw [heq] at hs
    · exact absurd hs (by simp)
    · simp only [Except.ok.injEq] at hs; subst hs; exact hP
    · simp only [Except.ok.injEq] at hs; subst hs; exact hP
    · exact absurd hs (by simp)
    · simp only [Except.ok.injEq] at hs; subst hs
      intro _
      exact hsorted.sublist (List.drop_sublist _ _)
    · simp only [Except.ok.injEq] at hs; subst hs
      intro _
      exact List.Pairwise.nil

/-- C6. Each dequeue hands out the smallest pending tasks: in every state reached from an empty
stage by `push_task` and `pop_task` calls, for a comparison that is a strict weak ordering
(what `std::list::sort` requires), when `pop_task` returns `ZFZ_PROCESSOR_SUCCESS` the tasks
appended to the output list followed by the tasks left in `task_queue_` are the stable sort,
by `compare_shared_ptr_t`, of the queue before the call, and no task left in the queue
compares less than a task of the batch. -/
theorem pop_task_hands_out_smallest (c : Comparison T)
    (hswo : StrictWeakOrder (SFINAE.compare_t c)) (p0 : Processor T)
    (hq : p0.task_queue_ = []) (calls : List (Call T)) (h : History T)
    (hrun : run c { stage := p0 } calls = .ok h)
    (tasks : TASK_LIST T) (b w : Int) (p1 : Processor T) (out : TASK_LIST T)
    (hpop : h.stage.pop_task c tasks b w = .ok (ZFZ_PROCESSOR_SUCCESS, p1, out)) :
    ∃ batch, out = tasks ++ batch ∧
      IsStableSort (Processor.compare_shared_ptr_t c) h.stage.task_queue_
        (batch ++ p1.task_queue_) ∧
      ∀ x ∈ batch, ∀ y ∈ p1.task_queue_, Processor.compare_shared_ptr_t c y x = false := by
  have h0 : Processor.FlagOrdered c ({ stage := p0 } : History T).stage := by
    intro _
    simp [hq]
  have hP : Processor.FlagOrdered c h.stage :=
    run_invariant c (fun h => Processor.FlagOrdered c h.stage)
      (fun h call h1 => step_flagOrdered c hswo h call h1) calls _ h h0 hrun
  have hst := Processor.ordered_queue_isStableSort hswo h.stage hP
  obtain ⟨q, f, hq1, _, _, _, hcases⟩ := Processor.pop_task_success_cases hpop
  rw [← hq1] at hst
  rcases hcases with ⟨_, _, _, hp1, hout⟩ | ⟨_, hp1, hout⟩
  · refine ⟨q.take b.toNat, hout, ?_, ?_⟩
    · rw [hp1]
      simp only [List.take_append_drop]
      exact hst
    · rw [hp1]
      intro x hx y hy
      have hs := hst.2.1
      rw [← List.take_append_drop b.toNat q, List.pairwise_append] at hs
      exact hs.2.2 x hx y hy
  · refine ⟨q, hout, ?_, ?_⟩
    · rw [hp1]
      simp only [List.append_nil]
      exact hst
    · rw [hp1]
      intro x _ y hy
      simp at hy

/-- The comparison on `unsigned` payloads is a strict weak ordering. -/
theorem nat_comparison_swo : StrictWeakOrder (SFINAE.compare_t nat_comparison) := by
  refine ⟨?_, ?_, ?_⟩
  · intro a
    simp [SFINAE.compare_t, nat_comparison]
  · intro a b d
    simp only [SFINAE.compare_t, nat_comparison, decide_eq_true_eq]
    omega
  · intro a b d
    simp only [SFINAE.compare_t, nat_comparison, decide_eq_false_iff_not]
    omega

/-- Witness for C6: after `tasks_3141` is submitted to a fresh stage of capacity 4, a dequeue
with batch size 2 hands out the two tasks with payload 1 and leaves those with 3 and 4. -/
theorem pop_task_hands_out_smallest_witness :
    run nat_comparison { stage := stage_cap_4 } [Call.push_task tasks_3141] =
      .ok { stage := stage_3141, accepted := [tasks_3141] } ∧
    stage_3141.pop_task nat_comparison [] 2 200 =
      .ok (ZFZ_PROCESSOR_SUCCESS, stage_3141_popped, [⟨1, 1⟩, ⟨3, 1⟩]) ∧
    ∃ batch, ([⟨1, 1⟩, ⟨3, 1⟩] : TASK_LIST Nat) = [] ++ batch ∧
      IsStableSort (Processor.compare_shared_ptr_t nat_comparison) stage_3141.task_queue_
        (batch ++ stage_3141_popped.task_queue_) ∧
      ∀ x ∈ batch, ∀ y ∈ stage_3141_popped.task_queue_,
        Processor.compare_shared_ptr_t nat_comparison y x = false :=
  ⟨by decide, by decide,
    pop_task_hands_out_smallest nat_comparison nat_comparison_swo stage_cap_4 rfl
      [Call.push_task tasks_3141] { stage := stage_3141, accepted := [tasks_3141] }
      (by decide) [] 2 200 stage_3141_popped [⟨1, 1⟩, ⟨3, 1⟩] (by decide)⟩

/-- Without `operator<` and `operator>` the comparison is constantly false. -/
theorem compare_t_none {c : Comparison T} (hlt : c.less_than = none)
    (hgt : c.greater_than = none) (t1 t2 : T) : SFINAE.compare_t c t1 t2 = false := by
  simp [SFINAE.compare_t, hlt, hgt]

/-- With a constantly false comparison the sort leaves every list as it is. -/
theorem list_sort_none {c : Comparison T} (hlt : c.less_than = none)
    (hgt : c.greater_than = none) (l : TASK_LIST T) :
    list_sort (Processor.compare_shared_ptr_t c) l = l := by
  apply list_sort_of_sorted
  induction l with
  | nil => exact List.Pairwise.nil
  | cons x xs ih =>
    exact List.pairwise_cons.mpr ⟨fun y _ => compare_t_none hlt hgt y.obj x.obj, ih⟩

/-- When the sort changes nothing, every returning call keeps the queue first-in first-out. -/
theorem step_fifo (c : Comparison T)
    (hsort : ∀ l : TASK_LIST T, list_sort (Processor.compare_shared_ptr_t c) l = l)
    (h : History T) (call : Call T) (h1 : History T)
    (hP : Fifo h) (hs : step c h call = .ok h1) : Fifo h1 := by
  unfold Fifo at hP ⊢
  cases call with
  | push_task tasks =>
    rcases step_push_cases c h tasks with ⟨hnil, heq⟩ | ⟨_, heq⟩ | ⟨_, heq⟩ <;>
      rw [heq] at hs <;> simp only [Except.ok.injEq] at hs <;> subst hs
    · subst hnil
      simpa using hP
    · exact hP
    · simp only [List.flatten_append, List.flatten_cons, List.flatten_nil, List.append_nil]
      rw [hP, List.append_assoc]
  | pop_task b w =>
    obtain ⟨q, f, hq, _, hcases⟩ := step_pop_cases c h b w
    have hqq : q = h.stage.task_queue_ := by
      rw [hq, hsort]
      simp
    rcases hcases with ⟨_, _, heq⟩ | ⟨_, _, heq⟩ | ⟨_, _, heq⟩ | ⟨_, _, _, _, _, heq⟩ |
      ⟨_, _, hb0, hb1, hbl, heq⟩ | ⟨_, _, _, heq⟩ <;> rw [heq] at hs
    · exact absurd hs (by simp)
    · simp only [Except.ok.injEq] at hs; subst hs; exact hP
    · simp only [Except.ok.injEq] at hs; subst hs; exact hP
    · exact absurd hs (by simp)
    · simp only [Except.ok.injEq] at hs; subst hs
      simp only [List.flatten_append, List.flatten_cons, List.flatten_nil, List.append_nil,
        List.append_assoc, List.take_append_drop]
      rw [hP, hqq]
    · simp only [Except.ok.injEq] at hs; subst hs
      simp only [List.flatten_append, List.flatten_cons, List.flatten_nil, List.append_nil]
      rw [hP, hqq]

/-- C7. FIFO fallback: when the payload type has neither `operator<` nor `operator>`,
`compare_t` is false for every pair and the sort of `pop_task` leaves every queue unchanged;
hence, after every sequence of `push_task` and `pop_task` calls on a stage that starts empty,
the concatenation of the returned batches followed by the queue is the concatenation of the
accepted lists in submission order, so the batches form a prefix of it.  No call of the
sequence is undefined. -/
theorem fifo_without_comparison (c : Comparison T) (hlt : c.less_than = none)
    (hgt : c.greater_than = none) :
    (∀ t1 t2 : T, SFINAE.compare_t c t1 t2 = false) ∧
    (∀ l : TASK_LIST T, list_sort (Processor.compare_shared_ptr_t c) l = l) ∧
    ∀ (p0 : Processor T) (calls : List (Call T)),
      p0.task_queue_ = [] → p0.current_queue_size_ = 0 →
      run c { stage := p0 } calls ≠ .error Fault.undefined ∧
      ∀ h, run c { stage := p0 } calls = .ok h →
        h.batches.flatten ++ h.stage.task_queue_ = h.accepted.flatten ∧
        h.batches.flatten <+: h.accepted.flatten := by
  refine ⟨compare_t_none hlt hgt, list_sort_none hlt hgt, ?_⟩
  intro p0 calls hq hs
  have hb0 : SizeBounded ({ stage := p0 } : History T) := by
    unfold SizeBounded
    simp [hq, hs, INT_MIN]
  have hf0 : Fifo ({ stage := p0 } : History T) := by
    unfold Fifo
    simp [hq]
  refine ⟨run_defined c SizeBounded (step_sizeBounded c) (step_defined c) calls _ hb0, ?_⟩
  intro h hrun
  have hf : Fifo h :=
    run_invariant c Fifo (step_fifo c (list_sort_none hlt hgt)) calls _ h hf0 hrun
  unfold Fifo at hf
  exact ⟨hf.symm, ⟨h.stage.task_queue_, hf.symm⟩⟩

/-- Witness for C7: without a comparison the tasks 3, 1, 4, 1 leave in submission order. -/
theorem fifo_without_comparison_witness :
    run no_comparison { stage := stage_cap_4 } calls_fifo = .ok history_fifo ∧
    history_fifo.batches = [[⟨0, 3⟩, ⟨1, 1⟩], [⟨2, 4⟩]] ∧
    history_fifo.batches.flatten ++ history_fifo.stage.task_queue_ =
      history_fifo.accepted.flatten ∧
    history_fifo.batches.flatten <+: history_fifo.accepted.flatten :=
  ⟨by decide, rfl,
    (((fifo_without_comparison no_comparison rfl rfl).2.2 stage_cap_4 calls_fifo rfl rfl).2
      history_fifo (by decide))⟩

/-- C4. No task is lost or duplicated: after every finite sequence of `push_task` and
`pop_task` calls on a stage that starts empty, the multiset of the tasks accepted by the
successful `push_task` calls is the sum of the multiset of the tasks handed out in the batches
of the successful `pop_task` calls and the multiset of the tasks still in `task_queue_`; so
the tasks handed out form a sub-multiset of the accepted ones, and if no task was accepted
twice, no task occurs twice in the batches.  No call of the sequence is undefined, and the
sequence returns whenever no `pop_task` in it waits without a time-out. -/
theorem no_task_lost_or_duplicated (c : Comparison T) (p0 : Processor T)
    (calls : List (Call T))
    (hq : p0.task_queue_ = []) (hs : p0.current_queue_size_ = 0) :
    run c { stage := p0 } calls ≠ .error Fault.undefined ∧
    ((∀ call ∈ calls, timed call) → ∃ h, run c { stage := p0 } calls = .ok h) ∧
    ∀ h, run c { stage := p0 } calls = .ok h →
      ((h.accepted.flatten : Multiset (TASK T)) =
          (h.batches.flatten : Multiset (TASK T)) + (h.stage.task_queue_ : Multiset (TASK T))) ∧
      (h.batches.flatten : Multiset (TASK T)) ≤ (h.accepted.flatten : Multiset (TASK T)) ∧
      (h.accepted.flatten.Nodup → h.batches.flatten.Nodup) := by
  have hb0 : SizeBounded ({ stage := p0 } : History T) := by
    unfold SizeBounded
    simp [hq, hs, INT_MIN]
  have hc0 : Conserved ({ stage := p0 } : History T) := by
    unfold Conserved
    simp [hq]
  refine ⟨run_defined c SizeBounded (step_sizeBounded c) (step_defined c) calls _ hb0,
    run_returns c SizeBounded (step_sizeBounded c) (step_returns c) calls _ hb0, ?_⟩
  intro h hrun
  have hcons : Conserved h := run_invariant c Conserved (step_conserved c) calls _ h hc0 hrun
  unfold Conserved at hcons
  have hm : (h.accepted.flatten : Multiset (TASK T)) =
      (h.batches.flatten : Multiset (TASK T)) + (h.stage.task_queue_ : Multiset (TASK T)) := by
    rw [Multiset.coe_add]
    exact Multiset.coe_eq_coe.mpr hcons
  refine ⟨hm, ?_, ?_⟩
  · rw [hm]
    exact Multiset.le_add_right _ _
  · intro hnd
    exact (List.nodup_append.mp (hcons.nodup_iff.mp hnd)).1

/-- Witness for C4: on a fresh stage of capacity 4, submit four tasks, dequeue a batch of at
most two, submit three more (rejected: 2 + 3 > 4), dequeue again. -/
theorem no_task_lost_or_duplicated_witness :
    run nat_comparison { stage := stage_cap_4 } calls_3141 = .ok history_3141 ∧
    ((history_3141.accepted.flatten : Multiset (TASK Nat)) =
        (history_3141.batches.flatten : Multiset (TASK Nat)) +
          (history_3141.stage.task_queue_ : Multiset (TASK Nat))) ∧
    (history_3141.batches.flatten : Multiset (TASK Nat)) ≤
        (history_3141.accepted.flatten : Multiset (TASK Nat)) ∧
    (history_3141.accepted.flatten.Nodup → history_3141.batches.flatten.Nodup) :=
  ⟨by decide,
    (no_task_lost_or_duplicated nat_comparison stage_cap_4 calls_3141 rfl rfl).2.2
      history_3141 (by decide)⟩

end History

/-! ## `fan_out` -/

namespace Processor

variable {T : Type}

/-- The caller's list is never changed by `push_task`. -/
theorem push_task_tasks (p : Processor T) (tasks : TASK_LIST T) :
    (p.push_task tasks).2.2 = tasks := by
  rcases push_task_cases p tasks with ⟨_, heq⟩ | ⟨_, _, heq⟩ | ⟨_, _, heq⟩ <;> rw [heq]

/-- The only code other than `ZFZ_PROCESSOR_SUCCESS` returned by `push_task` is
`ZFZ_PROCESSOR_QUEUE_FULL`. -/
theorem push_task_not_success (p : Processor T) (tasks : TASK_LIST T)
    (h : (p.push_task tasks).1 ≠ ZFZ_PROCESSOR_SUCCESS) :
    (p.push_task tasks).1 = ZFZ_PROCESSOR_QUEUE_FULL := by
  rcases push_task_cases p tasks with ⟨_, heq⟩ | ⟨_, _, heq⟩ | ⟨_, _, heq⟩
  · rw [heq] at h; exact absurd rfl h
  · rw [heq]
  · rw [heq] at h; exact absurd rfl h

/-- The loop of `fan_out` with the default error hook, over downstream stages that are all
alive and pairwise different. -/
theorem fan_out_loop_default (tasks : TASK_LIST T) (next : List Nat) :
    ∀ heap : Heap T, next.Nodup → (∀ d ∈ next, ∃ pd, heap d = some pd) →
      ∃ o, fan_out_loop handle_fan_out_error next heap tasks = .ok o ∧
        o.result = ZFZ_PROCESSOR_SUCCESS ∧ o.attempted = next ∧ o.tasks = tasks ∧
        (∀ d ∈ next, ∀ pd, heap d = some pd → o.heap d = some (pd.push_task tasks).2.1) ∧
        (∀ a, a ∉ next → o.heap a = heap a) ∧
        o.errors = (next.filter (rejects heap tasks)).map
          (fun d => ⟨ZFZ_PROCESSOR_QUEUE_FULL, d, tasks⟩) := by
  induction next with
  | nil =>
    intro heap _ _
    exact ⟨_, rfl, rfl, rfl, rfl, by simp, fun _ _ => rfl, rfl⟩
  | cons d rest ih =>
    intro heap hnd hvalid
    rw [List.nodup_cons] at hnd
    obtain ⟨pd, hpd⟩ := hvalid d (List.mem_cons_self _ _)
    have hne : ∀ e ∈ rest, e ≠ d := fun e he hed => hnd.1 (hed ▸ he)
    have hheap : ∀ e ∈ rest,
        Function.update heap d (some (pd.push_task tasks).2.1) e = heap e :=
      fun e he => Function.update_noteq (hne e he) _ _
    obtain ⟨o, ho, hres, hatt, htasks, hdown, hother, herr⟩ :=
      ih (Function.update heap d (some (pd.push_task tasks).2.1)) hnd.2
        (fun e he => by
          rw [hheap e he]
          exact hvalid e (List.mem_cons_of_mem _ he))
    have hod : o.heap d = some (pd.push_task tasks).2.1 := by
      rw [hother d hnd.1, Function.update_same]
    have hrej : ∀ e ∈ rest,
        rejects (Function.update heap d (some (pd.push_task tasks).2.1)) tasks e
          = rejects heap tasks e := by
      intro e he
      simp only [rejects, hheap e he]
    have hfilter : rest.filter (rejects (Function.update heap d
        (some (pd.push_task tasks).2.1)) tasks) = rest.filter (rejects heap tasks) :=
      List.filter_congr hrej
    rw [hfilter] at herr
    have hdown1 : ∀ e ∈ d :: rest, ∀ pe, heap e = some pe →
        o.heap e = some (pe.push_task tasks).2.1 := by
      intro e he pe hpe
      rcases List.mem_cons.mp he with hed | her
      · subst hed
        rw [hpd] at hpe
        simp only [Option.some.injEq] at hpe
        rw [← hpe]
        exact hod
      · exact hdown e her pe (by rw [hheap e her]; exact hpe)
    have hother1 : ∀ a, a ∉ d :: rest → o.heap a = heap a := by
      intro a ha
      rw [List.mem_cons, not_or] at ha
      rw [hother a ha.2, Function.update_noteq ha.1]
    by_cases hacc : (pd.push_task tasks).1 = ZFZ_PROCESSOR_SUCCESS
    · refine ⟨{ o with attempted := d :: o.attempted }, ?_, hres, ?_, htasks, hdown1,
        hother1, ?_⟩
      · simp only [fan_out_loop, hpd, push_task_tasks, hacc, ne_eq, not_true_eq_false,
          if_false, ho]
      · simp only [hatt]
      · have : rejects heap tasks d = false := by simp [rejects, hpd, hacc]
        simp only [List.filter_cons, this, herr]
        simp
    · refine ⟨{ o with attempted := d :: o.attempted,
                       errors := ⟨(pd.push_task tasks).1, d, tasks⟩ :: o.errors },
        ?_, hres, ?_, htasks, hdown1, hother1, ?_⟩
      · simp only [fan_out_loop, hpd, push_task_tasks, hacc, ne_eq, not_false_eq_true,
          if_true, handle_fan_out_error, not_true_eq_false, if_false, ho]
      · simp only [hatt]
      · have : rejects heap tasks d = true := by simp [rejects, hpd, hacc]
        simp only [List.filter_cons, this, herr, if_true, List.map_cons,
          push_task_not_success pd tasks hacc]

/-- C10, counterexample. D1 (capacity 1, holding one task, `queue_full_flag_` 0) at address 1
and D2 (capacity 10) at address 2: the fan-out of a batch of one task returns
`ZFZ_PROCESSOR_SUCCESS`, D2 receives the batch, the hook runs once, for D1 - and D1 is not
left unchanged: its `queue_full_flag_` is now 1. -/
theorem fan_out_marks_rejecting_downstream :
    (fan_out handle_fan_out_error heap_fan 3 [⟨5, 9⟩]).map
        (fun o => (o.result, o.attempted, o.errors)) =
      .ok (ZFZ_PROCESSOR_SUCCESS, [1, 2], [⟨ZFZ_PROCESSOR_QUEUE_FULL, 1, [⟨5, 9⟩]⟩]) ∧
    (fan_out handle_fan_out_error heap_fan 3 [⟨5, 9⟩]).map (fun o => o.heap 2) =
      .ok (some { stage_D2 with task_queue_ := [⟨5, 9⟩], current_queue_size_ := 1,
                                task_semphore_ := { count := 1 } }) ∧
    (fan_out handle_fan_out_error heap_fan 3 [⟨5, 9⟩]).map (fun o => o.heap 1) =
      .ok (some { stage_D1 with queue_full_flag_ := 1 }) ∧
    (stage_D1.push_task [⟨5, 9⟩]).1 = ZFZ_PROCESSOR_QUEUE_FULL ∧
    ({ stage_D1 with queue_full_flag_ := 1 } : Processor Nat) ≠ stage_D1 := by
  refine ⟨by decide, by decide, by decide, by decide, by decide⟩

/-- C10, amended. Fan-out with the default error hook never stops at a saturated downstream:
for every batch and every list of downstream stages (alive and pairwise different, as
`add_next_processor` keeps them), `fan_out` calls `push_task` on every downstream exactly
once, in registration order, and returns `ZFZ_PROCESSOR_SUCCESS` with the batch unchanged; a
downstream that accepts has the whole batch appended to its queue in batch order; a
downstream that rejects keeps every member except `queue_full_flag_`, which is set to 1 if
it was 0; stages that are not downstream are untouched; and `handle_fan_out_error` is invoked
exactly once per rejecting downstream, in registration order, with
`ZFZ_PROCESSOR_QUEUE_FULL`, that downstream and the batch. -/
theorem fan_out_default_hook (heap : Heap T) (self : Nat) (p : Processor T)
    (tasks : TASK_LIST T) (hself : heap self = some p) (hnd : p.next_processors_.Nodup)
    (hvalid : ∀ d ∈ p.next_processors_, ∃ pd, heap d = some pd) :
    ∃ o, fan_out handle_fan_out_error heap self tasks = .ok o ∧
      o.result = ZFZ_PROCESSOR_SUCCESS ∧ o.attempted = p.next_processors_ ∧
      o.tasks = tasks ∧
      (∀ d ∈ p.next_processors_, ∀ pd, heap d = some pd →
        ((pd.push_task tasks).1 = ZFZ_PROCESSOR_SUCCESS →
          o.heap d = some (pd.push_task tasks).2.1 ∧
          (pd.push_task tasks).2.1.task_queue_ = pd.task_queue_ ++ tasks) ∧
        ((pd.push_task tasks).1 ≠ ZFZ_PROCESSOR_SUCCESS →
          o.heap d = some { pd with queue_full_flag_ :=
            if pd.queue_full_flag_ = 0 then 1 else pd.queue_full_flag_ })) ∧
      (∀ a, a ∉ p.next_processors_ → o.heap a = heap a) ∧
      o.errors = (p.next_processors_.filter (rejects heap tasks)).map
        (fun d => ⟨ZFZ_PROCESSOR_QUEUE_FULL, d, tasks⟩) := by
  obtain ⟨o, ho, hres, hatt, htasks, hdown, hother, herr⟩ :=
    fan_out_loop_default tasks p.next_processors_ heap hnd hvalid
  refine ⟨o, ?_, hres, hatt, htasks, ?_, hother, herr⟩
  · simp only [fan_out, hself, ho]
  · intro d hd pd hpd
    have hod := hdown d hd pd hpd
    constructor
    · intro hacc
      refine ⟨hod, ?_⟩
      rcases push_task_cases pd tasks with ⟨hnil, heq⟩ | ⟨_, _, heq⟩ | ⟨_, _, heq⟩
      · rw [heq, hnil]; simp
      · rw [heq] at hacc; exact absurd hacc success_ne_queue_full.symm
      · rw [heq]
    · intro hrej
      rw [hod]
      rcases push_task_cases pd tasks with ⟨_, heq⟩ | ⟨_, _, heq⟩ | ⟨_, _, heq⟩
      · rw [heq] at hrej; exact absurd rfl hrej
      · rw [heq]
      · rw [heq] at hrej; exact absurd rfl hrej

/-- Witness for C10, amended: D1 (capacity 1, full) and D2 (capacity 10). -/
theorem fan_out_default_hook_witness :
    ∃ o, fan_out handle_fan_out_error heap_fan 3 [⟨5, 9⟩] = .ok o ∧
      o.result = ZFZ_PROCESSOR_SUCCESS ∧ o.attempted = stage_up.next_processors_ ∧
      o.tasks = [⟨5, 9⟩] ∧
      (∀ d ∈ stage_up.next_processors_, ∀ pd, heap_fan d = some pd →
        ((pd.push_task [⟨5, 9⟩]).1 = ZFZ_PROCESSOR_SUCCESS →
          o.heap d = some (pd.push_task [⟨5, 9⟩]).2.1 ∧
          (pd.push_task [⟨5, 9⟩]).2.1.task_queue_ = pd.task_queue_ ++ [⟨5, 9⟩]) ∧
        ((pd.push_task [⟨5, 9⟩]).1 ≠ ZFZ_PROCESSOR_SUCCESS →
          o.heap d = some { pd with queue_full_flag_ :=
            if pd.queue_full_flag_ = 0 then 1 else pd.queue_full_flag_ })) ∧
      (∀ a, a ∉ stage_up.next_processors_ → o.heap a = heap_fan a) ∧
      o.errors = (stage_up.next_processors_.filter (rejects heap_fan [⟨5, 9⟩])).map
        (fun d => ⟨ZFZ_PROCESSOR_QUEUE_FULL, d, [⟨5, 9⟩]⟩) :=
  fan_out_default_hook heap_fan 3 stage_up [⟨5, 9⟩] (by decide) (by decide)
    (by
      intro d hd
      simp only [stage_up, List.mem_cons, List.mem_singleton, List.not_mem_nil, or_false] at hd
      rcases hd with rfl | rfl
      · exact ⟨stage_D1, by decide⟩
      · exact ⟨stage_D2, by decide⟩)

end Processor

/-! ## The worker loop -/

namespace Processor

variable {T : Type}

/-- C9, counterexample. A worker of `stage_1_of_2` with batch size 1: `pop_task` returns
`ZFZ_PROCESSOR_SUCCESS` with the batch of one task, the quit flag is set when it returns, and
the iteration ends the loop with the task in the local list and the queue empty, having
invoked neither `handle_task` nor `fan_out`. -/
theorem quit_discards_dequeued_batch :
    stage_1_of_2.pop_task nat_comparison [] 1 200 =
      .ok (ZFZ_PROCESSOR_SUCCESS, stage_1_of_2_popped, [⟨0, 7⟩]) ∧
    (thread_iteration nat_comparison id handle_fan_out_error 1 1 200 true
        { heap := heap_one }).map (fun s => (s.heap 1, s.tasks, s.events, s.running)) =
      .ok (some stage_1_of_2_popped, [⟨0, 7⟩], [], false) := by
  constructor <;> decide

/-- C9, amended. When the quit flag is set at the moment `pop_task` returns, the iteration
leaves the loop at once, whatever `pop_task` returned: no `handle_task`, `fan_out` or
`handle_timeout` is invoked (the events are those before the iteration), the list returned
by `pop_task`, with a batch it may hold, stays in the local list, and the loop makes no
further dequeue whatever the later values of the flag. -/
theorem quit_after_dequeue (c : Comparison T) (handle_task : TASK_LIST T → TASK_LIST T)
    (hook : Int → Nat → TASK_LIST T → Int) (self : Nat) (b w : Int) (s : Worker T)
    (p p1 : Processor T) (r : Int) (out : TASK_LIST T)
    (hself : s.heap self = some p)
    (hpop : p.pop_task c s.tasks b w = .ok (r, p1, out)) :
    thread_iteration c handle_task hook self b w true s =
      .ok { heap := Function.update s.heap self (some p1), tasks := out,
            events := s.events, running := false } ∧
    ∀ quits, thread_loop c handle_task hook self b w (true :: quits) s =
      .ok { heap := Function.update s.heap self (some p1), tasks := out,
            events := s.events, running := false } := by
  have hiter : thread_iteration c handle_task hook self b w true s =
      .ok { heap := Function.update s.heap self (some p1), tasks := out,
            events := s.events, running := false } := by
    simp only [thread_iteration, hself, hpop, if_true]
  refine ⟨hiter, fun quits => ?_⟩
  simp [thread_loop, hiter]

/-- Witness for C9, amended: the worker of `stage_1_of_2` that finds the quit flag set. -/
theorem quit_after_dequeue_witness :
    heap_one 1 = some stage_1_of_2 ∧
    stage_1_of_2.pop_task nat_comparison [] 1 200 =
      .ok (ZFZ_PROCESSOR_SUCCESS, stage_1_of_2_popped, [⟨0, 7⟩]) ∧
    thread_iteration nat_comparison id handle_fan_out_error 1 1 200 true { heap := heap_one } =
      .ok { heap := Function.update heap_one 1 (some stage_1_of_2_popped),
            tasks := [⟨0, 7⟩], events := [], running := false } :=
  ⟨by decide, by decide,
    (quit_after_dequeue nat_comparison id handle_fan_out_error 1 1 200 { heap := heap_one }
      stage_1_of_2 stage_1_of_2_popped ZFZ_PROCESSOR_SUCCESS [⟨0, 7⟩] (by decide)
      (by decide)).1⟩

end Processor

/-! ## `fan_out` with an overriding error hook -/

namespace Processor

variable {T : Type}

/-- The loop of `fan_out` with any error hook, over downstream stages that are all alive and
pairwise different: which stages are attempted, what is returned, and which hook calls are
made. -/
theorem fan_out_loop_hook (hook : Int → Nat → TASK_LIST T → Int) (tasks : TASK_LIST T)
    (next : List Nat) :
    ∀ heap : Heap T, next.Nodup → (∀ d ∈ next, ∃ pd, heap d = some pd) →
      ∃ o, fan_out_loop hook next heap tasks = .ok o ∧ o.tasks = tasks ∧
        (∀ a ∈ o.attempted, a ∈ next) ∧
        (∀ a, a ∉ o.attempted → o.heap a = heap a) ∧
        o.errors = (o.attempted.filter (rejects heap tasks)).map
          (fun d => ⟨ZFZ_PROCESSOR_QUEUE_FULL, d, tasks⟩) ∧
        ((∀ d ∈ next, stops hook heap tasks d = false) →
          o.result = ZFZ_PROCESSOR_SUCCESS ∧ o.attempted = next) ∧
        (∀ pre d post, next = pre ++ d :: post →
          (∀ x ∈ pre, stops hook heap tasks x = false) → stops hook heap tasks d = true →
          o.result = hook ZFZ_PROCESSOR_QUEUE_FULL d tasks ∧ o.attempted = pre ++ [d]) := by
  induction next with
  | nil =>
    intro heap _ _
    refine ⟨_, rfl, rfl, by simp, fun _ _ => rfl, rfl, fun _ => ⟨rfl, rfl⟩, ?_⟩
    intro pre d post h
    simp at h
  | cons d rest ih =>
    intro heap hnd hvalid
    rw [List.nodup_cons] at hnd
    obtain ⟨pd, hpd⟩ := hvalid d (List.mem_cons_self _ _)
    have hne : ∀ e ∈ rest, e ≠ d := fun e he hed => hnd.1 (hed ▸ he)
    have hheap : ∀ e ∈ rest,
        Function.update heap d (some (pd.push_task tasks).2.1) e = heap e :=
      fun e he => Function.update_noteq (hne e he) _ _
    have hrej : ∀ e ∈ rest,
        rejects (Function.update heap d (some (pd.push_task tasks).2.1)) tasks e
          = rejects heap tasks e := by
      intro e he
      simp only [rejects, hheap e he]
    have hstops : ∀ e ∈ rest,
        stops hook (Function.update heap d (some (pd.push_task tasks).2.1)) tasks e
          = stops hook heap tasks e := by
      intro e he
      simp only [stops, hrej e he]
    obtain ⟨o, ho, htasks, hsub, hother, herr, hall, hfirst⟩ :=
      ih (Function.update heap d (some (pd.push_task tasks).2.1)) hnd.2
        (fun e he => by
          rw [hheap e he]
          exact hvalid e (List.mem_cons_of_mem _ he))
    have hfilter : o.attempted.filter (rejects (Function.update heap d
        (some (pd.push_task tasks).2.1)) tasks) = o.attempted.filter (rejects heap tasks) :=
      List.filter_congr (fun e he => hrej e (hsub e he))
    rw [hfilter] at herr
    have hdo : d ∉ o.attempted := fun hd => hnd.1 (hsub d hd)
    have hsub1 : ∀ a ∈ d :: o.attempted, a ∈ d :: rest := by
      intro a ha
      rcases List.mem_cons.mp ha with e | hm
      · exact e ▸ List.mem_cons_self _ _
      · exact List.mem_cons_of_mem _ (hsub a hm)
    have hother1 : ∀ a, a ∉ d :: o.attempted → o.heap a = heap a := by
      intro a ha
      rw [List.mem_cons, not_or] at ha
      rw [hother a ha.2, Function.update_noteq ha.1]
    have hall1 : (∀ x ∈ d :: rest, stops hook heap tasks x = false) →
        o.result = ZFZ_PROCESSOR_SUCCESS ∧ d :: o.attempted = d :: rest := by
      intro hx
      have := hall (fun x hxr => by
        rw [hstops x hxr]; exact hx x (List.mem_cons_of_mem _ hxr))
      exact ⟨this.1, by rw [this.2]⟩
    have hfirst1 : stops hook heap tasks d = false →
        ∀ pre x post, d :: rest = pre ++ x :: post →
          (∀ y ∈ pre, stops hook heap tasks y = false) → stops hook heap tasks x = true →
          o.result = hook ZFZ_PROCESSOR_QUEUE_FULL x tasks ∧
            d :: o.attempted = pre ++ [x] := by
      intro hd pre x post hsplit hpre hx
      cases pre with
      | nil =>
        simp only [List.nil_append, List.cons.injEq] at hsplit
        rw [← hsplit.1, hd] at hx
        exact absurd hx (by decide)
      | cons y pre1 =>
        simp only [List.cons_append, List.cons.injEq] at hsplit
        have hmem : ∀ z ∈ pre1, z ∈ rest := by
          intro z hz
          rw [hsplit.2]
          exact List.mem_append_left _ hz
        have hxr : x ∈ rest := by
          rw [hsplit.2]
          exact List.mem_append_right _ (List.mem_cons_self _ _)
        have := hfirst pre1 x post hsplit.2
          (fun z hz => by
            rw [hstops z (hmem z hz)]
            exact hpre z (List.mem_cons_of_mem _ hz))
          (by rw [hstops x hxr]; exact hx)
        exact ⟨this.1, by rw [this.2, ← hsplit.1]; rfl⟩
    by_cases hacc : (pd.push_task tasks).1 = ZFZ_PROCESSOR_SUCCESS
    · have hrd : rejects heap tasks d = false := by simp [rejects, hpd, hacc]
      have hsd : stops hook heap tasks d = false := by simp [stops, hrd]
      refine ⟨{ o with attempted := d :: o.attempted }, ?_, htasks, hsub1, hother1, ?_,
        hall1, hfirst1 hsd⟩
      · simp only [fan_out_loop, hpd, push_task_tasks, hacc, ne_eq, not_true_eq_false,
          if_false, ho]
      · simp only [List.filter_cons, hrd, herr]
        simp
    · have hrd : rejects heap tasks d = true := by simp [rejects, hpd, hacc]
      have hqf := push_task_not_success pd tasks hacc
      have hqs : ¬ ZFZ_PROCESSOR_QUEUE_FULL = ZFZ_PROCESSOR_SUCCESS :=
        fun h => success_ne_queue_full h.symm
      by_cases hhook : hook ZFZ_PROCESSOR_QUEUE_FULL d tasks = ZFZ_PROCESSOR_SUCCESS
      · have hsd : stops hook heap tasks d = false := by simp [stops, hrd, hhook]
        refine ⟨{ o with attempted := d :: o.attempted,
                         errors := ⟨(pd.push_task tasks).1, d, tasks⟩ :: o.errors },
          ?_, htasks, hsub1, hother1, ?_, hall1, hfirst1 hsd⟩
        · simp only [fan_out_loop, hpd, push_task_tasks, ne_eq, hqf, hqs, not_false_eq_true,
            if_true, hhook, not_true_eq_false, if_false, ho]
        · simp only [List.filter_cons, hrd, herr, if_true, List.map_cons, hqf]
      · have hsd : stops hook heap tasks d = true := by simp [stops, hrd, hhook]
        refine ⟨{ result := hook ZFZ_PROCESSOR_QUEUE_FULL d tasks,
                  heap := Function.update heap d (some (pd.push_task tasks).2.1),
                  tasks := tasks, attempted := [d],
                  errors := [⟨ZFZ_PROCESSOR_QUEUE_FULL, d, tasks⟩] }, ?_, rfl, ?_, ?_, ?_, ?_, ?_⟩
        · simp only [fan_out_loop, hpd, push_task_tasks, ne_eq, hqf, hqs, not_false_eq_true,
            if_true, hhook]
        · intro a ha
          rw [List.mem_singleton] at ha
          exact ha ▸ List.mem_cons_self _ _
        · intro a ha
          rw [List.mem_singleton] at ha
          exact Function.update_noteq ha _ _
        · simp [List.filter_cons, hrd]
        · intro hx
          have := hx d (List.mem_cons_self _ _)
          rw [hsd] at this
          exact absurd this (by decide)
        · intro pre x post hsplit hpre hx
          cases pre with
          | nil =>
            simp only [List.nil_append, List.cons.injEq] at hsplit
            rw [← hsplit.1]
            exact ⟨rfl, rfl⟩
          | cons y pre1 =>
            simp only [List.cons_append, List.cons.injEq] at hsplit
            have := hpre y (List.mem_cons_self _ _)
            rw [← hsplit.1, hsd] at this
            exact absurd this (by decide)

theorem stops_eq_false_iff (hook : Int → Nat → TASK_LIST T → Int) (heap : Heap T)
    (tasks : TASK_LIST T) (d : Nat) :
    stops hook heap tasks d = false ↔
      (rejects heap tasks d = true →
        hook ZFZ_PROCESSOR_QUEUE_FULL d tasks = ZFZ_PROCESSOR_SUCCESS) := by
  simp only [stops]
  cases rejects heap tasks d <;> simp

/-- C11. Fan-out propagates the verdict of the error hook: for every batch, every list of
downstream stages (alive and pairwise different) and every overriding
`handle_fan_out_error`, taken by its return value: if every rejecting downstream has the
hook return `ZFZ_PROCESSOR_SUCCESS` (in particular if none rejects), `fan_out` attempts all
of them and returns `ZFZ_PROCESSOR_SUCCESS`; otherwise, at the first downstream `d` that
rejects and for which the hook returns another code, `fan_out` returns that code, `d` is the
last stage attempted, and no stage registered after `d` is attempted or changed.  The hook
is invoked once per rejecting stage attempted, with `ZFZ_PROCESSOR_QUEUE_FULL`, the stage and
the batch. -/
theorem fan_out_propagates_hook (hook : Int → Nat → TASK_LIST T → Int) (heap : Heap T)
    (self : Nat) (p : Processor T) (tasks : TASK_LIST T) (hself : heap self = some p)
    (hnd : p.next_processors_.Nodup)
    (hvalid : ∀ d ∈ p.next_processors_, ∃ pd, heap d = some pd) :
    ∃ o, fan_out hook heap self tasks = .ok o ∧
      ((∀ d ∈ p.next_processors_, rejects heap tasks d = true →
          hook ZFZ_PROCESSOR_QUEUE_FULL d tasks = ZFZ_PROCESSOR_SUCCESS) →
        o.result = ZFZ_PROCESSOR_SUCCESS ∧ o.attempted = p.next_processors_) ∧
      (∀ pre d post, p.next_processors_ = pre ++ d :: post →
        (∀ x ∈ pre, rejects heap tasks x = true →
          hook ZFZ_PROCESSOR_QUEUE_FULL x tasks = ZFZ_PROCESSOR_SUCCESS) →
        rejects heap tasks d = true →
        hook ZFZ_PROCESSOR_QUEUE_FULL d tasks ≠ ZFZ_PROCESSOR_SUCCESS →
        o.result = hook ZFZ_PROCESSOR_QUEUE_FULL d tasks ∧ o.attempted = pre ++ [d] ∧
          ∀ x ∈ post, x ∉ o.attempted ∧ o.heap x = heap x) ∧
      o.errors = (o.attempted.filter (rejects heap tasks)).map
        (fun d => ⟨ZFZ_PROCESSOR_QUEUE_FULL, d, tasks⟩) := by
  obtain ⟨o, ho, _, _, hother, herr, hall, hfirst⟩ :=
    fan_out_loop_hook hook tasks p.next_processors_ heap hnd hvalid
  refine ⟨o, ?_, ?_, ?_, herr⟩
  · simp only [fan_out, hself, ho]
  · intro h
    exact hall (fun d hd => (stops_eq_false_iff hook heap tasks d).mpr (h d hd))
  · intro pre d post hsplit hpre hd hhook
    have hsd : stops hook heap tasks d = true := by
      simp [stops, hd, hhook]
    obtain ⟨hres, hatt⟩ := hfirst pre d post hsplit
      (fun x hx => (stops_eq_false_iff hook heap tasks x).mpr (hpre x hx)) hsd
    refine ⟨hres, hatt, ?_⟩
    intro x hx
    have hnot : x ∉ o.attempted := by
      rw [hatt]
      rw [hsplit] at hnd
      have hdis := (List.nodup_append.mp hnd).2.2
      have hnd2 := (List.nodup_cons.mp (List.nodup_append.mp hnd).2.1)
      intro hmem
      rcases List.mem_append.mp hmem with h1 | h1
      · exact hdis h1 (List.mem_cons_of_mem _ hx)
      · rw [List.mem_singleton] at h1
        exact hnd2.1 (h1 ▸ hx)
    exact ⟨hnot, hother x hnot⟩

/-- Witness for C11: with a hook that returns `ZFZ_PROCESSOR_FAIL` for D1, the fan-out to
D1 (full) and D2 returns `ZFZ_PROCESSOR_FAIL` and D2 is not attempted. -/
theorem fan_out_propagates_hook_witness :
    (fan_out hook_fail_at_1 heap_fan 3 [⟨5, 9⟩]).map
        (fun o => (o.result, o.attempted, o.heap 2)) =
      .ok (ZFZ_PROCESSOR_FAIL, [1], some stage_D2) ∧
    ∃ o, fan_out hook_fail_at_1 heap_fan 3 [⟨5, 9⟩] = .ok o ∧
      o.result = hook_fail_at_1 ZFZ_PROCESSOR_QUEUE_FULL 1 [⟨5, 9⟩] ∧
      o.attempted = [] ++ [1] ∧ ∀ x ∈ [2], x ∉ o.attempted ∧ o.heap x = heap_fan x := by
  refine ⟨by decide, ?_⟩
  obtain ⟨o, ho, _, hfirst, _⟩ := fan_out_propagates_hook hook_fail_at_1 heap_fan 3 stage_up
    [⟨5, 9⟩] (by decide) (by decide)
    (by
      intro d hd
      simp only [stage_up, List.mem_cons, List.mem_singleton, List.not_mem_nil, or_false] at hd
      rcases hd with rfl | rfl
      · exact ⟨stage_D1, by decide⟩
      · exact ⟨stage_D2, by decide⟩)
  exact ⟨o, ho, hfirst [] 1 [2] rfl (by simp) (by decide) (by decide)⟩

end Processor

/-! ## The tracked size of the queue -/

namespace History

variable {T : Type}

/-- The outcomes of a `push_task` call in a sequence of calls, with the capacity test. -/
theorem step_push_cases_test (c : Comparison T) (h : History T) (tasks : TASK_LIST T) :
    (tasks = [] ∧ step c h (Call.push_task tasks) =
      .ok { h with accepted := h.accepted ++ [tasks] }) ∨
    (tasks ≠ [] ∧
      size_t_add (to_size_t h.stage.current_queue_size_) tasks.length
        > to_size_t h.stage.max_queue_size_ ∧
      step c h (Call.push_task tasks) =
        .ok { h with stage := { h.stage with
          queue_full_flag_ :=
            if h.stage.queue_full_flag_ = 0 then 1 else h.stage.queue_full_flag_ } }) ∨
    (tasks ≠ [] ∧
      ¬ size_t_add (to_size_t h.stage.current_queue_size_) tasks.length
        > to_size_t h.stage.max_queue_size_ ∧
      step c h (Call.push_task tasks) =
        .ok { h with
          stage := { h.stage with
            task_queue_ := h.stage.task_queue_ ++ tasks
            current_queue_size_ :=
              to_int (size_t_add (to_size_t h.stage.current_queue_size_) tasks.length)
            task_semphore_ := { count := h.stage.task_semphore_.count + tasks.length }
            queue_ordered_flag_ := 0 }
          accepted := h.accepted ++ [tasks] }) := by
  rcases Processor.push_task_cases h.stage tasks with
    ⟨hnil, heq⟩ | ⟨hne, ht, heq⟩ | ⟨hne, ht, heq⟩
  · left
    refine ⟨hnil, ?_⟩
    simp only [step, heq, if_true]
  · right; left
    refine ⟨hne, ht, ?_⟩
    simp only [step, heq]
    rw [if_neg (fun e => Processor.success_ne_queue_full e.symm)]
  · right; right
    refine ⟨hne, ht, ?_⟩
    simp only [step, heq, if_true]

/-- A `push_task` of a list that a `std::list` can hold keeps the tracked size exact. -/
theorem step_push_sizeExact (c : Comparison T) (h : History T) (tasks : TASK_LIST T)
    (h1 : History T) (hlen : tasks.length ≤ LIST_MAX_SIZE)
    (hP : SizeExact h) (hs : step c h (Call.push_task tasks) = .ok h1) : SizeExact h1 := by
  unfold SizeExact at hP ⊢
  obtain ⟨hm0, ⟨hm, hsm⟩, hs0, hsl, hacc⟩ := hP
  rcases step_push_cases_test c h tasks with ⟨hnil, heq⟩ | ⟨_, _, heq⟩ | ⟨_, hfull, heq⟩ <;>
    rw [heq] at hs <;> simp only [Except.ok.injEq] at hs <;> subst hs
  · subst hnil
    exact ⟨hm0, ⟨hm, hsm⟩, hs0, hsl, by simpa using hacc⟩
  · exact ⟨hm0, ⟨hm, hsm⟩, hs0, hsl, hacc⟩
  · have hfit : ¬ (h.stage.current_queue_size_ + tasks.length > h.stage.max_queue_size_) :=
      fun hgt => hfull ((Processor.push_task_full_test hs0 (by omega) hm0 hm hlen).mpr hgt)
    have hint : to_int (size_t_add (to_size_t h.stage.current_queue_size_) tasks.length)
        = h.stage.current_queue_size_ + tasks.length := by
      apply to_int_size_t_add
      · unfold is_int INT_MIN INT_MAX; unfold INT_MAX at hm; omega
      · unfold is_int INT_MIN INT_MAX; unfold INT_MAX at hm; omega
    refine ⟨hm0, ⟨hm, ?_⟩, ?_, ?_, ?_⟩
    · simp only [hint]; omega
    · simp only [hint]; omega
    · simp only [hint, List.length_append]; push_cast; omega
    · simp only [hint, List.flatten_append, List.flatten_cons, List.flatten_nil,
        List.append_nil, List.length_append]
      push_cast
      omega

/-- The locked part of `pop_task` keeps the tracked size exact, is never undefined, and
always returns. -/
theorem pop_locked_sizeExact (c : Comparison T) (h : History T) (b : Int)
    (hP : SizeExact h) :
    ∃ r p batch, h.stage.pop_task_locked c [] b = .ok (r, p, batch) ∧
      (r = ZFZ_PROCESSOR_SUCCESS →
        SizeExact { h with stage := p, batches := h.batches ++ [batch] }) ∧
      (r ≠ ZFZ_PROCESSOR_SUCCESS → SizeExact { h with stage := p }) := by
  unfold SizeExact at hP ⊢
  obtain ⟨hm0, ⟨hm, hsm⟩, hs0, hsl, hacc⟩ := hP
  obtain ⟨q, f, hq, _, hcases⟩ := Processor.pop_task_locked_cases c h.stage [] b
  have hlen : q.length = h.stage.task_queue_.length := by
    rw [hq]; exact (ordered_queue_perm c h.stage).length_eq
  rcases hcases with ⟨_, heq⟩ | ⟨_, _, hb1, hbl, _⟩ | ⟨_, hb0, hb1, hbl, heq⟩ | ⟨_, _, heq⟩
  · refine ⟨_, _, _, heq, ?_, ?_⟩
    · intro hr
      simp [ZFZ_PROCESSOR_QUEUE_EMPTY, ZFZ_PROCESSOR_SUCCESS] at hr
    · intro _
      exact ⟨hm0, ⟨hm, hsm⟩, hs0, hsl, hacc⟩
  · omega
  · refine ⟨_, _, _, heq, ?_, ?_⟩
    · intro _
      refine ⟨hm0, ⟨hm, ?_⟩, ?_, ?_, ?_⟩
      · simp only; omega
      · simp only; omega
      · simp only [List.length_drop]; omega
      · simp only [List.flatten_append, List.flatten_cons, List.flatten_nil,
          List.append_nil, List.length_append, List.nil_append, List.length_take]
        push_cast
        omega
    · intro hr
      exact absurd rfl hr
  · refine ⟨_, _, _, heq, ?_, ?_⟩
    · intro _
      refine ⟨hm0, ⟨hm, hm0⟩, le_refl _, by simp, ?_⟩
      simp only [List.flatten_append, List.flatten_cons, List.flatten_nil,
        List.append_nil, List.length_append, List.nil_append]
      push_cast
      omega
    · intro hr
      exact absurd rfl hr

/-- Every call with a given outcome of the wait returns and keeps the tracked size exact. -/
theorem free_step_sizeExact (c : Comparison T) (h : History T) (call : FreeCall T)
    (hlen : ∀ tasks, call = FreeCall.push_task tasks → tasks.length ≤ LIST_MAX_SIZE)
    (hP : SizeExact h) : ∃ h1, free_step c h call = .ok h1 ∧ SizeExact h1 := by
  cases call with
  | push_task tasks =>
    have hret : ∃ h1, step c h (Call.push_task tasks) = .ok h1 := by
      rcases step_push_cases c h tasks with ⟨_, heq⟩ | ⟨_, heq⟩ | ⟨_, heq⟩ <;>
        exact ⟨_, heq⟩
    obtain ⟨h1, hs⟩ := hret
    exact ⟨h1, hs, step_push_sizeExact c h tasks h1 (hlen tasks rfl) hP hs⟩
  | pop_task b waited =>
    cases waited with
    | false => exact ⟨h, rfl, hP⟩
    | true =>
      obtain ⟨r, p, batch, heq, hok, hno⟩ := pop_locked_sizeExact c h b hP
      by_cases hr : r = ZFZ_PROCESSOR_SUCCESS
      · exact ⟨_, by simp only [free_step, heq, hr, if_true], hok hr⟩
      · exact ⟨_, by simp only [free_step, heq, hr, if_false], hno hr⟩

/-- C12. Queue-size invariant: from a stage that starts empty with a capacity that is a
non-negative `int` (a freshly constructed stage has capacity 1024), every sequence of
`push_task` and `pop_task` calls, with any batch sizes (also zero or negative) and any
outcomes of the counter waits, returns, and after it `current_queue_size_` is non-negative,
equals the number of tasks in `task_queue_`, and equals the number of tasks accepted minus
the number of tasks handed out.  (The submitted lists are lists a `std::list` can hold.) -/
theorem queue_size_exact (c : Comparison T) (p0 : Processor T) (calls : List (FreeCall T))
    (hq : p0.task_queue_ = []) (hs : p0.current_queue_size_ = 0)
    (hm0 : 0 ≤ p0.max_queue_size_) (hm : p0.max_queue_size_ ≤ INT_MAX)
    (hlen : ∀ tasks, FreeCall.push_task tasks ∈ calls → tasks.length ≤ LIST_MAX_SIZE) :
    ∃ h, free_run c { stage := p0 } calls = .ok h ∧
      0 ≤ h.stage.current_queue_size_ ∧
      h.stage.current_queue_size_ = h.stage.task_queue_.length ∧
      h.stage.current_queue_size_ =
        (h.accepted.flatten.length : Int) - (h.batches.flatten.length : Int) := by
  have h0 : SizeExact ({ stage := p0 } : History T) := by
    unfold SizeExact
    simp [hq, hs, hm0, hm]
  have key : ∀ (calls : List (FreeCall T)) (h : History T), SizeExact h →
      (∀ tasks, FreeCall.push_task tasks ∈ calls → tasks.length ≤ LIST_MAX_SIZE) →
      ∃ h1, free_run c h calls = .ok h1 ∧ SizeExact h1 := by
    intro calls
    induction calls with
    | nil =>
      intro h hP _
      exact ⟨h, rfl, hP⟩
    | cons call rest ih =>
      intro h hP hl
      obtain ⟨h1, hs1, hP1⟩ := free_step_sizeExact c h call
        (fun tasks e => hl tasks (e ▸ List.mem_cons_self _ _)) hP
      obtain ⟨h2, hr, hP2⟩ := ih h1 hP1 (fun tasks hm => hl tasks (List.mem_cons_of_mem _ hm))
      exact ⟨h2, by simp only [free_run, hs1, hr], hP2⟩
  obtain ⟨h, hr, hP⟩ := key calls _ h0 hlen
  exact ⟨h, hr, hP.2.2.1, hP.2.2.2.1, hP.2.2.2.2⟩

/-- Witness for C12: a freshly constructed stage, four tasks, a dequeue with batch size 0. -/
theorem queue_size_exact_witness :
    free_run nat_comparison { stage := {} } free_calls_3141 = .ok free_history_3141 ∧
    ∃ h, free_run nat_comparison { stage := {} } free_calls_3141 = .ok h ∧
      0 ≤ h.stage.current_queue_size_ ∧
      h.stage.current_queue_size_ = h.stage.task_queue_.length ∧
      h.stage.current_queue_size_ =
        (h.accepted.flatten.length : Int) - (h.batches.flatten.length : Int) :=
  ⟨by decide,
    queue_size_exact nat_comparison {} free_calls_3141 rfl rfl (by decide) (by decide)
      (by
        intro tasks hm
        simp only [free_calls_3141, List.mem_cons, FreeCall.push_task.injEq, List.mem_singleton,
          List.not_mem_nil, or_false, reduceCtorEq] at hm
        rw [hm]
        decide)⟩

end History

/-! ## Starting and stopping workers -/

namespace Processor

variable {T : Type}

/-- The loop of `begin_thread`: it appends `k` new handles, with `k` at most the number of
requested threads and at most the room left; without a creation failure `k` is exactly the
smaller of the two. -/
theorem begin_thread_loop_spec (max_thread_size : Int) (failure_at : Option Nat) :
    ∀ (remaining : Nat) (cur_count create_count : Int) (thread_list : List ThreadWrapper),
      cur_count ≤ max_thread_size →
      ∃ k : Nat, (k : Int) ≤ remaining ∧ (k : Int) ≤ max_thread_size - cur_count ∧
        begin_thread_loop max_thread_size failure_at remaining cur_count create_count
            thread_list =
          (create_count + k, thread_list ++ List.replicate k new_thread_wrapper) ∧
        (failure_at = none → (k : Int) = min (remaining : Int) (max_thread_size - cur_count)) := by
  intro remaining
  induction remaining with
  | zero =>
    intro cur created tl hcur
    refine ⟨0, by simp, by simpa using hcur, by simp [begin_thread_loop], ?_⟩
    intro _
    simp only [Nat.cast_zero]
    omega
  | succ n ih =>
    intro cur created tl hcur
    by_cases hfull : cur ≥ max_thread_size
    · refine ⟨0, by push_cast; omega, by simpa using hcur, by simp [begin_thread_loop, hfull], ?_⟩
      intro _
      push_cast
      omega
    · by_cases hfail : failure_at = some created.toNat
      · refine ⟨0, by push_cast; omega, by simpa using hcur,
          by simp [begin_thread_loop, hfull, hfail], ?_⟩
        intro hnone
        rw [hnone] at hfail
        exact absurd hfail (by simp)
      · obtain ⟨k, hk1, hk2, heq, hk3⟩ := ih (cur + 1) (created + 1)
          (tl ++ [new_thread_wrapper]) (by omega)
        refine ⟨k + 1, by push_cast; omega, by push_cast; omega, ?_, ?_⟩
        · simp only [begin_thread_loop, hfull, hfail, if_false, heq, List.append_assoc,
            List.singleton_append, List.replicate_succ]
          congr 1
          push_cast
          omega
        · intro hnone
          have := hk3 hnone
          push_cast
          omega

/-- The loop of `end_thread`: it takes the first `m` handles out, `m` being the smaller of
the requested number and the length of the list. -/
theorem end_thread_loop_spec (sync : Bool) :
    ∀ (n : Nat) (thread_list : List ThreadWrapper) (real_ended_count : Int)
      (ended : List ThreadWrapper),
      end_thread_loop sync n thread_list real_ended_count ended =
        (real_ended_count + (min n thread_list.length : Nat),
          thread_list.drop (min n thread_list.length),
          ended ++ (thread_list.take (min n thread_list.length)).map
            (fun t => end_one_thread t sync)) := by
  intro n
  induction n with
  | zero =>
    intro tl real ended
    simp [end_thread_loop]
  | succ n ih =>
    intro tl real ended
    cases tl with
    | nil => simp [end_thread_loop]
    | cons t tl =>
      simp only [end_thread_loop, ih, List.length_cons, Nat.succ_min_succ, List.drop_succ_cons,
        List.take_succ_cons, List.map_cons, List.append_assoc, List.singleton_append]
      refine Prod.ext ?_ rfl
      simp only
      push_cast
      omega

/-- A handle whose thread is joinable leaves `end_one_thread` with the quit flag set. -/
theorem end_one_thread_quit (t : ThreadWrapper) (sync : Bool) (hj : t.joinable = true) :
    end_one_thread t sync = { t with quit_flag_ := 1, joinable := false } := by
  simp [end_one_thread, hj, ThreadWrapper.set_quit_flag]

/-- Every call that starts or stops workers keeps the number of handles within
`max_thread_size_`. -/
theorem thread_step_bounded (p : Processor T) (call : ThreadCall)
    (hcur : (p.thread_list_.length : Int) ≤ p.max_thread_size_)
    (hmax : p.max_thread_size_ ≤ INT_MAX) :
    ((p.thread_step call).thread_list_.length : Int) ≤ (p.thread_step call).max_thread_size_ ∧
      (p.thread_step call).max_thread_size_ ≤ INT_MAX := by
  have hto : to_int p.thread_list_.length = p.thread_list_.length := by
    unfold INT_MAX at hmax
    unfold to_int
    split <;> omega
  cases call with
  | begin_thread count failure_at =>
    by_cases hc : count ≤ 0
    · simp only [thread_step, begin_thread, hc, if_true]
      exact ⟨hcur, hmax⟩
    · obtain ⟨k, _, hk2, heq, _⟩ := begin_thread_loop_spec p.max_thread_size_ failure_at
        count.toNat (to_int p.thread_list_.length) 0 p.thread_list_ (by rw [hto]; exact hcur)
      simp only [thread_step, begin_thread, hc, if_false, heq]
      refine ⟨?_, hmax⟩
      simp only [List.length_append, List.length_replicate]
      push_cast
      omega
  | end_thread count sync =>
    by_cases hc : count ≤ 0
    · simp only [thread_step, end_thread, hc, if_true]
      exact ⟨hcur, hmax⟩
    · simp only [thread_step, end_thread, hc, if_false, end_thread_loop_spec]
      refine ⟨?_, hmax⟩
      simp only [List.length_drop]
      omega
  | end_all_threads sync =>
    by_cases he : p.thread_list_.isEmpty = true
    · simp only [thread_step, end_all_threads, he, if_true]
      exact ⟨hcur, hmax⟩
    · simp only [thread_step, end_all_threads, he]
      refine ⟨?_, hmax⟩
      simp only [Bool.false_eq_true, if_false, List.length_nil, Nat.cast_zero]
      omega

/-- C13. Worker-count bound: for a stage whose `thread_list_` holds `cur <= max_thread_size_`
handles, `begin_thread(count)` returns 0 and changes nothing when `count <= 0`; otherwise,
when no thread creation fails, it returns exactly `min(count, max_thread_size_ - cur)` and
appends that many new handles to `thread_list_`; and after every sequence of `begin_thread`
(with or without creation failures), `end_thread` and `end_all_threads` calls the number of
handles in `thread_list_` is at most `max_thread_size_`. -/
theorem begin_thread_bounded (p : Processor T) (count : Int)
    (hcur : (p.thread_list_.length : Int) ≤ p.max_thread_size_)
    (hmax : p.max_thread_size_ ≤ INT_MAX) :
    (count ≤ 0 → ∀ failure_at, p.begin_thread count failure_at = (0, p)) ∧
    (0 < count → ∃ k : Nat,
      (k : Int) = min count (p.max_thread_size_ - p.thread_list_.length) ∧
      p.begin_thread count none =
        ((k : Int),
          { p with thread_list_ := p.thread_list_ ++ List.replicate k new_thread_wrapper })) ∧
    (∀ calls : List ThreadCall,
      ((p.thread_run calls).thread_list_.length : Int) ≤ (p.thread_run calls).max_thread_size_) := by
  have hto : to_int p.thread_list_.length = p.thread_list_.length := by
    unfold INT_MAX at hmax
    unfold to_int
    split <;> omega
  refine ⟨?_, ?_, ?_⟩
  · intro hc failure_at
    simp [begin_thread, hc]
  · intro hc
    obtain ⟨k, _, _, heq, hk⟩ := begin_thread_loop_spec p.max_thread_size_ none
      count.toNat (to_int p.thread_list_.length) 0 p.thread_list_ (by rw [hto]; exact hcur)
    refine ⟨k, ?_, ?_⟩
    · have := hk rfl
      rw [hto] at this
      omega
    · simp only [begin_thread, not_le.mpr hc, if_false, heq, zero_add]
  · intro calls
    have key : ∀ (calls : List ThreadCall) (q : Processor T),
        (q.thread_list_.length : Int) ≤ q.max_thread_size_ → q.max_thread_size_ ≤ INT_MAX →
        ((q.thread_run calls).thread_list_.length : Int) ≤
          (q.thread_run calls).max_thread_size_ := by
      intro calls
      induction calls with
      | nil =>
        intro q h1 _
        exact h1
      | cons call rest ih =>
        intro q h1 h2
        obtain ⟨g1, g2⟩ := thread_step_bounded q call h1 h2
        exact ih (q.thread_step call) g1 g2
    exact key calls p hcur hmax

/-- Witness for C13: a stage with two of at most three workers is asked for five more. -/
theorem begin_thread_bounded_witness :
    stage_2_workers.begin_thread 5 none =
      (1, { stage_2_workers with thread_list_ :=
        [new_thread_wrapper, new_thread_wrapper, new_thread_wrapper] }) ∧
    ∃ k : Nat,
      (k : Int) = min (5 : Int) (stage_2_workers.max_thread_size_ -
        (stage_2_workers.thread_list_.length : Int)) ∧
      stage_2_workers.begin_thread 5 none =
        ((k : Int), { stage_2_workers with thread_list_ :=
          stage_2_workers.thread_list_ ++ List.replicate k new_thread_wrapper }) :=
  ⟨by decide,
    (begin_thread_bounded stage_2_workers 5 (by decide) (by decide)).2.1
      (by decide)⟩

/-- C14. Stopping workers is FIFO and bounded: for a stage with `k` handles in `thread_list_`
(each with a joinable thread, as `begin_thread` leaves them), `end_thread(count, sync)`
returns 0 and changes nothing when `count <= 0`; otherwise it takes the first
`m = min(count, k)` handles out of `thread_list_`, sets the quit flag of each of them,
leaves the remaining handles in their order and returns `m`.  `end_all_threads` leaves
`thread_list_` empty and sets the quit flag of every handle the list held. -/
theorem end_thread_fifo (p : Processor T) (count : Int) (sync : Bool)
    (hj : ∀ t ∈ p.thread_list_, t.joinable = true) :
    (count ≤ 0 → p.end_thread count sync = (0, p, [])) ∧
    (0 < count → ∃ m : Nat,
      (m : Int) = min count (p.thread_list_.length : Int) ∧
      p.end_thread count sync =
        ((m : Int), { p with thread_list_ := p.thread_list_.drop m },
          (p.thread_list_.take m).map
            (fun t => { t with quit_flag_ := 1, joinable := false }))) ∧
    ((p.end_all_threads sync).1.thread_list_ = [] ∧
      (p.end_all_threads sync).2 =
        p.thread_list_.map (fun t => { t with quit_flag_ := 1, joinable := false }) ∧
      ∀ t ∈ (p.end_all_threads sync).2, t.quit_flag_ = 1) := by
  have hmap : ∀ l : List ThreadWrapper, (∀ t ∈ l, t.joinable = true) →
      l.map (fun t => end_one_thread t sync) =
        l.map (fun t => { t with quit_flag_ := 1, joinable := false }) := by
    intro l hl
    apply List.map_congr_left
    intro t ht
    exact end_one_thread_quit t sync (hl t ht)
  refine ⟨?_, ?_, ?_⟩
  · intro hc
    simp [end_thread, hc]
  · intro hc
    refine ⟨min count.toNat p.thread_list_.length, by omega, ?_⟩
    simp only [end_thread, not_le.mpr hc, if_false, end_thread_loop_spec, zero_add,
      List.nil_append]
    rw [hmap _ (fun t ht => hj t (List.mem_of_mem_take ht))]
  · have hall : (p.end_all_threads sync).2 =
        p.thread_list_.map (fun t => { t with quit_flag_ := 1, joinable := false }) := by
      by_cases he : p.thread_list_.isEmpty = true
      · have : p.thread_list_ = [] := List.isEmpty_iff.mp he
        simp [end_all_threads, this]
      · simp only [end_all_threads, he, Bool.false_eq_true, if_false]
        exact hmap _ hj
    refine ⟨?_, hall, ?_⟩
    · by_cases he : p.thread_list_.isEmpty = true
      · have : p.thread_list_ = [] := List.isEmpty_iff.mp he
        simp [end_all_threads, this]
      · simp [end_all_threads, he]
    · intro t ht
      rw [hall, List.mem_map] at ht
      obtain ⟨t0, _, rfl⟩ := ht
      rfl

/-- Witness for C14: of two workers, `end_thread(1)` stops the first. -/
theorem end_thread_fifo_witness :
    stage_2_workers.end_thread 1 true =
      (1, { stage_2_workers with thread_list_ := [new_thread_wrapper] },
        [ended_thread_wrapper]) ∧
    ∃ m : Nat,
      (m : Int) = min (1 : Int) (stage_2_workers.thread_list_.length : Int) ∧
      stage_2_workers.end_thread 1 true =
        ((m : Int), { stage_2_workers with thread_list_ := stage_2_workers.thread_list_.drop m },
          (stage_2_workers.thread_list_.take m).map
            (fun t => { t with quit_flag_ := 1, joinable := false })) :=
  ⟨by decide, (end_thread_fifo stage_2_workers 1 true (by decide)).2.1 (by decide)⟩

end Processor

/-! ## The gate `Event` -/

namespace Event

/-- A wait on a signalled manual-reset gate succeeds and leaves the gate as it is. -/
theorem wait_manual_signalled (e : Event) (hm : e.manual_reset_ = true)
    (hs : e.signal_ = true) (t : Int) : e.wait t = .ok (ZFZ_EVENT_SUCCESS, e) := by
  simp [wait, hm, hs]

/-- Any number of waits on a signalled manual-reset gate succeed. -/
theorem waits_manual_signalled (e : Event) (hm : e.manual_reset_ = true)
    (hs : e.signal_ = true) (ts : List Int) :
    e.waits ts = .ok (ts.map (fun _ => ZFZ_EVENT_SUCCESS), e) := by
  induction ts with
  | nil => rfl
  | cons t ts ih => simp [waits, wait_manual_signalled e hm hs, ih]

/-- C15. Manual-reset gate: for an `Event` with `manual_reset_` true, after `set()` every
`wait(t)`, whatever the time-out `t`, returns `ZFZ_EVENT_SUCCESS` and leaves the gate
signalled, so any number of consecutive waits succeed; after `reset()` the gate is
unsignalled whatever it was before, and `wait(0)` then returns `ZFZ_EVENT_TIME_OUT` and
leaves the gate as it is. -/
theorem manual_reset_gate (e : Event) (hm : e.manual_reset_ = true) :
    (∀ t : Int, e.set.wait t = .ok (ZFZ_EVENT_SUCCESS, e.set)) ∧
    e.set.signal_ = true ∧
    (∀ ts : List Int, e.set.waits ts = .ok (ts.map (fun _ => ZFZ_EVENT_SUCCESS), e.set)) ∧
    e.reset.signal_ = false ∧
    e.reset.wait 0 = .ok (ZFZ_EVENT_TIME_OUT, e.reset) := by
  refine ⟨wait_manual_signalled e.set hm rfl, rfl, waits_manual_signalled e.set hm rfl, rfl, ?_⟩
  simp [wait, reset]

/-- Witness for C15: the gate made by the default constructor. -/
theorem manual_reset_gate_witness :
    (({} : Event).set.waits [-1, 0, 5] =
      .ok ([ZFZ_EVENT_SUCCESS, ZFZ_EVENT_SUCCESS, ZFZ_EVENT_SUCCESS], ({} : Event).set)) ∧
    ({} : Event).set.reset.wait 0 = .ok (ZFZ_EVENT_TIME_OUT, ({} : Event).set.reset) :=
  ⟨(manual_reset_gate {} rfl).2.2.1 [-1, 0, 5], (manual_reset_gate ({} : Event).set rfl).2.2.2.2⟩

/-- Any number `n >= 1` of `set()` calls leaves the gate signalled and nothing else
changed. -/
theorem sets_eq (n : Nat) : ∀ e : Event, 1 ≤ n → e.sets n = { e with signal_ := true } := by
  induction n with
  | zero => intro e h; omega
  | succ n ih =>
    intro e _
    cases n with
    | zero => rfl
    | succ m =>
      have := ih e.set (by omega)
      simp only [sets] at this ⊢
      rw [this]
      rfl

/-- After a successful wait on an auto-reset gate, non-blocking waits time out. -/
theorem waits_unsignalled (e : Event) (hs : e.signal_ = false) (m : Nat) :
    e.waits (List.replicate m 0) = .ok (List.replicate m ZFZ_EVENT_TIME_OUT, e) := by
  induction m with
  | zero => rfl
  | succ m ih => simp [List.replicate_succ, waits, wait, hs, ih]

/-- C16. Auto-reset gate: for an `Event` with `manual_reset_` false, a `wait(t)` on a
signalled gate returns `ZFZ_EVENT_SUCCESS` and leaves the gate unsignalled, so that a
following `wait(0)` returns `ZFZ_EVENT_TIME_OUT`; and signals do not accumulate: after any
number `n >= 1` of `set()` calls with no wait in between, of `m + 1` non-blocking waits the
first succeeds and the `m` others time out. -/
theorem auto_reset_gate (e : Event) (ha : e.manual_reset_ = false) :
    (e.signal_ = true → ∀ t : Int,
      e.wait t = .ok (ZFZ_EVENT_SUCCESS, { e with signal_ := false }) ∧
      ({ e with signal_ := false } : Event).wait 0 =
        .ok (ZFZ_EVENT_TIME_OUT, { e with signal_ := false })) ∧
    (∀ n : Nat, 1 ≤ n → ∀ m : Nat,
      (e.sets n).waits (List.replicate (m + 1) 0) =
        .ok (ZFZ_EVENT_SUCCESS :: List.replicate m ZFZ_EVENT_TIME_OUT,
          { e with signal_ := false })) := by
  constructor
  · intro hs t
    constructor
    · simp [wait, hs, ha]
    · simp [wait]
  · intro n hn m
    rw [sets_eq n e hn]
    have hw : ({ e with signal_ := true } : Event).wait 0 =
        .ok (ZFZ_EVENT_SUCCESS, { e with signal_ := false }) := by
      simp [wait, ha]
    simp only [List.replicate_succ, waits, hw]
    rw [waits_unsignalled { e with signal_ := false } rfl m]

/-- Witness for C16: an auto-reset gate set three times lets one of three polls succeed. -/
theorem auto_reset_gate_witness :
    (({ manual_reset_ := false } : Event).sets 3).waits [0, 0, 0] =
      .ok ([ZFZ_EVENT_SUCCESS, ZFZ_EVENT_TIME_OUT, ZFZ_EVENT_TIME_OUT],
        { manual_reset_ := false }) :=
  (auto_reset_gate { manual_reset_ := false } rfl).2 3 (by decide) 2

end Event

/-! ## The object pool -/

namespace ObjectPool

theorem to_int_of_le {n : Nat} (h : (n : Int) ≤ INT_MAX) : to_int n = n := by
  unfold INT_MAX at h
  unfold to_int
  split <;> omega

/-- Without an admission limit `pop()` returns at once: a new object when the idle list is
empty, the oldest idle object otherwise. -/
theorem pop_unlimited (p : ObjectPool) (fresh : Nat) (h : p.available_count_ < 0) :
    p.pop fresh =
      .ok (match p.object_list_ with
        | [] => (fresh, p, [ObjectEvent.constructed fresh])
        | front :: rest => (front, { p with object_list_ := rest }, [])) := by
  have h1 : ¬ p.available_count_ ≥ 0 := by omega
  cases hl : p.object_list_ with
  | nil => simp [pop, h1, hl]
  | cons a l => simp [pop, h1, hl]

/-- Without an admission limit, checking in a non-null object while there is room keeps
it. -/
theorem push_unlimited_room (has_clear : Bool) (p : ObjectPool) (obj : Nat) (hobj : obj ≠ 0)
    (h : p.available_count_ < 0) (hroom : to_int p.object_list_.length < p.max_holding_count_) :
    push has_clear p obj =
      .ok ({ p with object_list_ := p.object_list_ ++ [obj] },
        SFINAE.clear_object has_clear obj) := by
  have h1 : ¬ p.available_count_ ≥ 0 := by omega
  simp [push, hobj, hroom, h1]

/-- Checking the one idle object out and in again leaves the pool as it was. -/
theorem cycles_one_idle (has_clear : Bool) (fresh : Nat → Nat) (a : Nat) (ha : a ≠ 0)
    (p : ObjectPool) (h : p.available_count_ < 0) (hl : p.object_list_ = [a])
    (hmax : 0 < p.max_holding_count_) :
    ∀ (k i : Nat), pop_push_cycles has_clear fresh k i p =
      .ok (List.replicate k a, p,
        (List.replicate k (SFINAE.clear_object has_clear a)).flatten) := by
  have hpop : ∀ f, p.pop f = .ok (a, { p with object_list_ := [] }, []) := by
    intro f
    rw [pop_unlimited p f h, hl]
  have ht : to_int (0 : Nat) = 0 := by decide
  have hpush : push has_clear { p with object_list_ := [] } a =
      .ok (p, SFINAE.clear_object has_clear a) := by
    have := push_unlimited_room has_clear { p with object_list_ := [] } a ha h
      (by show to_int (0 : Nat) < p.max_holding_count_; rw [ht]; exact hmax)
    rw [this]
    simp only [List.nil_append, ← hl]
  intro k
  induction k with
  | zero => intro i; rfl
  | succ k ih =>
    intro i
    simp only [pop_push_cycles, hpop, hpush, ih, List.nil_append, List.replicate_succ,
      List.flatten_cons]

/-- C17. Sequential reuse allocates once: on a freshly constructed pool (no admission limit,
retention ceiling 8), `k >= 1` rounds of `pop()` followed by `push()` of the object returned
all return (none blocks), every `pop()` returns the same object, that object is constructed
by the first `pop()` and nothing else is ever constructed or deleted, and `available_count_`
stays at its unlimited value -1. -/
theorem sequential_reuse_allocates_once (has_clear : Bool) (fresh : Nat → Nat) (k : Nat)
    (hk : 1 ≤ k) (hfresh : fresh 0 ≠ 0) :
    pop_push_cycles has_clear fresh k 0 create =
      .ok (List.replicate k (fresh 0),
        { create with object_list_ := [fresh 0] },
        ObjectEvent.constructed (fresh 0) ::
          (List.replicate k (SFINAE.clear_object has_clear (fresh 0))).flatten) ∧
    ({ create with object_list_ := [fresh 0] } : ObjectPool).available_count_ = -1 ∧
    ∀ e ∈ (List.replicate k (SFINAE.clear_object has_clear (fresh 0))).flatten,
      e = ObjectEvent.cleared (fresh 0) := by
  refine ⟨?_, rfl, ?_⟩
  · obtain ⟨n, rfl⟩ : ∃ n, k = n + 1 := ⟨k - 1, by omega⟩
    have hpop : create.pop (fresh 0) =
        .ok (fresh 0, create, [ObjectEvent.constructed (fresh 0)]) := by
      rw [pop_unlimited create (fresh 0) (by decide)]
      rfl
    have hpush : push has_clear create (fresh 0) =
        .ok ({ create with object_list_ := [fresh 0] },
          SFINAE.clear_object has_clear (fresh 0)) := by
      rw [push_unlimited_room has_clear create (fresh 0) hfresh (by decide) (by decide)]
      rfl
    have hrest := cycles_one_idle has_clear fresh (fresh 0) hfresh
      { create with object_list_ := [fresh 0] } (by show (-1 : Int) < 0; decide) rfl
      (by show (0 : Int) < 8; decide) n 1
    simp only [pop_push_cycles, hpop, hpush, hrest, List.replicate_succ, List.flatten_cons,
      List.singleton_append, List.cons_append, List.nil_append]
  · intro e he
    rw [List.mem_flatten] at he
    obtain ⟨l, hl, hel⟩ := he
    rw [List.eq_of_mem_replicate hl] at hel
    unfold SFINAE.clear_object at hel
    split at hel
    · simpa using hel
    · simp at hel

/-- Witness for C17: three rounds on a pool of objects with a `clear()` member. -/
theorem sequential_reuse_allocates_once_witness :
    pop_push_cycles true fresh_from_5 3 0 create =
      .ok ([5, 5, 5], { create with object_list_ := [5] },
        [ObjectEvent.constructed 5, ObjectEvent.cleared 5, ObjectEvent.cleared 5,
          ObjectEvent.cleared 5]) :=
  (sequential_reuse_allocates_once true fresh_from_5 3 (by decide) (by decide)).1

/-- The outcomes of `push(obj)` for a non-null object, as equations: `kept` tells whether the
object is kept. -/
theorem push_cases (has_clear : Bool) (p : ObjectPool) (obj : Nat) (hobj : obj ≠ 0) :
    ∃ (l : List Nat) (ev : List ObjectEvent),
      ((to_int p.object_list_.length < p.max_holding_count_ ∧
          l = p.object_list_ ++ [obj] ∧ ev = SFINAE.clear_object has_clear obj) ∨
        (¬ to_int p.object_list_.length < p.max_holding_count_ ∧
          l = p.object_list_ ∧ ev = [ObjectEvent.deleted obj])) ∧
      ((p.available_count_ < 0 ∧
          push has_clear p obj = .ok ({ p with object_list_ := l }, ev)) ∨
        (p.available_count_ = INT_MAX ∧ push has_clear p obj = .error Fault.undefined) ∨
        (0 ≤ p.available_count_ ∧ p.available_count_ ≠ INT_MAX ∧
          push has_clear p obj =
            .ok ({ p with
              object_list_ := l
              available_count_ := p.available_count_ + 1
              available_event_ :=
                if p.available_count_ = 0 then p.available_event_.set
                else p.available_event_ }, ev))) := by
  have hI : INT_MAX ≥ 0 := by decide
  by_cases hroom : to_int p.object_list_.length < p.max_holding_count_
  · refine ⟨_, _, Or.inl ⟨hroom, rfl, rfl⟩, ?_⟩
    by_cases h0 : p.available_count_ ≥ 0
    · by_cases hmax : p.available_count_ = INT_MAX
      · right; left
        exact ⟨hmax, by simp [push, hobj, hroom, hmax, hI]⟩
      · right; right
        refine ⟨h0, hmax, ?_⟩
        by_cases h1 : p.available_count_ = 0
        · simp [push, hobj, hroom, h0, hmax, h1, INT_MAX]
        · have h2 : ¬ p.available_count_ + 1 = 1 := by omega
          simp [push, hobj, hroom, h0, hmax, h1, h2]
    · left
      exact ⟨by omega, by simp [push, hobj, hroom, h0]⟩
  · refine ⟨_, _, Or.inr ⟨hroom, rfl, rfl⟩, ?_⟩
    by_cases h0 : p.available_count_ ≥ 0
    · by_cases hmax : p.available_count_ = INT_MAX
      · right; left
        exact ⟨hmax, by simp [push, hobj, hroom, hmax, hI]⟩
      · right; right
        refine ⟨h0, hmax, ?_⟩
        by_cases h1 : p.available_count_ = 0
        · simp [push, hobj, hroom, h0, hmax, h1, INT_MAX]
        · have h2 : ¬ p.available_count_ + 1 = 1 := by omega
          simp [push, hobj, hroom, h0, hmax, h1, h2]
    · left
      exact ⟨by omega, by simp [push, hobj, hroom, h0]⟩

end ObjectPool

namespace Event

/-- A wait without time-out returns only on a signalled gate. -/
theorem wait_forever_ok {e e1 : Event} {r : Int} (h : e.wait (-1) = .ok (r, e1)) :
    e.signal_ = true ∧ r = ZFZ_EVENT_SUCCESS ∧
      e1 = (if e.manual_reset_ then e else { e with signal_ := false }) := by
  unfold wait at h
  by_cases hs : e.signal_ = true
  · by_cases hm : e.manual_reset_ = true
    · simp only [hs, hm, if_true, Bool.not_true, Bool.false_eq_true, if_false,
        Except.ok.injEq, Prod.mk.injEq] at h
      obtain ⟨h1, h2⟩ := h
      subst h2
      exact ⟨hs, h1.symm, by simp [hm]⟩
    · have hm2 : e.manual_reset_ = false := by simpa using hm
      simp only [hs, hm2, if_true, Bool.not_false, Except.ok.injEq, Prod.mk.injEq] at h
      obtain ⟨h1, h2⟩ := h
      subst h2
      exact ⟨hs, h1.symm, by simp [hm2]⟩
  · exfalso
    by_cases hb : e.blocked_ = INT_MAX
    · simp [hs, hb] at h
    · simp [hs, hb] at h

end Event

namespace ObjectPool

/-- What a `pop()` that returns has done to the pool. -/
theorem pop_ok {p p1 : ObjectPool} {fresh obj : Nat} {ev : List ObjectEvent}
    (h : p.pop fresh = .ok (obj, p1, ev)) :
    p1.max_holding_count_ = p.max_holding_count_ ∧
    p1.max_available_count_ = p.max_available_count_ ∧
    p1.object_list_ = p.object_list_.tail ∧
    ((p.available_count_ < 0 ∧ p1.available_count_ = p.available_count_ ∧
        p1.available_event_ = p.available_event_) ∨
      (0 < p.available_count_ ∧ p.available_event_.signal_ = true ∧
        p1.available_count_ = p.available_count_ - 1 ∧
        p1.available_event_.manual_reset_ = p.available_event_.manual_reset_ ∧
        (p1.available_event_.signal_ = true ↔
          (1 < p.available_count_ ∧ p.available_event_.manual_reset_ = true)))) := by
  by_cases h0 : p.available_count_ ≥ 0
  · cases hw : p.available_event_.wait (-1) with
    | error f => simp [pop, h0, hw] at h
    | ok res =>
      obtain ⟨r, e1⟩ := res
      obtain ⟨hsig, _, he1⟩ := Event.wait_forever_ok hw
      by_cases hpos : p.available_count_ > 0
      · have h1 : ¬ p.available_count_ < 0 := by omega
        by_cases hone : p.available_count_ - 1 ≤ 0
        · cases hl : p.object_list_ with
          | nil =>
            simp [pop, h0, hw, hpos, hl, hone] at h
            obtain ⟨_, hp1, _⟩ := h
            subst hp1
            refine ⟨rfl, rfl, rfl, Or.inr ⟨hpos, hsig, rfl, ?_, ?_⟩⟩
            · rw [he1]; split <;> rfl
            · simp [Event.reset]; omega
          | cons a l =>
            simp [pop, h0, hw, hpos, hl, hone] at h
            obtain ⟨_, hp1, _⟩ := h
            subst hp1
            refine ⟨rfl, rfl, rfl, Or.inr ⟨hpos, hsig, rfl, ?_, ?_⟩⟩
            · rw [he1]; split <;> rfl
            · simp [Event.reset]; omega
        · cases hl : p.object_list_ with
          | nil =>
            simp [pop, h0, hw, hpos, hl, hone] at h
            obtain ⟨_, hp1, _⟩ := h
            subst hp1
            refine ⟨rfl, rfl, rfl, Or.inr ⟨hpos, hsig, rfl, ?_, ?_⟩⟩
            · rw [he1]; split <;> rfl
            · rw [he1]
              by_cases hm : p.available_event_.manual_reset_ = true
              · simp [hm, hsig]; omega
              · simp [hm]
          | cons a l =>
            simp [pop, h0, hw, hpos, hl, hone] at h
            obtain ⟨_, hp1, _⟩ := h
            subst hp1
            refine ⟨rfl, rfl, rfl, Or.inr ⟨hpos, hsig, rfl, ?_, ?_⟩⟩
            · rw [he1]; split <;> rfl
            · rw [he1]
              by_cases hm : p.available_event_.manual_reset_ = true
              · simp [hm, hsig]; omega
              · simp [hm]
      · simp [pop, h0, hw, hpos] at h
  · rw [pop_unlimited p fresh (by omega)] at h
    cases hl : p.object_list_ with
    | nil =>
      simp [hl] at h
      obtain ⟨_, hp1, _⟩ := h
      subst hp1
      exact ⟨rfl, rfl, hl.symm ▸ rfl, Or.inl ⟨by omega, rfl, rfl⟩⟩
    | cons a l =>
      simp [hl] at h
      obtain ⟨_, hp1, _⟩ := h
      subst hp1
      exact ⟨rfl, rfl, rfl, Or.inl ⟨by omega, rfl, rfl⟩⟩

/-- C18. Check-in retains or discards by the ceiling: for a non-null object (and a pool whose
idle count is an `int` and whose `available_count_` can be incremented), `push(obj)` keeps
the object exactly when the idle list holds fewer than `max_holding_count_` objects: it is
then reset by `clear_object` (which calls `clear()` when the type has one and does nothing
otherwise) and appended at the back of the idle list; otherwise it is deleted, not reset,
and the idle list is unchanged.  `push(nullptr)` changes nothing, whatever the pool. -/
theorem push_retains_or_discards (has_clear : Bool) (p : ObjectPool) (obj : Nat) :
    (obj ≠ 0 → (p.object_list_.length : Int) ≤ INT_MAX → p.available_count_ ≠ INT_MAX →
      ∃ p1 ev, push has_clear p obj = .ok (p1, ev) ∧
        p1.max_holding_count_ = p.max_holding_count_ ∧
        ((p.object_list_.length : Int) < p.max_holding_count_ →
          p1.object_list_ = p.object_list_ ++ [obj] ∧
          ev = (if has_clear then [ObjectEvent.cleared obj] else [])) ∧
        (¬ (p.object_list_.length : Int) < p.max_holding_count_ →
          p1.object_list_ = p.object_list_ ∧ ev = [ObjectEvent.deleted obj])) ∧
    push has_clear p 0 = .ok (p, []) := by
  constructor
  · intro hobj hlen havail
    have hto := to_int_of_le hlen
    obtain ⟨l, ev, hkeep, hres⟩ := push_cases has_clear p obj hobj
    rw [hto] at hkeep
    have hfacts : ((p.object_list_.length : Int) < p.max_holding_count_ →
          l = p.object_list_ ++ [obj] ∧
          ev = (if has_clear then [ObjectEvent.cleared obj] else [])) ∧
        (¬ (p.object_list_.length : Int) < p.max_holding_count_ →
          l = p.object_list_ ∧ ev = [ObjectEvent.deleted obj]) := by
      rcases hkeep with ⟨h1, h2, h3⟩ | ⟨h1, h2, h3⟩
      · exact ⟨fun _ => ⟨h2, h3⟩, fun hn => absurd h1 hn⟩
      · exact ⟨fun hn => absurd hn h1, fun _ => ⟨h2, h3⟩⟩
    rcases hres with ⟨_, heq⟩ | ⟨hmax, _⟩ | ⟨_, _, heq⟩
    · exact ⟨_, _, heq, rfl, hfacts⟩
    · exact absurd hmax havail
    · exact ⟨_, _, heq, rfl, hfacts⟩
  · simp [push]

/-- Witness for C18: a pool with ceiling 1 keeps the first object and deletes the second. -/
theorem push_retains_or_discards_witness :
    push true { create with max_holding_count_ := 1 } 5 =
      .ok ({ create with max_holding_count_ := 1, object_list_ := [5] },
        [ObjectEvent.cleared 5]) ∧
    push true { create with max_holding_count_ := 1, object_list_ := [5] } 6 =
      .ok ({ create with max_holding_count_ := 1, object_list_ := [5] },
        [ObjectEvent.deleted 6]) ∧
    ∃ p1 ev, push true { create with max_holding_count_ := 1 } 5 = .ok (p1, ev) ∧
      p1.max_holding_count_ = ({ create with max_holding_count_ := 1 } : ObjectPool).max_holding_count_ ∧
      ((({ create with max_holding_count_ := 1 } : ObjectPool).object_list_.length : Int) <
          ({ create with max_holding_count_ := 1 } : ObjectPool).max_holding_count_ →
        p1.object_list_ =
          ({ create with max_holding_count_ := 1 } : ObjectPool).object_list_ ++ [5] ∧
        ev = (if true then [ObjectEvent.cleared 5] else [])) ∧
      (¬ (({ create with max_holding_count_ := 1 } : ObjectPool).object_list_.length : Int) <
          ({ create with max_holding_count_ := 1 } : ObjectPool).max_holding_count_ →
        p1.object_list_ = ({ create with max_holding_count_ := 1 } : ObjectPool).object_list_ ∧
          ev = [ObjectEvent.deleted 5]) :=
  ⟨by decide, by decide,
    (push_retains_or_discards true { create with max_holding_count_ := 1 } 5).1
      (by decide) (by decide) (by decide)⟩

/-- C19, the code at a failing input. A fresh pool with the admission limit 1: after one
object is checked out and checked in again, `available_count_` is 1 with no object checked
out; `reset()` then deletes the idle object and adds 1 to `available_count_`, which becomes
2, above the limit, and `get_used_count()` becomes -1.  `set_max_holding_count(0)` in place
of `reset()` does the same. -/
theorem reset_inflates_available_count :
    (run true create [PoolCall.set_available_count 1, PoolCall.pop 7, PoolCall.push 7]).map
        (fun p => (p.object_list_, p.available_count_, p.get_used_count)) =
      .ok ([7], 1, 0) ∧
    (run true create pool_calls_reset).map
        (fun p => (p.object_list_, p.available_count_, p.get_used_count)) =
      .ok ([], 2, -1) ∧
    (run true create [PoolCall.set_available_count 1, PoolCall.pop 7, PoolCall.push 7,
        PoolCall.set_max_holding_count 0]).map
        (fun p => (p.object_list_, p.available_count_, p.get_used_count)) =
      .ok ([], 2, -1) := by
  refine ⟨by decide, by decide, by decide⟩

/-- An invariant kept by every returning call of a class of calls holds after every run of
such calls. -/
theorem pool_run_invariant (has_clear : Bool) (Inv : ObjectPool → Prop) (Ok : PoolCall → Prop)
    (hstep : ∀ p call p1, Inv p → Ok call → step has_clear p call = .ok p1 → Inv p1) :
    ∀ (calls : List PoolCall) (p p1 : ObjectPool), Inv p → (∀ call ∈ calls, Ok call) →
      run has_clear p calls = .ok p1 → Inv p1 := by
  intro calls
  induction calls with
  | nil =>
    intro p p1 hinv _ hrun
    simp [run] at hrun
    exact hrun ▸ hinv
  | cons call calls ih =>
    intro p p1 hinv hok hrun
    cases hs : step has_clear p call with
    | error f => simp [run, hs] at hrun
    | ok p2 =>
      simp [run, hs] at hrun
      exact ih p2 p1 (hstep p call p2 hinv (hok call (List.mem_cons_self _ _)) hs)
        (fun c hc => hok c (List.mem_cons_of_mem _ hc)) hrun

/-- A `pop()` on a pool whose gate tracks a positive count returns. -/
theorem pop_returns (p : ObjectPool) (fresh : Nat) (hg : GateTracks p)
    (hpos : 0 < p.available_count_) : ∃ obj p1 ev, p.pop fresh = .ok (obj, p1, ev) := by
  obtain ⟨hm, _, h0, hsig⟩ := hg
  have hs : p.available_event_.signal_ = true := hsig.mpr hpos
  have hw : p.available_event_.wait (-1) = .ok (ZFZ_EVENT_SUCCESS, p.available_event_) := by
    simp [Event.wait, hs, hm]
  have hge : p.available_count_ ≥ 0 := h0
  simp only [pop, hge, if_true, hw, gt_iff_lt, hpos]
  exact ⟨_, _, _, rfl⟩

/-- A `pop()` on a pool whose gate tracks the count 0 never returns. -/
theorem pop_blocks (p : ObjectPool) (fresh : Nat) (hg : GateTracks p)
    (hzero : p.available_count_ ≤ 0) : p.pop fresh = .error Fault.blocks := by
  obtain ⟨hm, hb, h0, hsig⟩ := hg
  have hs : ¬ p.available_event_.signal_ = true := fun h => by
    have := hsig.mp h
    omega
  have hbm : ¬ p.available_event_.blocked_ = INT_MAX := by
    rw [hb]; decide
  have hw : p.available_event_.wait (-1) = .error Fault.blocks := by
    simp [Event.wait, hs, hbm]
  have hge : p.available_count_ ≥ 0 := h0
  simp [pop, hge, hw]

/-- Every returning `pop()` and `push(obj)` keeps the gate in step with the count. -/
theorem step_gateTracks (has_clear : Bool) (p : ObjectPool) (call : PoolCall) (p1 : ObjectPool)
    (hg : GateTracks p) (hcall : call.IsPopOrPush) (hs : step has_clear p call = .ok p1) :
    GateTracks p1 := by
  obtain ⟨hm, hb, h0, hsig⟩ := hg
  cases call with
  | pop fresh =>
    cases hp : p.pop fresh with
    | error f => simp [step, hp, Except.map] at hs
    | ok res =>
      obtain ⟨obj, p2, ev⟩ := res
      simp [step, hp, Except.map] at hs
      subst hs
      have hblk : p2.available_event_.blocked_ = 0 := by
        have hs1 : p.available_event_.signal_ = true := by
          rcases (pop_ok hp).2.2.2 with ⟨hneg, _⟩ | ⟨_, hs1, _⟩
          · omega
          · exact hs1
        have hw : p.available_event_.wait (-1) =
            .ok (ZFZ_EVENT_SUCCESS, p.available_event_) := by
          simp [Event.wait, hs1, hm]
        have hpos : 0 < p.available_count_ := hsig.mp hs1
        have hge : p.available_count_ ≥ 0 := h0
        simp only [pop, hge, if_true, hw, gt_iff_lt, hpos] at hp
        by_cases hone : p.available_count_ - 1 ≤ 0
        · cases hl : p.object_list_ with
          | nil =>
            simp [hl, hone, hge] at hp
            rw [← hp.2.1]
            simpa [Event.reset] using hb
          | cons a l =>
            simp [hl, hone, hge] at hp
            rw [← hp.2.1]
            simpa [Event.reset] using hb
        · cases hl : p.object_list_ with
          | nil =>
            simp [hl, hone, hge] at hp
            rw [← hp.2.1]
            simpa using hb
          | cons a l =>
            simp [hl, hone, hge] at hp
            rw [← hp.2.1]
            simpa using hb
      obtain ⟨_, _, _, hcase⟩ := pop_ok hp
      rcases hcase with ⟨hneg, _⟩ | ⟨hpos, _, hav, hman, hsig1⟩
      · omega
      · refine ⟨by rw [hman]; exact hm, hblk, by omega, ?_⟩
        rw [hsig1, hav]
        constructor
        · intro h; omega
        · intro h; exact ⟨by omega, hm⟩
  | push obj =>
    by_cases hobj : obj = 0
    · simp [step, push, hobj, Except.map] at hs
      subst hs
      exact ⟨hm, hb, h0, hsig⟩
    · obtain ⟨l, ev, _, hres⟩ := push_cases has_clear p obj hobj
      rcases hres with ⟨hneg, _⟩ | ⟨_, heq⟩ | ⟨_, _, heq⟩
      · omega
      · simp [step, heq, Except.map] at hs
      · simp [step, heq, Except.map] at hs
        subst hs
        by_cases hz : p.available_count_ = 0
        · simp [GateTracks, hz, Event.set, hm, hb]
        · have hpos : 0 < p.available_count_ := by omega
          have hs1 := hsig.mpr hpos
          simp [GateTracks, hz, hm, hb, hs1]
          omega
  | reset => exact absurd hcall (by simp [PoolCall.IsPopOrPush])
  | set_max_holding_count c => exact absurd hcall (by simp [PoolCall.IsPopOrPush])
  | set_available_count c => exact absurd hcall (by simp [PoolCall.IsPopOrPush])

/-- C20. Admission gate tracks availability: on a fresh pool configured with
`set_available_count(n)`, `n >= 1`, after every sequence of completed `pop()` and `push()`
calls the gate `available_event_` is signalled if and only if `available_count_ > 0`; a
`pop()` completes exactly in a state with `available_count_ > 0` (in a state with count 0
it blocks for ever), and a `pop()` that completes decrements `available_count_` by exactly
1. -/
theorem admission_gate_tracks_availability (has_clear : Bool) (n : Int) (hn : 1 ≤ n)
    (calls : List PoolCall) (hcalls : ∀ call ∈ calls, call.IsPopOrPush) (p : ObjectPool)
    (hrun : run has_clear (create.set_available_count n) calls = .ok p) :
    (p.available_event_.signal_ = true ↔ 0 < p.available_count_) ∧
    (∀ fresh obj p1 ev, p.pop fresh = .ok (obj, p1, ev) →
      0 < p.available_count_ ∧ p1.available_count_ = p.available_count_ - 1) ∧
    (∀ fresh, 0 < p.available_count_ → ∃ obj p1 ev, p.pop fresh = .ok (obj, p1, ev)) ∧
    (∀ fresh, p.available_count_ ≤ 0 → p.pop fresh = .error Fault.blocks) := by
  have hinit : GateTracks (create.set_available_count n) := by
    refine ⟨rfl, rfl, ?_, ?_⟩
    · show 0 ≤ n
      omega
    · show (true = true) ↔ 0 < n
      simp
      omega
  have hg : GateTracks p :=
    pool_run_invariant has_clear GateTracks PoolCall.IsPopOrPush
      (fun p call p1 h1 h2 h3 => step_gateTracks has_clear p call p1 h1 h2 h3)
      calls _ p hinit hcalls hrun
  refine ⟨hg.2.2.2, ?_, fun fresh hpos => pop_returns p fresh hg hpos,
    fun fresh hz => pop_blocks p fresh hg hz⟩
  intro fresh obj p1 ev hp
  rcases (pop_ok hp).2.2.2 with ⟨hneg, _⟩ | ⟨hpos, _, hav, _⟩
  · have := hg.2.2.1
    omega
  · exact ⟨hpos, hav⟩

/-- Witness for C20, with `n = 1`: after one pop the count is 0 and the gate is closed, a
second pop never returns, and after a push the count is 1, the gate is open and a pop
completes. -/
theorem admission_gate_tracks_availability_witness :
    run true (create.set_available_count 1) [PoolCall.pop 7] = .ok pool_limit_1_out ∧
    pool_limit_1_out.available_event_.signal_ = false ∧
    run true create pool_calls_two_pops = .error Fault.blocks ∧
    (run true create pool_calls_pop_push_pop).map (fun p => p.available_count_) = .ok 0 ∧
    (run true (create.set_available_count 1) [PoolCall.pop 7, PoolCall.push 7]).map
      (fun p => (p.available_count_, p.available_event_.signal_)) = .ok (1, true) ∧
    ((pool_limit_1_out.available_event_.signal_ = true ↔
        0 < pool_limit_1_out.available_count_) ∧
      (∀ fresh obj p1 ev, pool_limit_1_out.pop fresh = .ok (obj, p1, ev) →
        0 < pool_limit_1_out.available_count_ ∧
          p1.available_count_ = pool_limit_1_out.available_count_ - 1) ∧
      (∀ fresh, 0 < pool_limit_1_out.available_count_ →
        ∃ obj p1 ev, pool_limit_1_out.pop fresh = .ok (obj, p1, ev)) ∧
      (∀ fresh, pool_limit_1_out.available_count_ ≤ 0 →
        pool_limit_1_out.pop fresh = .error Fault.blocks)) :=
  ⟨by decide, by decide, by decide, by decide, by decide,
    admission_gate_tracks_availability true 1 (by decide) [PoolCall.pop 7]
      (by intro call hc; simp at hc; subst hc; trivial) pool_limit_1_out (by decide)⟩

/-- The loop of `set_max_holding_count` on a list whose length is `current_size`, with a
non-negative ceiling: it deletes the first `|l| - ceiling` objects. -/
theorem trim_loop_spec (m : Int) (hm : 0 ≤ m) :
    ∀ (l : List Nat) (cs d : Int), cs = (l.length : Int) →
      trim_loop m cs l d =
        .ok (l.drop (l.length - m.toNat), d + ((l.length - m.toNat : Nat) : Int),
          (l.take (l.length - m.toNat)).map ObjectEvent.deleted) := by
  intro l
  induction l with
  | nil =>
    intro cs d hcs
    have h : ¬ cs > m := by simp at hcs; omega
    simp [trim_loop, h]
  | cons a r ih =>
    intro cs d hcs
    simp only [List.length_cons] at hcs
    by_cases h : cs > m
    · have hlen : (a :: r).length = r.length + 1 := rfl
      have hk : (a :: r).length - m.toNat = (r.length - m.toNat) + 1 := by
        omega
      have hih := ih (cs - 1) (d + 1) (by omega)
      rw [hk]
      simp only [trim_loop, h, if_true, hih, List.drop_succ_cons, List.take_succ_cons,
        List.map_cons]
      have hd : d + 1 + ((r.length - m.toNat : Nat) : Int) =
          d + ((r.length - m.toNat + 1 : Nat) : Int) := by
        push_cast
        omega
      rw [hd]
    · have hlen : (a :: r).length = r.length + 1 := rfl
      have hk : (a :: r).length - m.toNat = 0 := by
        omega
      rw [hk]
      simp [trim_loop, h]

/-- The bookkeeping after deletions changes neither the idle list nor the two limits. -/
theorem add_deleted_ok {p p1 : ObjectPool} {d : Int} (h : add_deleted p d = .ok p1) :
    p1.object_list_ = p.object_list_ ∧ p1.max_holding_count_ = p.max_holding_count_ ∧
      p1.max_available_count_ = p.max_available_count_ := by
  unfold add_deleted at h
  split at h
  · split at h
    · cases h
    · dsimp only at h
      split at h
      · simp only [Except.ok.injEq] at h
        subst h
        exact ⟨rfl, rfl, rfl⟩
      · simp only [Except.ok.injEq] at h
        subst h
        exact ⟨rfl, rfl, rfl⟩
  · simp only [Except.ok.injEq] at h
    subst h
    exact ⟨rfl, rfl, rfl⟩

/-- The bookkeeping after deletions returns unless an `int` sum overflows. -/
theorem add_deleted_returns (p : ObjectPool) (d : Int)
    (h : p.available_count_ < 0 ∨ p.available_count_ + d ≤ INT_MAX) :
    ∃ p1, add_deleted p d = .ok p1 := by
  unfold add_deleted
  split
  · have hov : ¬ p.available_count_ + d > INT_MAX := by omega
    rw [if_neg hov]
    dsimp only
    split
    · exact ⟨_, rfl⟩
    · exact ⟨_, rfl⟩
  · exact ⟨_, rfl⟩

/-- C21. Resize trims immediately: `set_max_holding_count(c)` with `c < 0` returns false and
changes nothing; with `c >= 0` (on a pool whose idle count is an `int` and whose
availability bookkeeping does not overflow) it returns true, sets the ceiling to `c`, deletes
the `|L| - min(|L|, c)` oldest entries at the front of the idle list `L`, in their order, and
leaves exactly the last `min(|L|, c)` entries of `L` in their order. -/
theorem set_max_holding_count_trims (p : ObjectPool) (c : Int) :
    (c < 0 → p.set_max_holding_count c = .ok (false, p, [])) ∧
    (0 ≤ c → (p.object_list_.length : Int) ≤ INT_MAX →
      (p.available_count_ < 0 ∨
        p.available_count_ +
          ((p.object_list_.length - min p.object_list_.length c.toNat : Nat) : Int) ≤
            INT_MAX) →
      ∃ p1, p.set_max_holding_count c =
          .ok (true, p1,
            (p.object_list_.take
              (p.object_list_.length - min p.object_list_.length c.toNat)).map
                ObjectEvent.deleted) ∧
        p1.max_holding_count_ = c ∧
        p1.object_list_ =
          p.object_list_.drop (p.object_list_.length - min p.object_list_.length c.toNat) ∧
        p1.object_list_.length = min p.object_list_.length c.toNat) := by
  constructor
  · intro hc
    simp [set_max_holding_count, hc]
  · intro hc hlen hov
    have hk : p.object_list_.length - min p.object_list_.length c.toNat =
        p.object_list_.length - c.toNat := by omega
    rw [hk] at hov ⊢
    have hnc : ¬ c < 0 := by omega
    have hspec := trim_loop_spec c hc p.object_list_ (to_int p.object_list_.length) 0
      (to_int_of_le hlen)
    rw [zero_add] at hspec
    obtain ⟨p1, hp1⟩ := add_deleted_returns
      { p with max_holding_count_ := c,
               object_list_ := p.object_list_.drop (p.object_list_.length - c.toNat) }
      ((p.object_list_.length - c.toNat : Nat) : Int) hov
    obtain ⟨hl, hmx, _⟩ := add_deleted_ok hp1
    refine ⟨p1, ?_, hmx, hl, ?_⟩
    · simp only [set_max_holding_count, hnc, if_false, hspec, hp1]
    · rw [hl]
      simp only [List.length_drop]
      omega

/-- Witness for C21: the pool that holds 5, 6, 7 resized to 2 keeps 6, 7 and deletes 5. -/
theorem set_max_holding_count_trims_witness :
    pool_567.set_max_holding_count 2 =
      .ok (true, { create with object_list_ := [6, 7], max_holding_count_ := 2 },
        [ObjectEvent.deleted 5]) ∧
    pool_567.set_max_holding_count (-1) = .ok (false, pool_567, []) ∧
    ∃ p1, pool_567.set_max_holding_count 2 =
        .ok (true, p1,
          (pool_567.object_list_.take
            (pool_567.object_list_.length -
              min pool_567.object_list_.length (2 : Int).toNat)).map
              ObjectEvent.deleted) ∧
      p1.max_holding_count_ = 2 ∧
      p1.object_list_ =
        pool_567.object_list_.drop
          (pool_567.object_list_.length -
            min pool_567.object_list_.length (2 : Int).toNat) ∧
      p1.object_list_.length = min pool_567.object_list_.length (2 : Int).toNat :=
  ⟨by decide, (set_max_holding_count_trims pool_567 (-1)).1 (by decide),
    (set_max_holding_count_trims pool_567 2).2 (by decide) (by decide) (by decide)⟩

/-- Every returning call with `int` arguments keeps the idle list within the ceiling. -/
theorem step_retained (has_clear : Bool) (p : ObjectPool) (call : PoolCall) (p1 : ObjectPool)
    (hr : Retained p) (hcall : call.IntArgument) (hs : step has_clear p call = .ok p1) :
    Retained p1 := by
  obtain ⟨h0, hmax, hlen⟩ := hr
  have hto : to_int p.object_list_.length = p.object_list_.length :=
    to_int_of_le (by omega)
  cases call with
  | pop fresh =>
    cases hp : p.pop fresh with
    | error f => simp [step, hp, Except.map] at hs
    | ok res =>
      obtain ⟨obj, p2, ev⟩ := res
      simp [step, hp, Except.map] at hs
      subst hs
      obtain ⟨hm, _, hl, _⟩ := pop_ok hp
      refine ⟨by rw [hm]; exact h0, by rw [hm]; exact hmax, ?_⟩
      rw [hm, hl]
      have : p.object_list_.tail.length ≤ p.object_list_.length := by simp
      omega
  | push obj =>
    by_cases hobj : obj = 0
    · simp [step, push, hobj, Except.map] at hs
      subst hs
      exact ⟨h0, hmax, hlen⟩
    · obtain ⟨l, ev, hkeep, hres⟩ := push_cases has_clear p obj hobj
      rw [hto] at hkeep
      have hl : (l.length : Int) ≤ p.max_holding_count_ := by
        rcases hkeep with ⟨h1, h2, _⟩ | ⟨_, h2, _⟩
        · rw [h2]
          simp only [List.length_append, List.length_singleton]
          push_cast
          omega
        · rw [h2]; exact hlen
      rcases hres with ⟨_, heq⟩ | ⟨_, heq⟩ | ⟨_, _, heq⟩
      · simp [step, heq, Except.map] at hs
        subst hs
        exact ⟨h0, hmax, hl⟩
      · simp [step, heq, Except.map] at hs
      · simp [step, heq, Except.map] at hs
        subst hs
        exact ⟨h0, hmax, hl⟩
  | reset =>
    have hnot : ¬ (p.object_list_.length : Int) > INT_MAX := by omega
    cases ha : add_deleted { p with object_list_ := [] } (p.object_list_.length : Int) with
    | error f => simp [step, reset, hnot, ha, Except.map] at hs
    | ok p2 =>
      simp [step, reset, hnot, ha, Except.map] at hs
      subst hs
      obtain ⟨hl, hm, _⟩ := add_deleted_ok ha
      refine ⟨by rw [hm]; exact h0, by rw [hm]; exact hmax, ?_⟩
      rw [hl, hm]
      simpa using h0
  | set_max_holding_count c =>
    by_cases hc : c < 0
    · simp [step, set_max_holding_count, hc, Except.map] at hs
      subst hs
      exact ⟨h0, hmax, hlen⟩
    · have hc0 : 0 ≤ c := by omega
      have hspec := trim_loop_spec c hc0 p.object_list_ (to_int p.object_list_.length) 0 hto
      rw [zero_add] at hspec
      cases ha : add_deleted
          { p with max_holding_count_ := c,
                   object_list_ := p.object_list_.drop (p.object_list_.length - c.toNat) }
          ((p.object_list_.length - c.toNat : Nat) : Int) with
      | error f =>
        simp only [step, set_max_holding_count, hc, if_false, hspec, ha, Except.map] at hs
        cases hs
      | ok p2 =>
        simp only [step, set_max_holding_count, hc, if_false, hspec, ha, Except.map,
          Except.ok.injEq] at hs
        subst hs
        obtain ⟨hl, hm, _⟩ := add_deleted_ok ha
        refine ⟨by rw [hm]; exact hc0, by rw [hm]; exact hcall.2, ?_⟩
        rw [hl, hm]
        simp only [List.length_drop]
        omega
  | set_available_count c =>
    simp [step, set_available_count] at hs
    subst hs
    exact ⟨h0, hmax, hlen⟩

/-- C22. Bounded retention: in every state reached from a freshly constructed pool by any
sequence of `pop`, `push`, `reset`, `set_available_count` and accepted or rejected
`set_max_holding_count` calls (with `int` arguments), the number of idle objects in
`object_list_` is at most `max_holding_count_`, and `max_holding_count_` is not negative. -/
theorem retention_bounded (has_clear : Bool) (calls : List PoolCall)
    (hint : ∀ call ∈ calls, call.IntArgument) (p : ObjectPool)
    (hrun : run has_clear create calls = .ok p) :
    (p.object_list_.length : Int) ≤ p.max_holding_count_ ∧ 0 ≤ p.max_holding_count_ := by
  have hinit : Retained create := by
    refine ⟨?_, ?_, ?_⟩
    · show (0 : Int) ≤ 8
      decide
    · show (8 : Int) ≤ INT_MAX
      decide
    · show ((0 : Nat) : Int) ≤ 8
      decide
  have hr : Retained p :=
    pool_run_invariant has_clear Retained PoolCall.IntArgument
      (fun p call p1 h1 h2 h3 => step_retained has_clear p call p1 h1 h2 h3)
      calls _ p hinit hint hrun
  exact ⟨hr.2.2, hr.1⟩

/-- Witness for C22: three check-ins, a resize to 1, a rejected resize, a check-out and a
check-in leave one idle object under the ceiling 1. -/
theorem retention_bounded_witness :
    run true create pool_calls_retention = .ok pool_after_retention ∧
    (pool_after_retention.object_list_.length : Int) ≤
        pool_after_retention.max_holding_count_ ∧
      0 ≤ pool_after_retention.max_holding_count_ :=
  ⟨by decide,
    retention_bounded true pool_calls_retention
      (by
        intro call hc
        simp [pool_calls_retention] at hc
        rcases hc with h | h | h | h | h | h | h <;> subst h <;>
          simp [PoolCall.IntArgument] <;> decide)
      pool_after_retention (by decide)⟩

end ObjectPool

/-! ## A negative capacity -/

namespace Processor

/-- C23, the code at a failing input. A freshly constructed stage after
`set_max_queue_size(-1)` accepts a list of one task: `push_task` returns
`ZFZ_PROCESSOR_SUCCESS`, the task is queued and `current_queue_size_` becomes 1, although
`0 + 1 > -1` over the integers; in the comparison of the code the capacity `-1` is converted
to the `size_t` value `2^64 - 1`. -/
theorem push_task_negative_capacity :
    stage_cap_neg.max_queue_size_ = -1 ∧
    stage_cap_neg.current_queue_size_ + (([⟨0, 7⟩] : TASK_LIST Nat).length : Int) >
      stage_cap_neg.max_queue_size_ ∧
    to_size_t stage_cap_neg.max_queue_size_ = 2 ^ 64 - 1 ∧
    stage_cap_neg.push_task [⟨0, 7⟩] =
      (ZFZ_PROCESSOR_SUCCESS, stage_cap_neg_pushed, [⟨0, 7⟩]) := by
  refine ⟨by decide, by decide, by decide, by decide⟩

end Processor

/-! ## Permits returned by a dequeue -/

namespace Processor

variable {T : Type}

/-- C29, the code at a failing input. A stage that holds three tasks and three permits:
`pop_task` with batch size 3 takes the three tasks and passes 2 permits to `release` (the
wait takes one permit, the count ends at 4); `pop_task` with batch size 5 takes the same
three tasks through the branch that drains the queue and passes nothing to `release` (the
count ends at 2), because `poped_count` is read from `current_queue_size_` after that was
set to 0. -/
theorem pop_task_drain_releases_nothing :
    ({} : Processor Nat).push_task [⟨0, 3⟩, ⟨1, 1⟩, ⟨2, 4⟩] =
      (ZFZ_PROCESSOR_SUCCESS, stage_314, [⟨0, 3⟩, ⟨1, 1⟩, ⟨2, 4⟩]) ∧
    stage_314.pop_task nat_comparison [] 3 200 =
      .ok (ZFZ_PROCESSOR_SUCCESS, stage_314_popped 4, [⟨1, 1⟩, ⟨0, 3⟩, ⟨2, 4⟩]) ∧
    stage_314.pop_task nat_comparison [] 5 200 =
      .ok (ZFZ_PROCESSOR_SUCCESS, stage_314_popped 2, [⟨1, 1⟩, ⟨0, 3⟩, ⟨2, 4⟩]) := by
  refine ⟨by decide, by decide, by decide⟩

/-! ## Dequeues that hand out nothing -/

/-- C26. Non-success dequeues leave the queue alone: when the counter wait of `pop_task`
does not succeed, `pop_task` returns `ZFZ_PROCESSOR_TIME_OUT` and changes nothing in the
stage (but what the wait did to the counter) nor in the output list; when the wait succeeds
and `current_queue_size_ <= 0` it returns `ZFZ_PROCESSOR_QUEUE_EMPTY` and changes only
`queue_full_flag_` (cleared), so the queue, the tracked size, the sorted flag and the output
list are unchanged; `pop_task` returns no code other than SUCCESS, TIME_OUT and
QUEUE_EMPTY. -/
theorem pop_task_non_success (c : Comparison T) (p : Processor T) (tasks : TASK_LIST T)
    (b w : Int) :
    (∀ r sem, p.task_semphore_.wait w = .ok (r, sem) → r ≠ ZFZ_SEMPHORE_SUCCESS →
      p.pop_task c tasks b w =
        .ok (ZFZ_PROCESSOR_TIME_OUT, { p with task_semphore_ := sem }, tasks)) ∧
    (∀ sem, p.task_semphore_.wait w = .ok (ZFZ_SEMPHORE_SUCCESS, sem) →
      p.current_queue_size_ ≤ 0 →
      p.pop_task c tasks b w =
        .ok (ZFZ_PROCESSOR_QUEUE_EMPTY,
          { p with task_semphore_ := sem, queue_full_flag_ := 0 }, tasks)) ∧
    (∀ r p1 out, p.pop_task c tasks b w = .ok (r, p1, out) →
      (r = ZFZ_PROCESSOR_SUCCESS ∨ r = ZFZ_PROCESSOR_TIME_OUT ∨
        r = ZFZ_PROCESSOR_QUEUE_EMPTY) ∧
      (r ≠ ZFZ_PROCESSOR_SUCCESS →
        p1.task_queue_ = p.task_queue_ ∧ p1.current_queue_size_ = p.current_queue_size_ ∧
        p1.queue_ordered_flag_ = p.queue_ordered_flag_ ∧ out = tasks) ∧
      (r = ZFZ_PROCESSOR_TIME_OUT → p1.queue_full_flag_ = p.queue_full_flag_)) := by
  refine ⟨?_, ?_, ?_⟩
  · intro r sem hw hr
    simp only [pop_task, hw, ne_eq, hr, not_false_eq_true, if_true]
  · intro sem hw hs
    have hne : ¬ ZFZ_SEMPHORE_SUCCESS ≠ ZFZ_SEMPHORE_SUCCESS := fun h => h rfl
    simp only [pop_task, hw, hne, if_false]
    obtain ⟨q, f, _, _, hcases⟩ := pop_task_locked_cases c { p with task_semphore_ := sem }
      tasks b
    rcases hcases with ⟨_, heq⟩ | ⟨h0, _⟩ | ⟨h0, _⟩ | ⟨h0, _⟩
    · exact heq
    · exact absurd hs (by simpa using h0)
    · exact absurd hs (by simpa using h0)
    · exact absurd hs (by simpa using h0)
  · intro r p1 out hpop
    rcases pop_task_cases c p tasks b w with ⟨_, _, heq⟩ | ⟨_, _, heq⟩ | ⟨_, heq⟩
    · rw [heq] at hpop
      exact absurd hpop (by simp)
    · rw [heq] at hpop
      simp only [Except.ok.injEq, Prod.mk.injEq] at hpop
      obtain ⟨hr, hp1, hout⟩ := hpop
      subst hr hp1 hout
      exact ⟨Or.inr (Or.inl rfl), fun _ => ⟨rfl, rfl, rfl, rfl⟩, fun _ => rfl⟩
    · rw [heq] at hpop
      obtain ⟨q, f, _, _, hcases⟩ := pop_task_locked_cases c
        { p with task_semphore_ := { count := p.task_semphore_.count - 1 } } tasks b
      rcases hcases with ⟨_, heq2⟩ | ⟨_, _, _, _, heq2⟩ | ⟨_, _, _, _, heq2⟩ | ⟨_, _, heq2⟩ <;>
        rw [heq2] at hpop
      · simp only [Except.ok.injEq, Prod.mk.injEq] at hpop
        obtain ⟨hr, hp1, hout⟩ := hpop
        subst hr hp1 hout
        refine ⟨Or.inr (Or.inr rfl), fun _ => ⟨rfl, rfl, rfl, rfl⟩, fun h => ?_⟩
        exact absurd h (by decide)
      · exact absurd hpop (by simp)
      · simp only [Except.ok.injEq, Prod.mk.injEq] at hpop
        obtain ⟨hr, _, _⟩ := hpop
        subst hr
        exact ⟨Or.inl rfl, fun h => absurd rfl h, fun h => absurd h (by decide)⟩
      · simp only [Except.ok.injEq, Prod.mk.injEq] at hpop
        obtain ⟨hr, _, _⟩ := hpop
        subst hr
        exact ⟨Or.inl rfl, fun h => absurd rfl h, fun h => absurd h (by decide)⟩

/-- Witness for C26: a poll of a freshly constructed stage times out, and a dequeue from a
stage with a permit and no task finds the queue empty. -/
theorem pop_task_non_success_witness :
    ({} : Processor Nat).pop_task nat_comparison [⟨9, 9⟩] 1 0 =
      .ok (ZFZ_PROCESSOR_TIME_OUT, {}, [⟨9, 9⟩]) ∧
    stage_stale_permit.pop_task nat_comparison [⟨9, 9⟩] 1 200 =
      .ok (ZFZ_PROCESSOR_QUEUE_EMPTY,
        { stage_stale_permit with task_semphore_ := { count := 0 }, queue_full_flag_ := 0 },
        [⟨9, 9⟩]) :=
  ⟨(pop_task_non_success nat_comparison {} [⟨9, 9⟩] 1 0).1 ZFZ_SEMPHORE_TIME_OUT {}
      (by decide) (by decide),
    (pop_task_non_success nat_comparison stage_stale_permit [⟨9, 9⟩] 1 200).2.1
      { count := 0 } (by decide) (by decide)⟩

/-! ## The queue-full flag -/

/-- C27. Queue-full flag transitions, for a stage whose `queue_full_flag_` is 0 or 1 (the
only values the code assigns): a `push_task` call that returns `ZFZ_PROCESSOR_QUEUE_FULL`
(which it does only for a non-empty list when the capacity test
`current_queue_size_ + task_size > max_queue_size_` holds) leaves the flag at 1; a
`push_task` call that returns `ZFZ_PROCESSOR_SUCCESS` leaves the flag unchanged; a
`pop_task` call that returns `ZFZ_PROCESSOR_SUCCESS` leaves the flag at 0; a `pop_task`
call that times out leaves it unchanged; and no `pop_task` call takes the flag from 0 to
1. -/
theorem queue_full_flag_transitions (c : Comparison T) (p : Processor T)
    (tasks out : TASK_LIST T) (b w : Int)
    (hflag : p.queue_full_flag_ = 0 ∨ p.queue_full_flag_ = 1) :
    ((p.push_task tasks).1 = ZFZ_PROCESSOR_QUEUE_FULL →
      (p.push_task tasks).2.1.queue_full_flag_ = 1 ∧ tasks ≠ [] ∧
      size_t_add (to_size_t p.current_queue_size_) tasks.length >
        to_size_t p.max_queue_size_) ∧
    ((p.push_task tasks).1 = ZFZ_PROCESSOR_SUCCESS →
      (p.push_task tasks).2.1.queue_full_flag_ = p.queue_full_flag_) ∧
    ((p.push_task tasks).1 = ZFZ_PROCESSOR_QUEUE_FULL ∨
      (p.push_task tasks).1 = ZFZ_PROCESSOR_SUCCESS) ∧
    (∀ r p1 out1, p.pop_task c out b w = .ok (r, p1, out1) →
      (r = ZFZ_PROCESSOR_SUCCESS → p1.queue_full_flag_ = 0) ∧
      (r = ZFZ_PROCESSOR_TIME_OUT → p1.queue_full_flag_ = p.queue_full_flag_) ∧
      (p1.queue_full_flag_ = 0 ∨ p1.queue_full_flag_ = p.queue_full_flag_)) := by
  have hqs : ZFZ_PROCESSOR_QUEUE_FULL ≠ ZFZ_PROCESSOR_SUCCESS := by decide
  refine ⟨?_, ?_, ?_, ?_⟩
  · intro hr
    rcases push_task_cases p tasks with ⟨_, heq⟩ | ⟨hne, htest, heq⟩ | ⟨_, _, heq⟩
    · rw [heq] at hr
      exact absurd hr.symm hqs
    · rw [heq]
      refine ⟨?_, hne, htest⟩
      rcases hflag with h0 | h1
      · simp [h0]
      · simp [h1]
    · rw [heq] at hr
      exact absurd hr.symm hqs
  · intro hr
    rcases push_task_cases p tasks with ⟨_, heq⟩ | ⟨_, _, heq⟩ | ⟨_, _, heq⟩
    · rw [heq]
    · rw [heq] at hr
      exact absurd hr hqs
    · rw [heq]
  · rcases push_task_cases p tasks with ⟨_, heq⟩ | ⟨_, _, heq⟩ | ⟨_, _, heq⟩
    · exact Or.inr (by rw [heq])
    · exact Or.inl (by rw [heq])
    · exact Or.inr (by rw [heq])
  · intro r p1 out1 hpop
    rcases pop_task_cases c p out b w with ⟨_, _, heq⟩ | ⟨_, _, heq⟩ | ⟨_, heq⟩
    · rw [heq] at hpop
      exact absurd hpop (by simp)
    · rw [heq] at hpop
      simp only [Except.ok.injEq, Prod.mk.injEq] at hpop
      obtain ⟨hr, hp1, _⟩ := hpop
      subst hr hp1
      exact ⟨fun h => absurd h (by decide), fun _ => rfl, Or.inr rfl⟩
    · rw [heq] at hpop
      obtain ⟨q, f, _, _, hcases⟩ := pop_task_locked_cases c
        { p with task_semphore_ := { count := p.task_semphore_.count - 1 } } out b
      rcases hcases with ⟨_, heq2⟩ | ⟨_, _, _, _, heq2⟩ | ⟨_, _, _, _, heq2⟩ | ⟨_, _, heq2⟩ <;>
        rw [heq2] at hpop
      · simp only [Except.ok.injEq, Prod.mk.injEq] at hpop
        obtain ⟨hr, hp1, _⟩ := hpop
        subst hr hp1
        exact ⟨fun _ => rfl, fun h => absurd h (by decide), Or.inl rfl⟩
      · exact absurd hpop (by simp)
      · simp only [Except.ok.injEq, Prod.mk.injEq] at hpop
        obtain ⟨hr, hp1, _⟩ := hpop
        subst hr hp1
        exact ⟨fun _ => rfl, fun h => absurd h (by decide), Or.inl rfl⟩
      · simp only [Except.ok.injEq, Prod.mk.injEq] at hpop
        obtain ⟨hr, hp1, _⟩ := hpop
        subst hr hp1
        exact ⟨fun _ => rfl, fun h => absurd h (by decide), Or.inl rfl⟩

/-- Witness for C27: the full stage D1 rejects a task and raises its flag; a dequeue from
`stage_1_of_2` leaves the flag at 0. -/
theorem queue_full_flag_transitions_witness :
    (stage_D1.push_task [⟨5, 9⟩]).1 = ZFZ_PROCESSOR_QUEUE_FULL ∧
    (stage_D1.push_task [⟨5, 9⟩]).2.1.queue_full_flag_ = 1 ∧
    stage_1_of_2.pop_task nat_comparison [] 1 200 =
      .ok (ZFZ_PROCESSOR_SUCCESS, stage_1_of_2_popped, [⟨0, 7⟩]) ∧
    stage_1_of_2_popped.queue_full_flag_ = 0 :=
  ⟨by decide,
    ((queue_full_flag_transitions nat_comparison stage_D1 [⟨5, 9⟩] [] 1 200
      (Or.inl (by decide))).1 (by decide)).1,
    by decide,
    ((queue_full_flag_transitions nat_comparison stage_1_of_2 [] [] 1 200
      (Or.inl (by decide))).2.2.2 ZFZ_PROCESSOR_SUCCESS stage_1_of_2_popped [⟨0, 7⟩]
      (by decide)).1 rfl⟩

end Processor

/-! ## Dispatch in the worker loop -/

namespace Processor

variable {T : Type}

/-- A `pop_task` call that does not return `ZFZ_PROCESSOR_SUCCESS` returns one of the two
other codes and leaves the output list as it was. -/
theorem pop_task_no_batch {c : Comparison T} {p p1 : Processor T} {tasks out : TASK_LIST T}
    {b w r : Int} (hpop : p.pop_task c tasks b w = .ok (r, p1, out)) :
    (r = ZFZ_PROCESSOR_SUCCESS ∨ r = ZFZ_PROCESSOR_TIME_OUT ∨ r = ZFZ_PROCESSOR_QUEUE_EMPTY) ∧
      (r ≠ ZFZ_PROCESSOR_SUCCESS → out = tasks) := by
  rcases pop_task_cases c p tasks b w with ⟨_, _, heq⟩ | ⟨_, _, heq⟩ | ⟨_, heq⟩
  · rw [heq] at hpop
    exact absurd hpop (by simp)
  · rw [heq] at hpop
    simp only [Except.ok.injEq, Prod.mk.injEq] at hpop
    exact ⟨Or.inr (Or.inl hpop.1.symm), fun _ => hpop.2.2.symm⟩
  · rw [heq] at hpop
    obtain ⟨q, f, _, _, hcases⟩ := pop_task_locked_cases c
      { p with task_semphore_ := { count := p.task_semphore_.count - 1 } } tasks b
    rcases hcases with ⟨_, heq2⟩ | ⟨_, _, _, _, heq2⟩ | ⟨_, _, _, _, heq2⟩ | ⟨_, _, heq2⟩ <;>
      rw [heq2] at hpop
    · simp only [Except.ok.injEq, Prod.mk.injEq] at hpop
      exact ⟨Or.inr (Or.inr hpop.1.symm), fun _ => hpop.2.2.symm⟩
    · exact absurd hpop (by simp)
    · simp only [Except.ok.injEq, Prod.mk.injEq] at hpop
      exact ⟨Or.inl hpop.1.symm, fun h => absurd hpop.1.symm h⟩
    · simp only [Except.ok.injEq, Prod.mk.injEq] at hpop
      exact ⟨Or.inl hpop.1.symm, fun h => absurd hpop.1.symm h⟩

/-- C24. Worker-loop dispatch: in an iteration of the loop of `thread_funciton` that starts
with an empty local list and in which the quit flag is not set when `pop_task` returns, the
result code alone decides what is done.  On `ZFZ_PROCESSOR_SUCCESS` `handle_task` is invoked
once on the batch, then `fan_out` once on the same list (as `handle_task` left it), then the
local list is cleared; on `ZFZ_PROCESSOR_TIME_OUT` only `handle_timeout` is invoked, once;
on `ZFZ_PROCESSOR_QUEUE_EMPTY` nothing is invoked.  `pop_task` returns no other code, and in
the three cases the loop goes on with an empty local list. -/
theorem worker_loop_dispatch (c : Comparison T) (handle_task : TASK_LIST T → TASK_LIST T)
    (hook : Int → Nat → TASK_LIST T → Int) (self : Nat) (b w : Int) (s : Worker T)
    (p p1 : Processor T) (r : Int) (out : TASK_LIST T)
    (hself : s.heap self = some p) (hempty : s.tasks = [])
    (hpop : p.pop_task c s.tasks b w = .ok (r, p1, out)) :
    (r = ZFZ_PROCESSOR_SUCCESS ∨ r = ZFZ_PROCESSOR_TIME_OUT ∨ r = ZFZ_PROCESSOR_QUEUE_EMPTY) ∧
    (r = ZFZ_PROCESSOR_SUCCESS →
      ∀ o, fan_out hook (Function.update s.heap self (some p1)) self (handle_task out) = .ok o →
        thread_iteration c handle_task hook self b w false s =
          .ok { heap := o.heap, tasks := [],
                events := s.events ++
                  [WorkerEvent.handle_task out, WorkerEvent.fan_out (handle_task out)],
                running := s.running }) ∧
    (r = ZFZ_PROCESSOR_TIME_OUT →
      thread_iteration c handle_task hook self b w false s =
        .ok { heap := Function.update s.heap self (some p1), tasks := [],
              events := s.events ++ [WorkerEvent.handle_timeout],
              running := s.running }) ∧
    (r = ZFZ_PROCESSOR_QUEUE_EMPTY →
      thread_iteration c handle_task hook self b w false s =
        .ok { heap := Function.update s.heap self (some p1), tasks := [],
              events := s.events, running := s.running }) := by
  obtain ⟨hcodes, hout⟩ := pop_task_no_batch hpop
  have hst : ¬ ZFZ_PROCESSOR_TIME_OUT = ZFZ_PROCESSOR_SUCCESS := by decide
  have hse : ¬ ZFZ_PROCESSOR_QUEUE_EMPTY = ZFZ_PROCESSOR_SUCCESS := by decide
  have het : ¬ ZFZ_PROCESSOR_QUEUE_EMPTY = ZFZ_PROCESSOR_TIME_OUT := by decide
  refine ⟨hcodes, ?_, ?_, ?_⟩
  · intro hr o ho
    subst hr
    simp only [thread_iteration, hself, hpop, Bool.false_eq_true, if_false, if_true, ho]
  · intro hr
    subst hr
    have hnil : out = [] := by rw [hout hst, hempty]
    subst hnil
    simp only [thread_iteration, hself, hpop, Bool.false_eq_true, if_false, if_true, hst]
  · intro hr
    subst hr
    have hnil : out = [] := by rw [hout hse, hempty]
    subst hnil
    simp only [thread_iteration, hself, hpop, Bool.false_eq_true, if_false, hse, het]

/-- Witness for C24: a worker of `stage_1_of_2` (no downstream stage) with batch size 1
dequeues the task, handles it, fans it out and clears its list. -/
theorem worker_loop_dispatch_witness :
    heap_one 1 = some stage_1_of_2 ∧
    stage_1_of_2.pop_task nat_comparison [] 1 200 =
      .ok (ZFZ_PROCESSOR_SUCCESS, stage_1_of_2_popped, [⟨0, 7⟩]) ∧
    thread_iteration nat_comparison id handle_fan_out_error 1 1 200 false { heap := heap_one } =
      .ok { heap := Function.update heap_one 1 (some stage_1_of_2_popped), tasks := [],
            events := [WorkerEvent.handle_task [⟨0, 7⟩], WorkerEvent.fan_out [⟨0, 7⟩]],
            running := true } :=
  ⟨by decide, by decide,
    (worker_loop_dispatch nat_comparison id handle_fan_out_error 1 1 200 { heap := heap_one }
      stage_1_of_2 stage_1_of_2_popped ZFZ_PROCESSOR_SUCCESS [⟨0, 7⟩] (by decide) rfl
      (by decide)).2.1 rfl
      { result := ZFZ_PROCESSOR_SUCCESS,
        heap := Function.update heap_one 1 (some stage_1_of_2_popped),
        tasks := [⟨0, 7⟩], attempted := [], errors := [] }
      (by simp [fan_out, fan_out_loop, stage_1_of_2_popped])⟩

/-! ## The list of downstream stages -/

/-- The loop of `add_next_processor` finds an entry exactly when the stage is registered. -/
theorem add_next_processor_loop_iff (p : Nat) (l : List Nat) :
    add_next_processor_loop p l = true ↔ p ∈ l := by
  induction l with
  | nil => simp [add_next_processor_loop]
  | cons a l ih =>
    by_cases h : a = p
    · simp [add_next_processor_loop, h]
    · have h2 : ¬ p = a := fun e => h e.symm
      simp [add_next_processor_loop, h, h2, ih]

/-- The loop of `remove_next_processor` erases the first entry equal to `p`. -/
theorem remove_next_processor_loop_eq (p : Nat) (l : List Nat) :
    remove_next_processor_loop p l = if p ∈ l then some (l.erase p) else none := by
  induction l with
  | nil => simp [remove_next_processor_loop]
  | cons a l ih =>
    by_cases h : a = p
    · subst h
      simp [remove_next_processor_loop]
    · have h2 : ¬ p = a := fun e => h e.symm
      have h3 : (a == p) = false := by simpa using h
      simp only [remove_next_processor_loop, h, if_false, ih, List.mem_cons, h2, false_or,
        List.erase_cons, h3, Bool.false_eq_true]
      split <;> simp

/-- Every call keeps the list of downstream stages free of the null pointer and of
repetitions. -/
theorem link_step_nodup (self : Processor T) (call : LinkCall)
    (h : self.next_processors_.Nodup ∧ 0 ∉ self.next_processors_) :
    (self.link_step call).next_processors_.Nodup ∧
      0 ∉ (self.link_step call).next_processors_ := by
  cases call with
  | add_next_processor p =>
    by_cases hp : p = 0
    · simpa [link_step, add_next_processor, hp] using h
    · by_cases hmem : p ∈ self.next_processors_
      · have hl := (add_next_processor_loop_iff p self.next_processors_).mpr hmem
        simpa [link_step, add_next_processor, hp, hl] using h
      · have hl : ¬ add_next_processor_loop p self.next_processors_ = true :=
          fun e => hmem ((add_next_processor_loop_iff p self.next_processors_).mp e)
        simp only [link_step, add_next_processor, hp, hl, if_false, Bool.false_eq_true]
        refine ⟨?_, ?_⟩
        · rw [List.nodup_append]
          refine ⟨h.1, List.nodup_singleton p, ?_⟩
          intro a ha hb
          simp only [List.mem_singleton] at hb
          exact hmem (hb ▸ ha)
        · intro h0
          rcases List.mem_append.mp h0 with h1 | h1
          · exact h.2 h1
          · simp only [List.mem_singleton] at h1
            exact hp h1.symm
  | remove_next_processor p =>
    simp only [link_step, remove_next_processor, remove_next_processor_loop_eq]
    by_cases hmem : p ∈ self.next_processors_
    · simp only [hmem, if_true]
      exact ⟨h.1.erase p, fun h0 => h.2 (List.mem_of_mem_erase h0)⟩
    · simp only [hmem, if_false]
      exact h

/-- C30. Downstream list stays duplicate-free: `add_next_processor(p)` returns
`ZFZ_PROCESSOR_FAIL` and leaves `next_processors_` unchanged when `p` is null or already
registered, and otherwise appends `p` at the end and returns `ZFZ_PROCESSOR_SUCCESS`;
`remove_next_processor(p)` returns `ZFZ_PROCESSOR_SUCCESS` and erases the entry equal to `p`
(the only one, so `p` is no longer registered) when `p` is registered, and returns
`ZFZ_PROCESSOR_FAIL` leaving the list unchanged otherwise.  Hence, from a list without null
and without repetition (such as the empty list of a new stage), after every sequence of
these calls the list contains no null and no repeated stage; and a successful
`add_next_processor(p)` followed by `remove_next_processor(p)` restores the stage. -/
theorem next_processors_duplicate_free (self : Processor T) (p : Nat) (calls : List LinkCall)
    (hnodup : self.next_processors_.Nodup) (hnull : 0 ∉ self.next_processors_) :
    (p = 0 ∨ p ∈ self.next_processors_ →
      self.add_next_processor p = (ZFZ_PROCESSOR_FAIL, self)) ∧
    (p ≠ 0 ∧ p ∉ self.next_processors_ →
      self.add_next_processor p =
        (ZFZ_PROCESSOR_SUCCESS,
          { self with next_processors_ := self.next_processors_ ++ [p] })) ∧
    (p ∈ self.next_processors_ →
      self.remove_next_processor p =
        (ZFZ_PROCESSOR_SUCCESS,
          { self with next_processors_ := self.next_processors_.erase p }) ∧
      p ∉ self.next_processors_.erase p ∧
      (self.next_processors_.erase p).length + 1 = self.next_processors_.length ∧
      ∀ d, d ≠ p → (d ∈ self.next_processors_.erase p ↔ d ∈ self.next_processors_)) ∧
    (p ∉ self.next_processors_ →
      self.remove_next_processor p = (ZFZ_PROCESSOR_FAIL, self)) ∧
    ((self.link_run calls).next_processors_.Nodup ∧
      0 ∉ (self.link_run calls).next_processors_) ∧
    ((self.add_next_processor p).1 = ZFZ_PROCESSOR_SUCCESS →
      (self.add_next_processor p).2.remove_next_processor p =
        (ZFZ_PROCESSOR_SUCCESS, self)) := by
  have hfs : ¬ ZFZ_PROCESSOR_FAIL = ZFZ_PROCESSOR_SUCCESS := by decide
  have hadd_fail : p = 0 ∨ p ∈ self.next_processors_ →
      self.add_next_processor p = (ZFZ_PROCESSOR_FAIL, self) := by
    intro h
    by_cases hp : p = 0
    · simp [add_next_processor, hp]
    · have hmem : p ∈ self.next_processors_ := h.resolve_left hp
      have hl := (add_next_processor_loop_iff p self.next_processors_).mpr hmem
      simp [add_next_processor, hp, hl]
  have hadd_ok : p ≠ 0 ∧ p ∉ self.next_processors_ →
      self.add_next_processor p =
        (ZFZ_PROCESSOR_SUCCESS,
          { self with next_processors_ := self.next_processors_ ++ [p] }) := by
    intro h
    have hl : ¬ add_next_processor_loop p self.next_processors_ = true :=
      fun e => h.2 ((add_next_processor_loop_iff p self.next_processors_).mp e)
    simp only [add_next_processor, h.1, hl, if_false, Bool.false_eq_true]
  refine ⟨hadd_fail, hadd_ok, ?_, ?_, ?_, ?_⟩
  · intro hmem
    refine ⟨?_, ?_, ?_, ?_⟩
    · simp only [remove_next_processor, remove_next_processor_loop_eq, hmem, if_true]
    · exact fun h => (List.Nodup.mem_erase_iff hnodup).mp h |>.1 rfl
    · rw [List.length_erase_of_mem hmem]
      have : 0 < self.next_processors_.length := List.length_pos_of_mem hmem
      omega
    · intro d hd
      exact List.mem_erase_of_ne hd
  · intro hmem
    simp only [remove_next_processor, remove_next_processor_loop_eq, hmem, if_false]
  · have key : ∀ (calls : List LinkCall) (q : Processor T),
        q.next_processors_.Nodup ∧ 0 ∉ q.next_processors_ →
        (q.link_run calls).next_processors_.Nodup ∧
          0 ∉ (q.link_run calls).next_processors_ := by
      intro calls
      induction calls with
      | nil => intro q hq; exact hq
      | cons call calls ih =>
        intro q hq
        exact ih (q.link_step call) (link_step_nodup q call hq)
    exact key calls self ⟨hnodup, hnull⟩
  · intro hr
    by_cases hbad : p = 0 ∨ p ∈ self.next_processors_
    · rw [hadd_fail hbad] at hr
      exact absurd hr hfs
    · have hp : p ≠ 0 := fun e => hbad (Or.inl e)
      have hmem : p ∉ self.next_processors_ := fun e => hbad (Or.inr e)
      rw [hadd_ok ⟨hp, hmem⟩]
      have hin : p ∈ self.next_processors_ ++ [p] := by simp
      simp only [remove_next_processor, remove_next_processor_loop_eq, hin, if_true]
      rw [List.erase_append_right _ hmem]
      simp

/-- Witness for C30: on a new stage, registering 1, 2, null and 1 again and removing 1 and
the unregistered 5 leaves the list `[2]`. -/
theorem next_processors_duplicate_free_witness :
    (({} : Processor Nat).link_run link_calls).next_processors_ = [2] ∧
    ({} : Processor Nat).add_next_processor 1 =
      (ZFZ_PROCESSOR_SUCCESS, { next_processors_ := [1] }) ∧
    ((({} : Processor Nat).link_run link_calls).next_processors_.Nodup ∧
      0 ∉ (({} : Processor Nat).link_run link_calls).next_processors_) ∧
    (({} : Processor Nat).add_next_processor 1).2.remove_next_processor 1 =
      (ZFZ_PROCESSOR_SUCCESS, {}) :=
  ⟨by decide, by decide,
    (next_processors_duplicate_free ({} : Processor Nat) 1 link_calls (by decide)
      (by decide)).2.2.2.2.1,
    (next_processors_duplicate_free ({} : Processor Nat) 1 link_calls (by decide)
      (by decide)).2.2.2.2.2 (by decide)⟩

end Processor

/-! ## Lazy sorting -/

namespace Processor

variable {T : Type}

/-- The record of the sort does not change the locked part of `pop_task`. -/
theorem pop_task_locked_traced_snd (c : Comparison T) (p : Processor T) (tasks : TASK_LIST T)
    (b : Int) : (pop_task_locked_traced c p tasks b).2 = pop_task_locked c p tasks b := by
  unfold pop_task_locked_traced pop_task_locked
  by_cases hfull : p.queue_full_flag_ = 0 <;> by_cases hsize : p.current_queue_size_ ≤ 0 <;>
    by_cases hord : p.queue_ordered_flag_ = 0 <;> simp [hfull, hsize, hord]

/-- In the locked part of `pop_task` the sort is called exactly when the tracked size is
positive and the sorted flag is 0. -/
theorem pop_task_locked_traced_fst (c : Comparison T) (p : Processor T) (tasks : TASK_LIST T)
    (b : Int) :
    (pop_task_locked_traced c p tasks b).1 = true ↔
      0 < p.current_queue_size_ ∧ p.queue_ordered_flag_ = 0 := by
  unfold pop_task_locked_traced
  by_cases hfull : p.queue_full_flag_ = 0 <;> by_cases hsize : p.current_queue_size_ ≤ 0 <;>
    by_cases hord : p.queue_ordered_flag_ = 0 <;> simp [hfull, hsize, hord] <;> omega

/-- The record of the sort does not change `pop_task`. -/
theorem pop_task_traced_snd (c : Comparison T) (p : Processor T) (tasks : TASK_LIST T)
    (b w : Int) : (pop_task_traced c p tasks b w).2 = pop_task c p tasks b w := by
  unfold pop_task_traced pop_task
  cases hw : p.task_semphore_.wait w with
  | error f => rfl
  | ok res =>
    obtain ⟨r, sem⟩ := res
    by_cases hr : r = ZFZ_SEMPHORE_SUCCESS
    · simp only [hr, ne_eq, not_true_eq_false, if_false]
      exact pop_task_locked_traced_snd c _ tasks b
    · simp only [ne_eq, hr, not_false_eq_true, if_true]

/-- The counter wait succeeds exactly when the counter holds a permit. -/
theorem wait_success_iff (s : Semphore) (w : Int) :
    (∃ sem, s.wait w = .ok (ZFZ_SEMPHORE_SUCCESS, sem)) ↔ 0 < s.count := by
  unfold Semphore.wait
  by_cases hc : s.count > 0
  · simp [hc]
  · by_cases hw : w < 0
    · simp [hc, hw]
    · simp [hc, hw, ZFZ_SEMPHORE_TIME_OUT, ZFZ_SEMPHORE_SUCCESS]

/-- In `pop_task` the sort is called exactly when the counter wait succeeds, the tracked size
is positive and the sorted flag is 0. -/
theorem pop_task_traced_fst (c : Comparison T) (p : Processor T) (tasks : TASK_LIST T)
    (b w : Int) :
    (pop_task_traced c p tasks b w).1 = true ↔
      (∃ sem, p.task_semphore_.wait w = .ok (ZFZ_SEMPHORE_SUCCESS, sem)) ∧
        0 < p.current_queue_size_ ∧ p.queue_ordered_flag_ = 0 := by
  unfold pop_task_traced
  cases hw : p.task_semphore_.wait w with
  | error f => simp
  | ok res =>
    obtain ⟨r, sem⟩ := res
    by_cases hr : r = ZFZ_SEMPHORE_SUCCESS
    · subst hr
      simp only [ne_eq, not_true_eq_false, if_false, pop_task_locked_traced_fst,
        Except.ok.injEq, Prod.mk.injEq, true_and, exists_eq', true_and]
    · have hno : ¬ ∃ sem1, (Except.ok (r, sem) : Except Fault (Int × Semphore)) =
          Except.ok (ZFZ_SEMPHORE_SUCCESS, sem1) := by
        rintro ⟨sem1, h1⟩
        simp only [Except.ok.injEq, Prod.mk.injEq] at h1
        exact hr h1.1
      simp only [ne_eq, hr, not_false_eq_true, if_true, Bool.false_eq_true, false_iff, not_and]
      intro hex
      exact absurd hex hno

/-- What the locked part of `pop_task` that returns does to the sorted flag and to the
order of the tasks, by whether the sort was called. -/
theorem pop_task_locked_sort_effect {c : Comparison T} {p p1 : Processor T}
    {tasks out : TASK_LIST T} {b r : Int}
    (hpop : pop_task_locked c p tasks b = .ok (r, p1, out)) :
    ((pop_task_locked_traced c p tasks b).1 = true →
      p1.queue_ordered_flag_ = 1 ∧
      out ++ p1.task_queue_ = tasks ++ list_sort (compare_shared_ptr_t c) p.task_queue_) ∧
    ((pop_task_locked_traced c p tasks b).1 = false →
      p1.queue_ordered_flag_ = p.queue_ordered_flag_ ∧
      out ++ p1.task_queue_ = tasks ++ p.task_queue_) := by
  have hiff := pop_task_locked_traced_fst c p tasks b
  obtain ⟨q, f, hq, hf, hcases⟩ := pop_task_locked_cases c p tasks b
  have hq1 : (pop_task_locked_traced c p tasks b).1 = true →
      q = list_sort (compare_shared_ptr_t c) p.task_queue_ ∧ f = 1 := by
    intro hs
    have h0 := (hiff.mp hs).2
    rw [hq, hf]
    simp [h0]
  have hq0 : 0 < p.current_queue_size_ → (pop_task_locked_traced c p tasks b).1 = false →
      q = p.task_queue_ ∧ f = p.queue_ordered_flag_ := by
    intro hsize hs
    have h0 : ¬ p.queue_ordered_flag_ = 0 := by
      intro h0
      have : (pop_task_locked_traced c p tasks b).1 = true := hiff.mpr ⟨hsize, h0⟩
      rw [hs] at this
      exact absurd this (by simp)
    rw [hq, hf]
    simp [h0]
  rcases hcases with ⟨hz, heq2⟩ | ⟨_, _, _, _, heq2⟩ | ⟨hpos, _, _, _, heq2⟩ |
    ⟨hpos, _, heq2⟩ <;> rw [heq2] at hpop
  · simp only [Except.ok.injEq, Prod.mk.injEq] at hpop
    obtain ⟨_, hp1, hout⟩ := hpop
    subst hp1 hout
    refine ⟨fun hs => ?_, fun _ => ⟨rfl, rfl⟩⟩
    have := (hiff.mp hs).1
    omega
  · exact absurd hpop (by simp)
  · simp only [Except.ok.injEq, Prod.mk.injEq] at hpop
    obtain ⟨_, hp1, hout⟩ := hpop
    subst hp1 hout
    refine ⟨fun hs => ?_, fun hs => ?_⟩
    · obtain ⟨e1, e2⟩ := hq1 hs
      refine ⟨e2, ?_⟩
      simp only [List.append_assoc, List.take_append_drop]
      rw [e1]
    · obtain ⟨e1, e2⟩ := hq0 hpos hs
      refine ⟨e2, ?_⟩
      simp only [List.append_assoc, List.take_append_drop]
      rw [e1]
  · simp only [Except.ok.injEq, Prod.mk.injEq] at hpop
    obtain ⟨_, hp1, hout⟩ := hpop
    subst hp1 hout
    refine ⟨fun hs => ?_, fun hs => ?_⟩
    · obtain ⟨e1, e2⟩ := hq1 hs
      refine ⟨e2, ?_⟩
      simp only [List.append_nil]
      rw [e1]
    · obtain ⟨e1, e2⟩ := hq0 hpos hs
      refine ⟨e2, ?_⟩
      simp only [List.append_nil]
      rw [e1]

/-- What a `pop_task` call that returns does to the sorted flag and to the order of the
tasks, by whether the sort was called. -/
theorem pop_task_sort_effect {c : Comparison T} {p p1 : Processor T} {tasks out : TASK_LIST T}
    {b w r : Int} (hpop : p.pop_task c tasks b w = .ok (r, p1, out)) :
    ((pop_task_traced c p tasks b w).1 = true →
      p1.queue_ordered_flag_ = 1 ∧
      out ++ p1.task_queue_ = tasks ++ list_sort (compare_shared_ptr_t c) p.task_queue_) ∧
    ((pop_task_traced c p tasks b w).1 = false →
      p1.queue_ordered_flag_ = p.queue_ordered_flag_ ∧
      out ++ p1.task_queue_ = tasks ++ p.task_queue_) := by
  cases hw : p.task_semphore_.wait w with
  | error f => simp [pop_task, hw] at hpop
  | ok res =>
    obtain ⟨r1, sem⟩ := res
    by_cases hr : r1 = ZFZ_SEMPHORE_SUCCESS
    · subst hr
      have htr : pop_task_traced c p tasks b w =
          pop_task_locked_traced c { p with task_semphore_ := sem } tasks b := by
        simp only [pop_task_traced, hw, ne_eq, not_true_eq_false, if_false]
      have hlk : pop_task_locked c { p with task_semphore_ := sem } tasks b =
          .ok (r, p1, out) := by
        simpa only [pop_task, hw, ne_eq, not_true_eq_false, if_false] using hpop
      rw [htr]
      exact pop_task_locked_sort_effect hlk
    · have htr : (pop_task_traced c p tasks b w).1 = false := by
        simp only [pop_task_traced, hw, ne_eq, hr, not_false_eq_true, if_true]
      simp only [pop_task, hw, ne_eq, hr, not_false_eq_true, if_true, Except.ok.injEq,
        Prod.mk.injEq] at hpop
      obtain ⟨_, hp1, hout⟩ := hpop
      subst hp1 hout
      refine ⟨fun hs => ?_, fun _ => ⟨rfl, rfl⟩⟩
      rw [htr] at hs
      exact absurd hs (by simp)

/-- A `push_task` call clears the sorted flag exactly when it accepts a non-empty list. -/
theorem push_task_flag_effect (p : Processor T) (tasks : TASK_LIST T) :
    (p.push_task tasks).2.1.queue_ordered_flag_ =
      if (!tasks.isEmpty && decide ((p.push_task tasks).1 = ZFZ_PROCESSOR_SUCCESS)) = true
      then 0 else p.queue_ordered_flag_ := by
  have hqs : ¬ ZFZ_PROCESSOR_QUEUE_FULL = ZFZ_PROCESSOR_SUCCESS := by decide
  rcases push_task_cases p tasks with ⟨hnil, heq⟩ | ⟨_, _, heq⟩ | ⟨hne, _, heq⟩
  · rw [heq, hnil]
    simp
  · rw [heq]
    simp [hqs]
  · rw [heq]
    have : tasks.isEmpty = false := by
      cases tasks with
      | nil => exact absurd rfl hne
      | cons a l => rfl
    simp [this]

end Processor

namespace History

variable {T : Type}

/-- A `push_task` call in a sequence returns, and clears the sorted flag exactly when it
submits. -/
theorem push_call_flag (c : Comparison T) (h : History T) (tasks : TASK_LIST T) :
    ∃ h1, free_step c h (FreeCall.push_task tasks) = .ok h1 ∧
      h1.stage.queue_ordered_flag_ =
        if h.submits (FreeCall.push_task tasks) = true then 0
        else h.stage.queue_ordered_flag_ := by
  have hflag := Processor.push_task_flag_effect h.stage tasks
  by_cases hr : (h.stage.push_task tasks).1 = ZFZ_PROCESSOR_SUCCESS
  · exact ⟨{ h with stage := (h.stage.push_task tasks).2.1, accepted := h.accepted ++ [tasks] },
      by simp only [free_step, step, hr, if_true], hflag⟩
  · exact ⟨{ h with stage := (h.stage.push_task tasks).2.1 },
      by simp only [free_step, step, hr, if_false], hflag⟩

/-- A `pop_task` call in a sequence that returns sets the sorted flag exactly when it
sorts. -/
theorem pop_call_flag (c : Comparison T) (h : History T) (b : Int) (waited : Bool)
    (h1 : History T) (hs : free_step c h (FreeCall.pop_task b waited) = .ok h1) :
    h1.stage.queue_ordered_flag_ =
      if sorts c h (FreeCall.pop_task b waited) = true then 1
      else h.stage.queue_ordered_flag_ := by
  cases waited with
  | false =>
    simp only [free_step, Except.ok.injEq] at hs
    subst hs
    simp [sorts]
  | true =>
    cases hp : h.stage.pop_task_locked c [] b with
    | error f => simp [free_step, hp] at hs
    | ok res =>
      obtain ⟨r, p1, out⟩ := res
      obtain ⟨h_sorts, h_not⟩ := Processor.pop_task_locked_sort_effect hp
      have hstage : h1.stage = p1 := by
        by_cases hr : r = ZFZ_PROCESSOR_SUCCESS
        · simp only [free_step, hp, hr, if_true, Except.ok.injEq] at hs
          rw [← hs]
        · simp only [free_step, hp, hr, if_false, Except.ok.injEq] at hs
          rw [← hs]
      rw [hstage]
      by_cases hsort : (h.stage.pop_task_locked_traced c [] b).1 = true
      · simp only [sorts, hsort, if_true]
        exact (h_sorts hsort).1
      · have hf : (h.stage.pop_task_locked_traced c [] b).1 = false := by simpa using hsort
        simp only [sorts, hf, Bool.false_eq_true, if_false]
        exact (h_not hf).1

/-- A call sorts only in a state whose sorted flag is 0. -/
theorem sorts_flag (c : Comparison T) (h : History T) (call : FreeCall T)
    (hs : sorts c h call = true) : h.stage.queue_ordered_flag_ = 0 := by
  cases call with
  | push_task tasks => simp [sorts] at hs
  | pop_task b waited =>
    cases waited with
    | false => simp [sorts] at hs
    | true => exact ((Processor.pop_task_locked_traced_fst c h.stage [] b).mp hs).2

/-- In a sequence of calls, the calls that sort are at most the submits, plus one when the
sequence starts with the sorted flag at 0. -/
theorem count_sorts_le (c : Comparison T) :
    ∀ (calls : List (FreeCall T)) (h : History T),
      count_calls c (sorts c) h calls ≤
        count_calls c submits h calls + (if h.stage.queue_ordered_flag_ = 0 then 1 else 0) := by
  intro calls
  induction calls with
  | nil =>
    intro h
    simp [count_calls]
  | cons call calls ih =>
    intro h
    cases call with
    | push_task tasks =>
      obtain ⟨h1, hs, hflag⟩ := push_call_flag c h tasks
      have hih := ih h1
      have hno : sorts c h (FreeCall.push_task tasks) = false := rfl
      simp only [count_calls, hs, hno, Bool.false_eq_true, if_false]
      by_cases hsub : h.submits (FreeCall.push_task tasks) = true
      · simp only [hsub, if_true] at hflag ⊢
        simp only [hflag, if_true] at hih
        split <;> omega
      · have hf : h.submits (FreeCall.push_task tasks) = false := by simpa using hsub
        simp only [hf, Bool.false_eq_true, if_false] at hflag ⊢
        rw [hflag] at hih
        omega
    | pop_task b waited =>
      have hno : submits h (FreeCall.pop_task b waited) = false := rfl
      cases hs : free_step c h (FreeCall.pop_task b waited) with
      | error f =>
        simp only [count_calls, hs, hno, Bool.false_eq_true, if_false]
        by_cases hsort : sorts c h (FreeCall.pop_task b waited) = true
        · have h0 := sorts_flag c h _ hsort
          simp [hsort, h0]
        · simp [hsort]
      | ok h1 =>
        have hflag := pop_call_flag c h b waited h1 hs
        have hih := ih h1
        simp only [count_calls, hs, hno, Bool.false_eq_true, if_false]
        by_cases hsort : sorts c h (FreeCall.pop_task b waited) = true
        · have h0 := sorts_flag c h _ hsort
          simp only [hsort, if_true] at hflag ⊢
          have h10 : ¬ (1 : Int) = 0 := by decide
          simp only [hflag, h10, if_false] at hih
          simp only [h0, if_true]
          omega
        · have hf : sorts c h (FreeCall.pop_task b waited) = false := by simpa using hsort
          simp only [hf, Bool.false_eq_true, if_false] at hflag ⊢
          rw [hflag] at hih
          omega

/-- Every call with a given outcome of the wait keeps the queue in order while the sorted
flag is set. -/
theorem free_step_flagOrdered (c : Comparison T) (hswo : StrictWeakOrder (SFINAE.compare_t c))
    (h : History T) (call : FreeCall T) (h1 : History T)
    (hP : Processor.FlagOrdered c h.stage) (hs : free_step c h call = .ok h1) :
    Processor.FlagOrdered c h1.stage := by
  cases call with
  | push_task tasks => exact step_flagOrdered c hswo h (Call.push_task tasks) h1 hP hs
  | pop_task b waited =>
    cases waited with
    | false =>
      simp only [free_step, Except.ok.injEq] at hs
      subst hs
      exact hP
    | true =>
      obtain ⟨q, f, hq, _, hcases⟩ := Processor.pop_task_locked_cases c h.stage [] b
      have hsorted : q.Pairwise (fun a b => Processor.compare_shared_ptr_t c b a = false) := by
        rw [hq]
        exact (Processor.ordered_queue_isStableSort hswo h.stage hP).2.1
      have hse : ¬ ZFZ_PROCESSOR_QUEUE_EMPTY = ZFZ_PROCESSOR_SUCCESS := by decide
      rcases hcases with ⟨_, heq⟩ | ⟨_, _, _, _, heq⟩ | ⟨_, _, _, _, heq⟩ | ⟨_, _, heq⟩
      · simp only [free_step, heq, hse, if_false, Except.ok.injEq] at hs
        subst hs
        exact hP
      · simp [free_step, heq] at hs
      · simp only [free_step, heq, if_true, Except.ok.injEq] at hs
        subst hs
        intro _
        exact hsorted.sublist (List.drop_sublist _ _)
      · simp only [free_step, heq, if_true, Except.ok.injEq] at hs
        subst hs
        intro _
        exact List.Pairwise.nil

/-- A property kept by every returning call with a given outcome of the wait holds after
every sequence of such calls. -/
theorem free_run_invariant (c : Comparison T) (P : History T → Prop)
    (hstep : ∀ h call h1, P h → free_step c h call = .ok h1 → P h1) :
    ∀ calls h h1, P h → free_run c h calls = .ok h1 → P h1 := by
  intro calls
  induction calls with
  | nil =>
    intro h h1 hP hrun
    simp only [free_run, Except.ok.injEq] at hrun
    exact hrun ▸ hP
  | cons call calls ih =>
    intro h h1 hP hrun
    simp only [free_run] at hrun
    cases hs : free_step c h call with
    | error f => rw [hs] at hrun; exact absurd hrun (by simp)
    | ok h2 =>
      rw [hs] at hrun
      exact ih h2 h1 (hstep h call h2 hP hs) hrun

/-- C25. Lazy sorting.  With the call of `task_queue_.sort` recorded where it stands in the
code: `pop_task` calls the sort exactly when the counter wait succeeded, the tracked size is
positive and `queue_ordered_flag_` is 0; a returning `pop_task` that sorted leaves the flag
at 1, and one that did not sort leaves the flag and the order of the tasks as they were; a
`push_task` call clears the flag exactly when it accepts a non-empty list (a rejected or
empty push leaves it as is).  Hence in every sequence of calls, whatever the outcomes of the
counter waits, the number of `pop_task` calls that sort is at most the number of accepted
non-empty submits, plus one if the sequence starts with the flag at 0 (so at most one sort
between two consecutive successful submits); and for a comparison that is a strict weak
ordering, from a state in which a set flag goes with a sorted queue (such as a new stage),
after every sequence of calls a flag that is not 0 goes with a queue in the order of the
comparison. -/
theorem lazy_sorting (c : Comparison T) (h : History T) (calls : List (FreeCall T)) :
    (∀ tasks b w,
      (Processor.pop_task_traced c h.stage tasks b w).2 = h.stage.pop_task c tasks b w ∧
      ((Processor.pop_task_traced c h.stage tasks b w).1 = true ↔
        (∃ sem, h.stage.task_semphore_.wait w = .ok (ZFZ_SEMPHORE_SUCCESS, sem)) ∧
          0 < h.stage.current_queue_size_ ∧ h.stage.queue_ordered_flag_ = 0)) ∧
    (∀ tasks b w r p1 out, h.stage.pop_task c tasks b w = .ok (r, p1, out) →
      ((Processor.pop_task_traced c h.stage tasks b w).1 = true →
        p1.queue_ordered_flag_ = 1 ∧
        out ++ p1.task_queue_ =
          tasks ++ list_sort (Processor.compare_shared_ptr_t c) h.stage.task_queue_) ∧
      ((Processor.pop_task_traced c h.stage tasks b w).1 = false →
        p1.queue_ordered_flag_ = h.stage.queue_ordered_flag_ ∧
        out ++ p1.task_queue_ = tasks ++ h.stage.task_queue_)) ∧
    (∀ tasks, (h.stage.push_task tasks).2.1.queue_ordered_flag_ =
      if h.submits (FreeCall.push_task tasks) = true then 0
      else h.stage.queue_ordered_flag_) ∧
    count_calls c (sorts c) h calls ≤
      count_calls c submits h calls + (if h.stage.queue_ordered_flag_ = 0 then 1 else 0) ∧
    (StrictWeakOrder (SFINAE.compare_t c) → Processor.FlagOrdered c h.stage →
      ∀ h1, free_run c h calls = .ok h1 → Processor.FlagOrdered c h1.stage) := by
  refine ⟨?_, ?_, ?_, count_sorts_le c calls h, ?_⟩
  · intro tasks b w
    exact ⟨Processor.pop_task_traced_snd c h.stage tasks b w,
      Processor.pop_task_traced_fst c h.stage tasks b w⟩
  · intro tasks b w r p1 out hpop
    exact Processor.pop_task_sort_effect hpop
  · intro tasks
    exact Processor.push_task_flag_effect h.stage tasks
  · intro hswo hord h1 hrun
    exact free_run_invariant c (fun h => Processor.FlagOrdered c h.stage)
      (fun h call h1 hP hs => free_step_flagOrdered c hswo h call h1 hP hs) calls h h1 hord hrun

/-- Witness for C25: in `free_calls_sorts` on a fresh stage of capacity 4 one list is
accepted and, of the three dequeues whose wait succeeded, only the first sorts. -/
theorem lazy_sorting_witness :
    (Processor.pop_task_traced nat_comparison stage_3141 [] 2 200).1 = true ∧
    stage_3141.pop_task nat_comparison [] 2 200 =
      .ok (ZFZ_PROCESSOR_SUCCESS, stage_3141_popped, [⟨1, 1⟩, ⟨3, 1⟩]) ∧
    (Processor.pop_task_traced nat_comparison stage_3141_popped [] 2 200).1 = false ∧
    count_calls nat_comparison (sorts nat_comparison) { stage := stage_cap_4 }
      free_calls_sorts = 1 ∧
    count_calls nat_comparison submits { stage := stage_cap_4 } free_calls_sorts = 1 ∧
    count_calls nat_comparison (sorts nat_comparison) { stage := stage_cap_4 }
        free_calls_sorts ≤
      count_calls nat_comparison submits { stage := stage_cap_4 } free_calls_sorts +
        (if ({ stage := stage_cap_4 } : History Nat).stage.queue_ordered_flag_ = 0 then 1
          else 0) :=
  ⟨by decide, by decide, by decide, by decide, by decide,
    (lazy_sorting nat_comparison { stage := stage_cap_4 } free_calls_sorts).2.2.2.1⟩

end History

/-! ## Permits and pending tasks under interleaving -/

namespace Processor

variable {T : Type}

/-- The two parts of `push_task` make up `push_task`. -/
theorem push_task_eq_parts (p : Processor T) (tasks : TASK_LIST T) :
    p.push_task tasks =
      match p.push_task_enqueue tasks with
      | (some r, p1) => (r, p1, tasks)
      | (none, p1) =>
        ((p1.push_task_signal tasks.length).1, (p1.push_task_signal tasks.length).2, tasks) := by
  unfold push_task push_task_enqueue push_task_signal
  by_cases hl : tasks.length = 0
  · simp [hl]
  · by_cases hfull : size_t_add (to_size_t p.current_queue_size_) tasks.length >
        to_size_t p.max_queue_size_
    · simp [hl, hfull]
    · simp [hl, hfull]

/-- The two parts of the locked part of `pop_task` make up the locked part. -/
theorem pop_task_locked_eq_parts (c : Comparison T) (p : Processor T) (tasks : TASK_LIST T)
    (b : Int) :
    pop_task_locked c p tasks b =
      match pop_task_dequeue c p tasks b with
      | .error f => .error f
      | .ok (r, p1, out, poped_count) => .ok (r, p1.pop_task_release poped_count, out) := by
  have h01 : ¬ (0 : Int) > 1 := by decide
  unfold pop_task_locked pop_task_dequeue pop_task_release
  by_cases hfull : p.queue_full_flag_ = 0 <;> by_cases hsize : p.current_queue_size_ ≤ 0 <;>
    by_cases hord : p.queue_ordered_flag_ = 0 <;>
    by_cases hb : b > 0 ∧ p.current_queue_size_ ≥ b <;>
    simp only [hfull, hsize, hord, hb, h01, ne_eq, not_true_eq_false, not_false_eq_true,
      if_true, if_false, and_self] <;>
    (try split) <;> rfl

/-- The outcomes of the first locked part of `pop_task`, as equations: the queue is empty;
the iterator would leave the list; the batch is a full batch (`q` is the queue once it has
been put in order) and `poped_count` is the batch size; the whole queue is taken and
`poped_count` is 0. -/
theorem pop_task_dequeue_cases (c : Comparison T) (p : Processor T) (tasks : TASK_LIST T)
    (b : Int) :
    ∃ q f,
      q = (if p.queue_ordered_flag_ = 0 then list_sort (compare_shared_ptr_t c) p.task_queue_
            else p.task_queue_) ∧
      f = (if p.queue_ordered_flag_ = 0 then 1 else p.queue_ordered_flag_) ∧
      ((p.current_queue_size_ ≤ 0 ∧
          pop_task_dequeue c p tasks b =
            .ok (ZFZ_PROCESSOR_QUEUE_EMPTY, { p with queue_full_flag_ := 0 }, tasks, 0)) ∨
        (0 < p.current_queue_size_ ∧ 0 < b ∧ b ≤ p.current_queue_size_ ∧
          q.length < b.toNat ∧ pop_task_dequeue c p tasks b = .error Fault.undefined) ∨
        (0 < p.current_queue_size_ ∧ 0 < b ∧ b ≤ p.current_queue_size_ ∧
          b.toNat ≤ q.length ∧
          pop_task_dequeue c p tasks b =
            .ok (ZFZ_PROCESSOR_SUCCESS,
              { p with
                queue_full_flag_ := 0
                task_queue_ := q.drop b.toNat
                queue_ordered_flag_ := f
                current_queue_size_ := p.current_queue_size_ - b },
              tasks ++ q.take b.toNat, b)) ∨
        (0 < p.current_queue_size_ ∧ ¬ (0 < b ∧ b ≤ p.current_queue_size_) ∧
          pop_task_dequeue c p tasks b =
            .ok (ZFZ_PROCESSOR_SUCCESS,
              { p with
                queue_full_flag_ := 0
                task_queue_ := []
                queue_ordered_flag_ := f
                current_queue_size_ := 0 },
              tasks ++ q, 0))) := by
  refine ⟨_, _, rfl, rfl, ?_⟩
  rcases p with ⟨queue, size, full, ⟨count⟩, maxq, ordered, bs, wt, tl, mt, np, pid, pname⟩
  by_cases hsize : size ≤ 0
  · left
    refine ⟨hsize, ?_⟩
    by_cases hfull : full = 0 <;> simp [pop_task_dequeue, hsize, hfull]
  · right
    have hpos : 0 < size := by omega
    by_cases hb : 0 < b ∧ b ≤ size
    · by_cases hlen : b.toNat ≤
          (if ordered = 0 then list_sort (compare_shared_ptr_t c) queue else queue).length
      · right; left
        refine ⟨hpos, hb.1, hb.2, hlen, ?_⟩
        by_cases hfull : full = 0 <;> by_cases hord : ordered = 0 <;>
          simp only [hord, if_true, if_false] at hlen <;>
          simp [pop_task_dequeue, hsize, hb.1, hb.2, hfull, hord, Nat.not_lt.mpr hlen]
      · left
        refine ⟨hpos, hb.1, hb.2, Nat.not_le.mp hlen, ?_⟩
        by_cases hfull : full = 0 <;> by_cases hord : ordered = 0 <;>
          simp only [hord, if_true, if_false] at hlen <;>
          simp [pop_task_dequeue, hsize, hb.1, hb.2, hfull, hord, Nat.not_le.mp hlen]
    · right; right
      refine ⟨hpos, hb, ?_⟩
      by_cases hfull : full = 0 <;> by_cases hord : ordered = 0 <;>
        simp [pop_task_dequeue, hsize, hb, hfull, hord]

end Processor

namespace Interleaving

variable {T : Type}

/-- Every atomic step that can be taken keeps every queued task covered. -/
theorem step_covered (c : Comparison T) (s : Interleaving T) (action : Action T)
    (s1 : Interleaving T)
    (hlen : ∀ tasks, action = Action.push_task_enqueue tasks → tasks.length ≤ LIST_MAX_SIZE)
    (hP : Covered s) (hs : step c s action = .ok s1) : Covered s1 := by
  rcases s with ⟨stage, waited, held⟩
  obtain ⟨⟨hm0, hm⟩, ⟨hs0, hsm⟩, hsl, hc0, hcov⟩ := hP
  simp only at hm0 hm hs0 hsm hsl hc0 hcov
  cases action with
  | push_task_enqueue tasks =>
    by_cases hl : tasks.length = 0
    · simp only [step, hl, if_true, Except.ok.injEq] at hs
      subst hs
      exact ⟨⟨hm0, hm⟩, ⟨hs0, hsm⟩, hsl, hc0, hcov⟩
    · cases held with
      | some x => simp [step, hl] at hs
      | none =>
        simp only [unsignalled] at hcov
        by_cases hfull : size_t_add (to_size_t stage.current_queue_size_) tasks.length >
            to_size_t stage.max_queue_size_
        · simp only [step, hl, if_false, Processor.push_task_enqueue, hfull, if_true,
            Except.ok.injEq] at hs
          subst hs
          by_cases hflag : stage.queue_full_flag_ = 0
          · simp only [hflag, if_true]
            exact ⟨⟨hm0, hm⟩, ⟨hs0, hsm⟩, hsl, hc0, hcov⟩
          · simp only [hflag, if_false]
            exact ⟨⟨hm0, hm⟩, ⟨hs0, hsm⟩, hsl, hc0, hcov⟩
        · simp only [step, hl, if_false, Processor.push_task_enqueue, hfull,
            Except.ok.injEq] at hs
          subst hs
          have hfit : ¬ (stage.current_queue_size_ + tasks.length > stage.max_queue_size_) :=
            fun hgt => hfull ((Processor.push_task_full_test hs0 (by omega) hm0 hm
              (hlen tasks rfl)).mpr hgt)
          have hint : to_int (size_t_add (to_size_t stage.current_queue_size_) tasks.length)
              = stage.current_queue_size_ + tasks.length := by
            apply to_int_size_t_add
            · unfold is_int INT_MIN INT_MAX; unfold INT_MAX at hm; omega
            · unfold is_int INT_MIN INT_MAX; unfold INT_MAX at hm; omega
          refine ⟨⟨hm0, hm⟩, ⟨?_, ?_⟩, ?_, hc0, ?_⟩
          · simp only [hint]; omega
          · simp only [hint]; omega
          · simp only [hint, List.length_append]; push_cast; omega
          · simp only [hint, unsignalled]; omega
  | push_task_signal =>
    cases held with
    | none => simp [step] at hs
    | some x =>
      cases x with
      | pop_task k => simp [step] at hs
      | push_task n =>
        simp only [step, Processor.push_task_signal, Semphore.signal, Except.ok.injEq] at hs
        subst hs
        simp only [unsignalled] at hcov
        refine ⟨⟨hm0, hm⟩, ⟨hs0, hsm⟩, hsl, ?_, ?_⟩
        · simp only; omega
        · simp only [unsignalled]; omega
  | pop_task_wait w =>
    by_cases hc : stage.task_semphore_.count > 0
    · simp only [step, Semphore.wait, hc, if_true, ne_eq, not_true_eq_false, if_false,
        Except.ok.injEq] at hs
      subst hs
      refine ⟨⟨hm0, hm⟩, ⟨hs0, hsm⟩, hsl, ?_, ?_⟩
      · simp only; omega
      · simp only [unsignalled] at hcov ⊢
        push_cast
        omega
    · by_cases hw : w < 0
      · simp [step, Semphore.wait, hc, hw] at hs
      · have hts : ¬ ZFZ_SEMPHORE_TIME_OUT = ZFZ_SEMPHORE_SUCCESS := by decide
        simp only [step, Semphore.wait, hc, hw, if_false, ne_eq, hts, not_false_eq_true,
          if_true, Except.ok.injEq] at hs
        subst hs
        exact ⟨⟨hm0, hm⟩, ⟨hs0, hsm⟩, hsl, hc0, hcov⟩
  | pop_task_dequeue b =>
    by_cases hw : waited = 0
    · simp [step, hw] at hs
    · cases held with
      | some x => simp [step, hw] at hs
      | none =>
        simp only [unsignalled] at hcov
        have hse : ¬ ZFZ_PROCESSOR_SUCCESS = ZFZ_PROCESSOR_QUEUE_EMPTY := by decide
        have hwpos : (1 : Int) ≤ (waited : Int) := by omega
        have hwc : ((waited - 1 : Nat) : Int) = (waited : Int) - 1 := by omega
        obtain ⟨q, f, hq, _, hcases⟩ := Processor.pop_task_dequeue_cases c stage [] b
        have hlenq : q.length = stage.task_queue_.length := by
          rw [hq]; exact (History.ordered_queue_perm c stage).length_eq
        rcases hcases with ⟨hz, heq⟩ | ⟨_, _, hb1, hbl, _⟩ | ⟨hpos, hb0, hb1, hbl, heq⟩ |
          ⟨hpos, _, heq⟩
        · simp only [step, hw, if_false, heq, if_true, Except.ok.injEq] at hs
          subst hs
          refine ⟨⟨hm0, hm⟩, ⟨hs0, hsm⟩, hsl, hc0, ?_⟩
          simp only [unsignalled, hwc]
          omega
        · omega
        · simp only [step, hw, if_false, heq, hse, Except.ok.injEq] at hs
          subst hs
          refine ⟨⟨hm0, hm⟩, ⟨?_, ?_⟩, ?_, hc0, ?_⟩
          · simp only; omega
          · simp only; omega
          · simp only [List.length_drop]; omega
          · simp only [unsignalled, hwc]
            omega
        · simp only [step, hw, if_false, heq, hse, Except.ok.injEq] at hs
          subst hs
          refine ⟨⟨hm0, hm⟩, ⟨le_refl _, hm0⟩, by simp, hc0, ?_⟩
          simp only [unsignalled, hwc]
          omega
  | pop_task_release =>
    cases held with
    | none => simp [step] at hs
    | some x =>
      cases x with
      | push_task n => simp [step] at hs
      | pop_task k =>
        simp only [step, Except.ok.injEq] at hs
        subst hs
        simp only [unsignalled] at hcov
        by_cases hk : k > 1
        · simp only [Processor.pop_task_release, hk, if_true, Semphore.release,
            Semphore.signal]
          refine ⟨⟨hm0, hm⟩, ⟨hs0, hsm⟩, hsl, ?_, ?_⟩
          · simp only; omega
          · simp only [unsignalled]; omega
        · simp only [Processor.pop_task_release, hk, if_false]
          exact ⟨⟨hm0, hm⟩, ⟨hs0, hsm⟩, hsl, hc0, by simpa only [unsignalled] using hcov⟩

/-- Every sequence of atomic steps that can be taken keeps every queued task covered. -/
theorem run_covered (c : Comparison T) :
    ∀ (actions : List (Action T)) (s s1 : Interleaving T), Covered s →
      (∀ tasks, Action.push_task_enqueue tasks ∈ actions → tasks.length ≤ LIST_MAX_SIZE) →
      run c s actions = .ok s1 → Covered s1 := by
  intro actions
  induction actions with
  | nil =>
    intro s s1 hP _ hrun
    simp only [run, Except.ok.injEq] at hrun
    exact hrun ▸ hP
  | cons action actions ih =>
    intro s s1 hP hl hrun
    simp only [run] at hrun
    cases hs : step c s action with
    | error f => rw [hs] at hrun; exact absurd hrun (by simp)
    | ok s2 =>
      rw [hs] at hrun
      exact ih s2 s1
        (step_covered c s action s2 (fun tasks e => hl tasks (e ▸ List.mem_cons_self _ _))
          hP hs)
        (fun tasks hm => hl tasks (List.mem_cons_of_mem _ hm)) hrun

end Interleaving

namespace Interleaving

variable {T : Type}

/-- C28, counterexample. On a new stage one task is submitted.  When a first worker has
passed the counter wait of `pop_task` (line 521) and not yet taken `queue_lock_`, the count
of the counter is 0 while `current_queue_size_` is 1 and the task is still queued, and the
`pop_task` of a second worker that polls the counter returns `ZFZ_PROCESSOR_TIME_OUT`.  The
same holds when `push_task` has queued the task (line 511) and not yet signalled the
counter (line 512). -/
theorem timeout_with_pending_task :
    run nat_comparison { stage := {} }
        [Action.push_task_enqueue [⟨0, 7⟩], Action.push_task_signal, Action.pop_task_wait 200] =
      .ok interleaving_waited ∧
    interleaving_waited.stage.task_queue_ = [⟨0, 7⟩] ∧
    interleaving_waited.stage.task_semphore_.count <
      interleaving_waited.stage.current_queue_size_ ∧
    interleaving_waited.stage.pop_task nat_comparison [] 1 0 =
      .ok (ZFZ_PROCESSOR_TIME_OUT, interleaving_waited.stage, []) ∧
    run nat_comparison { stage := {} } [Action.push_task_enqueue [⟨0, 7⟩]] =
      .ok interleaving_unsignalled ∧
    interleaving_unsignalled.stage.task_queue_ = [⟨0, 7⟩] ∧
    interleaving_unsignalled.stage.task_semphore_.count <
      interleaving_unsignalled.stage.current_queue_size_ ∧
    interleaving_unsignalled.stage.pop_task nat_comparison [] 1 0 =
      .ok (ZFZ_PROCESSOR_TIME_OUT, interleaving_unsignalled.stage, []) := by
  refine ⟨by decide, by decide, by decide, by decide, by decide, by decide, by decide,
    by decide⟩

/-- C28, amended. For the counter modelled from the spec (`signal(n)` and `release(n)` add
`n`, a successful wait needs a positive count and subtracts 1): in every state reached from
a fresh stage (empty queue, no permit, a capacity that is a non-negative `int`) by
`push_task` and `pop_task` calls of several threads, interleaved at their counter
operations, `current_queue_size_` is at most the count of the counter plus the number of
`pop_task` calls that have passed the wait and not yet taken `queue_lock_` plus the number
of tasks queued and not yet signalled by the `push_task` in progress.  Hence a counter wait
that does not succeed (so that `pop_task` returns `ZFZ_PROCESSOR_TIME_OUT`) finds every
queued task covered by a call in progress; and when no call is in progress the count is at
least `current_queue_size_`, a non-empty queue makes the wait succeed and `pop_task` return
`ZFZ_PROCESSOR_SUCCESS`, and `ZFZ_PROCESSOR_TIME_OUT` is returned only when the queue is
empty.  (The submitted lists are lists a `std::list` can hold.) -/
theorem permits_cover_queue (c : Comparison T) (p0 : Processor T) (actions : List (Action T))
    (hq : p0.task_queue_ = []) (hs : p0.current_queue_size_ = 0)
    (hc : p0.task_semphore_.count = 0)
    (hm0 : 0 ≤ p0.max_queue_size_) (hm : p0.max_queue_size_ ≤ INT_MAX)
    (hlen : ∀ tasks, Action.push_task_enqueue tasks ∈ actions →
      tasks.length ≤ LIST_MAX_SIZE)
    (s : Interleaving T) (hrun : run c { stage := p0 } actions = .ok s) :
    s.stage.current_queue_size_ ≤
      s.stage.task_semphore_.count + (s.waited : Int) + (s.unsignalled : Int) ∧
    (∀ w r sem, s.stage.task_semphore_.wait w = .ok (r, sem) → r ≠ ZFZ_SEMPHORE_SUCCESS →
      s.stage.current_queue_size_ ≤ (s.waited : Int) + (s.unsignalled : Int)) ∧
    (s.waited = 0 → s.held = none →
      s.stage.current_queue_size_ ≤ s.stage.task_semphore_.count ∧
      (s.stage.task_queue_ ≠ [] → ∀ tasks b w,
        (∃ sem, s.stage.task_semphore_.wait w = .ok (ZFZ_SEMPHORE_SUCCESS, sem)) ∧
        ∃ p1 out, s.stage.pop_task c tasks b w = .ok (ZFZ_PROCESSOR_SUCCESS, p1, out)) ∧
      (∀ tasks b w p1 out,
        s.stage.pop_task c tasks b w = .ok (ZFZ_PROCESSOR_TIME_OUT, p1, out) →
          s.stage.task_queue_ = [])) := by
  have h0 : Covered ({ stage := p0 } : Interleaving T) := by
    unfold Covered unsignalled
    simp [hq, hs, hc, hm0, hm]
  obtain ⟨_, ⟨hs0, _⟩, hsl, hc0, hcov⟩ := run_covered c actions _ s h0 hlen hrun
  refine ⟨hcov, ?_, ?_⟩
  · intro w r sem hw hr
    have hcount : ¬ 0 < s.stage.task_semphore_.count := by
      intro hpos
      have hsucc : s.stage.task_semphore_.wait w =
          .ok (ZFZ_SEMPHORE_SUCCESS, { count := s.stage.task_semphore_.count - 1 }) := by
        simp only [Semphore.wait, gt_iff_lt, hpos, if_true]
      rw [hsucc] at hw
      simp only [Except.ok.injEq, Prod.mk.injEq] at hw
      exact hr hw.1.symm
    omega
  · intro hw0 hheld
    have hquiet : s.stage.current_queue_size_ ≤ s.stage.task_semphore_.count := by
      have hu : s.unsignalled = 0 := by simp [unsignalled, hheld]
      rw [hw0, hu] at hcov
      simpa using hcov
    refine ⟨hquiet, ?_, ?_⟩
    · intro hne tasks b w
      have hpos : 0 < s.stage.task_queue_.length := List.length_pos.mpr hne
      have hsize : 0 < s.stage.current_queue_size_ := by omega
      have hcpos : 0 < s.stage.task_semphore_.count := by omega
      refine ⟨⟨{ count := s.stage.task_semphore_.count - 1 },
        by simp only [Semphore.wait, gt_iff_lt, hcpos, if_true]⟩, ?_⟩
      rcases Processor.pop_task_cases c s.stage tasks b w with
        ⟨hc1, _, _⟩ | ⟨hc1, _, _⟩ | ⟨_, heq⟩
      · omega
      · omega
      · obtain ⟨q, f, hq2, _, hcases⟩ := Processor.pop_task_locked_cases c
          { s.stage with task_semphore_ := { count := s.stage.task_semphore_.count - 1 } }
          tasks b
        have hlenq : q.length = s.stage.task_queue_.length := by
          rw [hq2]; exact (History.ordered_queue_perm c s.stage).length_eq
        rcases hcases with ⟨hz, _⟩ | ⟨_, _, hb1, hbl, _⟩ | ⟨_, _, _, _, heq2⟩ | ⟨_, _, heq2⟩
        · exact absurd hz (by simpa using hsize)
        · simp only at hb1
          omega
        · exact ⟨_, _, by rw [heq, heq2]⟩
        · exact ⟨_, _, by rw [heq, heq2]⟩
    · intro tasks b w p1 out hpop
      have hst : ¬ ZFZ_PROCESSOR_SUCCESS = ZFZ_PROCESSOR_TIME_OUT := by decide
      have het : ¬ ZFZ_PROCESSOR_QUEUE_EMPTY = ZFZ_PROCESSOR_TIME_OUT := by decide
      rcases Processor.pop_task_cases c s.stage tasks b w with
        ⟨_, _, heq⟩ | ⟨hc1, _, _⟩ | ⟨_, heq⟩
      · rw [heq] at hpop
        exact absurd hpop (by simp)
      · have : s.stage.task_queue_.length = 0 := by omega
        exact List.length_eq_zero.mp this
      · rw [heq] at hpop
        obtain ⟨q, f, _, _, hcases⟩ := Processor.pop_task_locked_cases c
          { s.stage with task_semphore_ := { count := s.stage.task_semphore_.count - 1 } }
          tasks b
        rcases hcases with ⟨_, heq2⟩ | ⟨_, _, _, _, heq2⟩ | ⟨_, _, _, _, heq2⟩ |
          ⟨_, _, heq2⟩ <;> rw [heq2] at hpop
        · simp only [Except.ok.injEq, Prod.mk.injEq] at hpop
          exact absurd hpop.1 het
        · exact absurd hpop (by simp)
        · simp only [Except.ok.injEq, Prod.mk.injEq] at hpop
          exact absurd hpop.1 hst
        · simp only [Except.ok.injEq, Prod.mk.injEq] at hpop
          exact absurd hpop.1 hst

/-- Witness for C28, amended: a new stage after a whole `push_task` of one task holds one
permit for its task, and after a whole `pop_task` it holds neither. -/
theorem permits_cover_queue_witness :
    run nat_comparison { stage := {} } actions_push_pop = .ok interleaving_push_pop ∧
    run nat_comparison { stage := {} }
        [Action.push_task_enqueue [⟨0, 7⟩], Action.push_task_signal] =
      .ok interleaving_signalled ∧
    interleaving_signalled.stage.current_queue_size_ ≤
      interleaving_signalled.stage.task_semphore_.count ∧
    (interleaving_signalled.stage.task_queue_ ≠ [] → ∀ (tasks : TASK_LIST Nat) b w,
      (∃ sem, interleaving_signalled.stage.task_semphore_.wait w =
        .ok (ZFZ_SEMPHORE_SUCCESS, sem)) ∧
      ∃ p1 out, interleaving_signalled.stage.pop_task nat_comparison tasks b w =
        .ok (ZFZ_PROCESSOR_SUCCESS, p1, out)) ∧
    (∀ (tasks : TASK_LIST Nat) b w p1 out,
      interleaving_signalled.stage.pop_task nat_comparison tasks b w =
        .ok (ZFZ_PROCESSOR_TIME_OUT, p1, out) →
          interleaving_signalled.stage.task_queue_ = []) :=
  ⟨by decide, by decide,
    (permits_cover_queue nat_comparison {}
      [Action.push_task_enqueue [⟨0, 7⟩], Action.push_task_signal] rfl rfl rfl
      (by decide) (by decide)
      (by
        intro tasks hm
        simp only [List.mem_cons, Action.push_task_enqueue.injEq, List.mem_singleton,
          reduceCtorEq, List.not_mem_nil, or_false] at hm
        rw [hm]
        decide)
      interleaving_signalled (by decide)).2.2 rfl rfl⟩

end Interleaving

end zfz
